import Mathlib

/-!
# overlaynetwork: record validator, bootstrap resolver, node construction

A shallow embedding of `validator.go`, `dns.go` and `node.go` of the
`overlaynetwork` package, together with models of the library functions they
call (`crypto/sha256`, `encoding/hex`, `encoding/binary`, `encoding/base32`,
`net`, `strings`, `strconv`, `record.SplitKey`, `go-multiaddr`, `go-multihash`,
base58).

Go strings and byte slices are both sequences of bytes and are modelled as
`List UInt8`; string constants of the source are written `str "..."`.
-/

namespace Overlay

/-- Go `[]byte` and Go `string`: a finite sequence of bytes. -/
abbrev Bytes := List UInt8

/-- The bytes of an ASCII string constant of the source. -/
def str (s : String) : Bytes := s.toList.map (fun c => UInt8.ofNat c.toNat)

/-! ## Errors -/

/-- Go `error` values that the package can return.  Package-level sentinels are
constructors of their own; an error allocated at the return site by
`errors.New` or `fmt.Errorf` is `errorsNew msg`, which is never equal to a
sentinel (Go compares the allocated pointers). -/
inductive Error where
  /-- Sentinel `record.ErrInvalidRecordType` of go-libp2p-record. -/
  | ErrInvalidRecordType
  /-- Sentinel `ErrInvalidNamespace` of validator.go. -/
  | ErrInvalidNamespace
  /-- Sentinel `ErrInvalidSha256Record` of validator.go. -/
  | ErrInvalidSha256Record
  /-- Sentinel `ma.ErrProtocolNotFound` of go-multiaddr. -/
  | ErrProtocolNotFound
  /-- Sentinel `mh.ErrInvalidMultihash` of go-multihash (base58 decoding failed). -/
  | ErrInvalidMultihash
  /-- Sentinel `mh.ErrTooShort` of go-multihash. -/
  | ErrTooShort
  /-- Sentinel `mh.ErrUnknownCode` of go-multihash. -/
  | ErrUnknownCode
  /-- Sentinel `mh.ErrVarintBufferShort` of go-multihash. -/
  | ErrVarintBufferShort
  /-- Sentinel `mh.ErrVarintTooLong` of go-multihash. -/
  | ErrVarintTooLong
  /-- The value `mh.ErrInconsistentLen{dm}` of go-multihash. -/
  | ErrInconsistentLen
  /-- An error allocated by `errors.New(msg)` or `fmt.Errorf` at the return site. -/
  | errorsNew (msg : String)
  /-- An error produced by an external constructor or by the network. -/
  | external (code : Nat)
  /-- A run-time panic (not a Go `error`): the model carries it in the error
  channel so that a panicking call is never mistaken for a returned value. -/
  | panic (msg : String)
  deriving DecidableEq, Repr

/-- Results of fallible calls are compared by comparing the error or the value. -/
instance instDecidableEqExcept {ε α : Type} [DecidableEq ε] [DecidableEq α] :
    DecidableEq (Except ε α)
  | .ok a, .ok b => if h : a = b then isTrue (by rw [h]) else isFalse (by simp [h])
  | .error a, .error b => if h : a = b then isTrue (by rw [h]) else isFalse (by simp [h])
  | .ok _, .error _ => isFalse (by simp)
  | .error _, .ok _ => isFalse (by simp)

/-! ## crypto/sha256 -/

/-- The round constants of SHA-256 (`_K` in crypto/sha256). -/
def K256 : List Nat :=
  [0x428a2f98, 0x71374491, 0xb5c0fbcf, 0xe9b5dba5, 0x3956c25b, 0x59f111f1, 0x923f82a4, 0xab1c5ed5,
   0xd807aa98, 0x12835b01, 0x243185be, 0x550c7dc3, 0x72be5d74, 0x80deb1fe, 0x9bdc06a7, 0xc19bf174,
   0xe49b69c1, 0xefbe4786, 0x0fc19dc6, 0x240ca1cc, 0x2de92c6f, 0x4a7484aa, 0x5cb0a9dc, 0x76f988da,
   0x983e5152, 0xa831c66d, 0xb00327c8, 0xbf597fc7, 0xc6e00bf3, 0xd5a79147, 0x06ca6351, 0x14292967,
   0x27b70a85, 0x2e1b2138, 0x4d2c6dfc, 0x53380d13, 0x650a7354, 0x766a0abb, 0x81c2c92e, 0x92722c85,
   0xa2bfe8a1, 0xa81a664b, 0xc24b8b70, 0xc76c51a3, 0xd192e819, 0xd6990624, 0xf40e3585, 0x106aa070,
   0x19a4c116, 0x1e376c08, 0x2748774c, 0x34b0bcb5, 0x391c0cb3, 0x4ed8aa4a, 0x5b9cca4f, 0x682e6ff3,
   0x748f82ee, 0x78a5636f, 0x84c87814, 0x8cc70208, 0x90befffa, 0xa4506ceb, 0xbef9a3f7, 0xc67178f2]

/-- Rotate a 32-bit word right by `n` bits (`bits.RotateLeft32(x, -n)`). -/
def rotr32 (x n : Nat) : Nat := ((x >>> n) ||| (x <<< (32 - n))) % 2 ^ 32

/-- Addition of 32-bit words (Go `uint32` addition wraps). -/
def add32 (x y : Nat) : Nat := (x + y) % 2 ^ 32

/-- Big-endian 32-bit word of four bytes. -/
def be32 (b0 b1 b2 b3 : UInt8) : Nat :=
  b0.toNat * 2 ^ 24 + b1.toNat * 2 ^ 16 + b2.toNat * 2 ^ 8 + b3.toNat

/-- The sixteen big-endian words of one 64-byte block. -/
def blockWords : Bytes → List Nat
  | b0 :: b1 :: b2 :: b3 :: rest => be32 b0 b1 b2 b3 :: blockWords rest
  | _ => []

/-- The message schedule `w[0..63]` of one block. -/
def schedule (w16 : List Nat) : List Nat :=
  (List.range 48).foldl (fun w _ =>
    let n := w.length
    let v1 := w.getD (n - 2) 0
    let t1 := rotr32 v1 17 ^^^ rotr32 v1 19 ^^^ (v1 >>> 10)
    let v2 := w.getD (n - 15) 0
    let t2 := rotr32 v2 7 ^^^ rotr32 v2 18 ^^^ (v2 >>> 3)
    w ++ [add32 (add32 (add32 t1 (w.getD (n - 7) 0)) t2) (w.getD (n - 16) 0)]) w16

/-- The eight working variables of the compression function. -/
structure Digest where
  a : Nat
  b : Nat
  c : Nat
  d : Nat
  e : Nat
  f : Nat
  g : Nat
  h : Nat
  deriving DecidableEq, Repr

/-- One round of the SHA-256 compression function with `k = _K[i]`, `w = w[i]`. -/
def round256 (s : Digest) (k w : Nat) : Digest :=
  let t1 := add32 (add32 (add32 (add32 s.h
      (rotr32 s.e 6 ^^^ rotr32 s.e 11 ^^^ rotr32 s.e 25))
      ((s.e &&& s.f) ^^^ ((s.e ^^^ 0xffffffff) &&& s.g))) k) w
  let t2 := add32 (rotr32 s.a 2 ^^^ rotr32 s.a 13 ^^^ rotr32 s.a 22)
      ((s.a &&& s.b) ^^^ (s.a &&& s.c) ^^^ (s.b &&& s.c))
  { a := add32 t1 t2, b := s.a, c := s.b, d := s.c,
    e := add32 s.d t1, f := s.e, g := s.f, h := s.g }

/-- The block function: 64 rounds, then the feed-forward addition. -/
def block256 (s : Digest) (blk : Bytes) : Digest :=
  let r := (List.zip K256 (schedule (blockWords blk))).foldl
    (fun acc kw => round256 acc kw.1 kw.2) s
  { a := add32 s.a r.a, b := add32 s.b r.b, c := add32 s.c r.c, d := add32 s.d r.d,
    e := add32 s.e r.e, f := add32 s.f r.f, g := add32 s.g r.g, h := add32 s.h r.h }

/-- Big-endian bytes of a number, `n` bytes wide. -/
def beBytes : Nat → Nat → Bytes
  | 0, _ => []
  | n + 1, x => UInt8.ofNat (x / 256 ^ n % 256) :: beBytes n x

/-- The padded message: a `0x80` byte, zero bytes up to 56 mod 64, and the
bit length as a 64-bit big-endian number. -/
def pad256 (msg : Bytes) : Bytes :=
  msg ++ [0x80] ++ List.replicate ((119 - msg.length % 64) % 64) 0
    ++ beBytes 8 (msg.length * 8 % 2 ^ 64)

/-- Process the padded message block by block; `n` is the number of blocks. -/
def blocks256 : Nat → Digest → Bytes → Digest
  | 0, s, _ => s
  | n + 1, s, bs => blocks256 n (block256 s (bs.take 64)) (bs.drop 64)

/-- The function `sha256.Sum256`: the 32-byte SHA-256 digest of the data; the initial hash
value is `init0` .. `init7`. -/
def Sum256 (data : Bytes) : Bytes :=
  let p := pad256 data
  let s := blocks256 (p.length / 64)
    { a := 0x6a09e667, b := 0xbb67ae85, c := 0x3c6ef372, d := 0xa54ff53a,
      e := 0x510e527f, f := 0x9b05688c, g := 0x1f83d9ab, h := 0x5be0cd19 } p
  [s.a, s.b, s.c, s.d, s.e, s.f, s.g, s.h].flatMap (beBytes 4)

/-! ## encoding/hex -/

/-- The alphabet of `hex.EncodeToString`: `hextable = "0123456789abcdef"`. -/
def hextable : Bytes := str "0123456789abcdef"

/-- The function `hex.EncodeToString`: two lowercase hex digits per byte, high nibble first. -/
def EncodeToString : Bytes → Bytes
  | [] => []
  | v :: rest =>
    hextable.getD (v >>> 4).toNat 0 :: hextable.getD (v &&& 0x0f).toNat 0 :: EncodeToString rest

/-! ## go-libp2p-record: SplitKey -/

/-- The function `strings.IndexByte(s, c)`: index of the first `c` in `s`, `none` for Go's `-1`. -/
def IndexByte : Bytes → UInt8 → Option Nat
  | [], _ => none
  | b :: rest, c => if b = c then some 0 else (IndexByte rest c).map (· + 1)

/-- The function `record.SplitKey`: a key of the form `/$namespace/$path` is split into
`$namespace` and `$path`; anything else is `ErrInvalidRecordType`. -/
def SplitKey (key : Bytes) : Except Error (Bytes × Bytes) :=
  match key with
  | [] => .error .ErrInvalidRecordType
  | c :: key =>
    if c ≠ 47 then .error .ErrInvalidRecordType
    else
      match IndexByte key 47 with
      | none => .error .ErrInvalidRecordType
      | some 0 => .error .ErrInvalidRecordType
      | some i => .ok (key.take i, key.drop (i + 1))

/-! ## validator.go -/

/-- The function `Sha256Validator.Validate`: `Except.ok ()` is Go's `nil` error. -/
def Validate (key : Bytes) (value : Bytes) : Except Error Unit :=
  match SplitKey key with
  | .error err => .error err
  | .ok (ns, key) =>
    if ns ≠ str "sha256" then .error (.errorsNew "namespace not 'sha256'")
    else
      let h := Sum256 value
      if key ≠ EncodeToString h then .error .ErrInvalidSha256Record
      else .ok ()

/-- The function `Sha256Validator.Select`. -/
def Select (_key : Bytes) (_values : List Bytes) : Nat × Option Error := (0, none)

/-! ## strconv, strings -/

/-- Value of a string of decimal digits, `none` if a byte is not a digit. -/
def parseDigits : Bytes → Nat → Option Nat
  | [], n => some n
  | c :: rest, n => if 48 ≤ c ∧ c ≤ 57 then parseDigits rest (n * 10 + (c.toNat - 48)) else none

/-- The string without a leading `+` or `-`. -/
def stripSign : Bytes → Bytes
  | 43 :: r => r
  | 45 :: r => r
  | r => r

/-- The function `strconv.Atoi` on a 64-bit platform: an optional sign, at least one
decimal digit, and a value in the range of `int`; the `*NumError` is rendered
as `errorsNew`. -/
def Atoi (s : Bytes) : Except Error Int :=
  match stripSign s with
  | [] => .error (.errorsNew "strconv.Atoi: invalid syntax")
  | body =>
    match parseDigits body 0 with
    | none => .error (.errorsNew "strconv.Atoi: invalid syntax")
    | some n =>
      let i : Int := if s.head? = some 45 then - (n : Int) else (n : Int)
      if i < - (2 : Int) ^ 63 ∨ (2 : Int) ^ 63 ≤ i then
        .error (.errorsNew "strconv.Atoi: value out of range")
      else .ok i

/-- The decimal digits of `n`, most significant first, prepended to `acc`;
the first argument bounds the number of digits. -/
def itoaAux : Nat → Nat → Bytes → Bytes
  | 0, _, acc => acc
  | fuel + 1, n, acc =>
    let acc := UInt8.ofNat (48 + n % 10) :: acc
    if n / 10 = 0 then acc else itoaAux fuel (n / 10) acc

/-- The function `strconv.Itoa` for a non-negative number. -/
def Itoa (n : Nat) : Bytes := itoaAux (n + 1) n []

/-- The function `strings.Split(s, sep)` for a one-byte separator: the pieces between the
separators, at least one piece. -/
def Split : Bytes → UInt8 → List Bytes
  | [], _ => [[]]
  | c :: rest, sep =>
    if c = sep then [] :: Split rest sep
    else
      match Split rest sep with
      | [] => [[c]]
      | seg :: segs => (c :: seg) :: segs

/-- The function `strings.TrimRight(s, cutset)` for a one-byte cutset. -/
def TrimRight : Bytes → UInt8 → Bytes
  | [], _ => []
  | c :: rest, cut =>
    match TrimRight rest cut with
    | [] => if c = cut then [] else [c]
    | r => c :: r

/-- The function `strings.LastIndex(s, substr)`: the index of the last occurrence of
`substr` in `s`, `none` for Go's `-1`. -/
def LastIndex : Bytes → Bytes → Option Nat
  | [], substr => if substr = [] then some 0 else none
  | c :: rest, substr =>
    match LastIndex rest substr with
    | some i => some (i + 1)
    | none => if substr.isPrefixOf (c :: rest) then some 0 else none

/-! ## encoding/binary, base58, go-multihash -/

/-- The function `binary.Uvarint`: the decoded value and the number of bytes read; `0` bytes
read when the buffer ends early, a negative count on overflow of 64 bits.
`i` is the index of the next byte, `x` the value so far, `s` the shift. -/
def UvarintLoop : Bytes → Nat → Nat → Nat → Nat × Int
  | [], _, _, _ => (0, 0)
  | b :: rest, i, x, s =>
    if b < 0x80 then
      if i > 9 ∨ (i = 9 ∧ b > 1) then (0, - ((i : Int) + 1))
      else ((x ||| (b.toNat <<< s)) % 2 ^ 64, (i : Int) + 1)
    else UvarintLoop rest (i + 1) ((x ||| ((b &&& 0x7f).toNat <<< s)) % 2 ^ 64) (s + 7)

/-- The function `binary.Uvarint(buf)`. -/
def Uvarint (buf : Bytes) : Nat × Int := UvarintLoop buf 0 0 0

/-- The loop of `binary.PutUvarint`: while `x >= 0x80` the byte `byte(x) | 0x80`
is written and `x` is shifted right by 7 bits; the last byte is `byte(x)`.
The first argument bounds the number of continuation bytes. -/
def PutUvarintLoop : Nat → Nat → Bytes
  | 0, x => [UInt8.ofNat x]
  | fuel + 1, x =>
    if x ≥ 0x80 then (UInt8.ofNat x ||| 0x80) :: PutUvarintLoop fuel (x >>> 7)
    else [UInt8.ofNat x]

/-- The function `binary.PutUvarint` on a `uint64`: the bytes written (at most ten). -/
def PutUvarint (x : Nat) : Bytes := PutUvarintLoop 9 (x % 2 ^ 64)

/-- The helper `uvarint` of go-multihash: the value and the rest of the buffer. -/
def uvarint (buf : Bytes) : Except Error (Nat × Bytes) :=
  let (n, c) := Uvarint buf
  if c = 0 then .error .ErrVarintBufferShort
  else if c < 0 then .error .ErrVarintTooLong
  else .ok (n, buf.drop c.toNat)

/-- The function `mh.ValidCode`: the hash function codes of the table `mh.Codes`
of go-multihash, that is identity (`0x00`), sha1 (`0x11`), sha2-256 (`0x12`),
sha2-512 (`0x13`), sha3-512 to sha3-224 (`0x14` to `0x17`), shake-128 and
shake-256 (`0x18`, `0x19`), keccak-224 to keccak-512 (`0x1A` to `0x1D`),
murmur3 (`0x22`), dbl-sha2-256 (`0x56`), x11 (`0x1100`) and the blake2b and
blake2s ranges (`0xb201` to `0xb260`). -/
def ValidCode (code : Nat) : Bool :=
  code ∈ [0x00, 0x11, 0x12, 0x13, 0x14, 0x15, 0x16, 0x17, 0x18, 0x19,
          0x1A, 0x1B, 0x1C, 0x1D, 0x22, 0x56, 0x1100]
    || (0xb201 ≤ code && code ≤ 0xb260)

/-- The function `mh.Cast`, that is `mh.Decode` followed by the `ValidCode` test: the buffer
is returned unchanged when it is a well-formed multihash. -/
def Cast (buf : Bytes) : Except Error Bytes :=
  if buf.length < 2 then .error .ErrTooShort
  else
    match uvarint buf with
    | .error e => .error e
    | .ok (code, buf1) =>
      match uvarint buf1 with
      | .error e => .error e
      | .ok (length, digest) =>
        if length > 2 ^ 31 - 1 then
          .error (.errorsNew "digest too long, supporting only <= 2^31-1")
        else if digest.length ≠ length then .error .ErrInconsistentLen
        else if !ValidCode code then .error .ErrUnknownCode
        else .ok buf

/-- The bitcoin base58 alphabet. -/
def b58Alphabet : Bytes := str "123456789ABCDEFGHJKLMNPQRSTUVWXYZabcdefghijkmnopqrstuvwxyz"

/-- Number denoted by big-endian digits in base `b`. -/
def ofDigitsBE (b : Nat) : List Nat → Nat → Nat
  | [], n => n
  | d :: ds, n => ofDigitsBE b ds (n * b + d)

/-- Big-endian digits of `n` in base `b`, prepended to `acc`; no digit for
zero.  The first argument bounds the number of digits. -/
def toDigitsBE (b : Nat) : Nat → Nat → List Nat → List Nat
  | 0, _, acc => acc
  | fuel + 1, n, acc => if n = 0 then acc else toDigitsBE b fuel (n / b) (n % b :: acc)

/-- The function `b58.Encode`: one `1` per leading zero byte, then the base-58 digits of
the big-endian number held in the bytes. -/
def b58Encode (b : Bytes) : Bytes :=
  let zeros := (b.takeWhile (· = 0)).length
  let x := ofDigitsBE 256 (b.map UInt8.toNat) 0
  List.replicate zeros 49 ++ (toDigitsBE 58 (2 * b.length) x []).map (fun d => b58Alphabet.getD d 0)

/-- Index of a byte in the base58 alphabet. -/
def b58Digit (c : UInt8) : Option Nat :=
  let i := b58Alphabet.indexOf c
  if i < 58 then some i else none

/-- The alphabet indices of the bytes of a string, `none` when a byte is
outside the alphabet. -/
def b58Digits : Bytes → Option (List Nat)
  | [] => some []
  | c :: rest =>
    match b58Digit c, b58Digits rest with
    | some d, some ds => some (d :: ds)
    | _, _ => none

/-- The function `b58.Decode`: fails on the empty string and on a byte outside the
alphabet; otherwise one zero byte per leading `1`, then the big-endian bytes
of the number. -/
def b58Decode (s : Bytes) : Except Error Bytes :=
  if s = [] then .error (.errorsNew "zero length string")
  else
    match b58Digits s with
    | none => .error (.errorsNew "Invalid base58 digit")
    | some ds =>
      let zeros := (s.takeWhile (· = 49)).length
      let x := ofDigitsBE 58 ds 0
      .ok (List.replicate zeros 0 ++ (toDigitsBE 256 s.length x []).map UInt8.ofNat)

/-- The function `mh.FromB58String`. -/
def FromB58String (s : Bytes) : Except Error Bytes :=
  match b58Decode s with
  | .error _ => .error .ErrInvalidMultihash
  | .ok b => Cast b

/-- The function `peer.IDB58Decode`: a `peer.ID` is the string of the multihash bytes. -/
def IDB58Decode (s : Bytes) : Except Error Bytes := FromB58String s

/-- The function `peer.IDB58Encode`. -/
def IDB58Encode (id : Bytes) : Bytes := b58Encode id

/-! ## net, net/netip

The functions `net.ParseIP`, `IP.To4`, `IP.To16` and `IP.String` as they are
since Go 1.22, where `ParseIP` is `netip.ParseAddr` without a zone and
`IP.String` prints through `netip.Addr`. -/

/-- The loop of `parseIPv4Fields` of net/netip over the rest `s[i:]` of the text:
`start` holds when `i == 0` or `s[i-1] == '.'`, `val` and `digLen` are the
value and the number of digits of the current octet, `fields` the octets
already stored (`pos` is their number).  An octet with a leading zero, a value
above 255, an empty octet, a fifth octet and any other character are errors;
at the end three octets must have been stored. -/
def parseIPv4Fields : Bytes → Bool → Nat → Nat → Bytes → Option Bytes
  | [], _, val, _, fields => if fields.length < 3 then none else some (fields ++ [UInt8.ofNat val])
  | c :: rest, start, val, digLen, fields =>
    if 48 ≤ c ∧ c ≤ 57 then
      if digLen = 1 ∧ val = 0 then none
      else
        let val := val * 10 + (c.toNat - 48)
        if val > 255 then none
        else parseIPv4Fields rest false val (digLen + 1) fields
    else if c = 46 then
      if start ∨ rest = [] then none
      else if fields.length = 3 then none
      else parseIPv4Fields rest true 0 0 (fields ++ [UInt8.ofNat val])
    else none

/-- The function `parseIPv4` of net/netip: the four octets of a dotted quad. -/
def parseIPv4 (s : Bytes) : Option Bytes := parseIPv4Fields s true 0 0 []

/-- The 16-byte form of an IPv4 address (`Addr.As16`, `net.IPv4`): ten zero
bytes, `ff ff` and the four octets. -/
def v4InV6 (ip4 : Bytes) : Bytes := List.replicate 10 0 ++ [0xff, 0xff] ++ ip4

/-- Value of a hexadecimal digit of either case. -/
def hexVal (c : UInt8) : Option Nat :=
  if 48 ≤ c ∧ c ≤ 57 then some (c.toNat - 48)
  else if 97 ≤ c ∧ c ≤ 102 then some (c.toNat - 97 + 10)
  else if 65 ≤ c ∧ c ≤ 70 then some (c.toNat - 65 + 10)
  else none

/-- The inner loop of `parseIPv6`: the hexadecimal number at the start of the text, as
`acc`, and the number `off` of its digits; fails on a fifth digit (`off > 3`)
and on a value above `0xFFFF`. -/
def hexGroup : Bytes → Nat → Nat → Option (Nat × Nat)
  | [], off, acc => some (acc, off)
  | c :: rest, off, acc =>
    match hexVal c with
    | none => some (acc, off)
    | some d =>
      let acc := (acc <<< 4) + d
      if off > 3 then none
      else if acc > 0xFFFF then none
      else hexGroup rest (off + 1) acc

/-- The loop `for i < 16` of `parseIPv6`: `s` is the text still to read, `ip` the
bytes written so far (`i` is their number), `ellipsis` the position of `::`.
The result is the state at the end of the loop.  A group followed by `.` starts
the trailing IPv4 part, which must fill bytes 12 to 15 unless a `::` came
before.  The first argument bounds the number of groups. -/
def parseIPv6Loop : Nat → Bytes → Bytes → Option Nat → Option (Bytes × Bytes × Option Nat)
  | 0, s, ip, ellipsis => some (s, ip, ellipsis)
  | fuel + 1, s, ip, ellipsis =>
    if ip.length ≥ 16 then some (s, ip, ellipsis)
    else
      match hexGroup s 0 0 with
      | none => none
      | some (acc, off) =>
        if off = 0 then none
        else if (s.drop off).head? = some 46 then
          if ellipsis = none ∧ ip.length ≠ 12 then none
          else if ip.length + 4 > 16 then none
          else
            match parseIPv4 s with
            | none => none
            | some ip4 => some ([], ip ++ ip4, ellipsis)
        else
          let ip := ip ++ [UInt8.ofNat (acc >>> 8), UInt8.ofNat acc]
          match s.drop off with
          | [] => some ([], ip, ellipsis)
          | c :: s1 =>
            if c ≠ 58 then none
            else
              match s1 with
              | [] => none
              | 58 :: s2 =>
                if ellipsis.isSome then none
                else if s2 = [] then some ([], ip, some ip.length)
                else parseIPv6Loop fuel s2 ip (some ip.length)
              | _ => parseIPv6Loop fuel s1 ip ellipsis

/-- The text behind a leading `::` (`len(s) >= 2 && s[0] == ':' && s[1] == ':'`). -/
def leadingEllipsis : Bytes → Option Bytes
  | 58 :: 58 :: r => some r
  | _ => none

/-- The function `parseIPv6` of net/netip: the 16 bytes and the zone.  A `%` splits off
the zone, which must not be empty; a leading `::` is an ellipsis at position 0,
and the whole address when nothing follows it; after the loop the whole text
must have been read, and the ellipsis is expanded to the missing zero bytes, at
least two. -/
def parseIPv6 (s0 : Bytes) : Option (Bytes × Bytes) :=
  let split : Option (Bytes × Bytes) :=
    match IndexByte s0 37 with
    | none => some (s0, [])
    | some i => if s0.drop (i + 1) = [] then none else some (s0.take i, s0.drop (i + 1))
  match split with
  | none => none
  | some (s, zone) =>
    match leadingEllipsis s with
    | some [] => some (List.replicate 16 0, zone)
    | lead =>
      match parseIPv6Loop 8 (lead.getD s) [] (lead.map (fun _ => 0)) with
      | none => none
      | some (rest, ip, ellipsis) =>
        if rest ≠ [] then none
        else if ip.length < 16 then
          match ellipsis with
          | none => none
          | some e => some (ip.take e ++ List.replicate (16 - ip.length) 0 ++ ip.drop e, zone)
        else if ellipsis.isSome then none
        else some (ip, zone)

/-- The function `net.ParseIP`: the 16-byte form of the address, `none` for Go's `nil`.
`netip.ParseAddr` looks for the first `.`, `:` or `%`: on `.` the text is a
dotted quad, on `:` an IPv6 address, which `ParseIP` rejects when it has a
zone. -/
def ParseIP (s : Bytes) : Option Bytes :=
  match s.find? (fun c => c = 46 ∨ c = 58 ∨ c = 37) with
  | some 46 => (parseIPv4 s).map v4InV6
  | some 58 =>
    match parseIPv6 s with
    | none => none
    | some (ip, zone) => if zone = [] then some ip else none
  | _ => none

/-- The method `IP.To4`: a 4-byte address itself, the last four bytes of a 16-byte
address that starts with ten zero bytes and `ff ff`, otherwise `none` (`nil`). -/
def To4 (ip : Bytes) : Option Bytes :=
  if ip.length = 4 then some ip
  else if ip.length = 16 ∧ ip.take 10 = List.replicate 10 0 ∧ (ip.drop 10).take 2 = [0xff, 0xff]
  then some (ip.drop 12)
  else none

/-- The method `IP.To16`. -/
def To16 (ip : Bytes) : Option Bytes :=
  if ip.length = 4 then some (v4InV6 ip)
  else if ip.length = 16 then some ip
  else none

/-- The function `appendHex` of net/netip: the hexadecimal digits of a 16-bit number
without leading zeros. -/
def appendHex (x : Nat) : Bytes :=
  (if x ≥ 0x1000 then [hextable.getD (x >>> 12) 0] else []) ++
  (if x ≥ 0x100 then [hextable.getD ((x >>> 8) &&& 0xf) 0] else []) ++
  (if x ≥ 0x10 then [hextable.getD ((x >>> 4) &&& 0xf) 0] else []) ++
  [hextable.getD (x &&& 0xf) 0]

/-- The eight 16-bit groups of a 16-byte address (`v6u16`). -/
def v6u16s (ip : Bytes) : List Nat :=
  (List.range 8).map (fun i => (ip.getD (2 * i) 0).toNat <<< 8 ||| (ip.getD (2 * i + 1) 0).toNat)

/-- The search of `appendTo6` for the groups to print as `::`: the first longest
run of at least two zero groups, as `(zeroStart, zeroEnd)`, and `(255, 255)`
when there is none. -/
def zeroRun (gs : List Nat) : Nat × Nat :=
  (List.range 8).foldl
    (fun (z : Nat × Nat) i =>
      let j := i + ((gs.drop i).takeWhile (fun g => g = 0)).length
      if j - i ≥ 2 ∧ j - i > z.2 - z.1 then (i, j) else z)
    (255, 255)

/-- The printing loop of `appendTo6` from group `i` on: `::` at `zeroStart`, after which
the loop goes on at `zeroEnd`, otherwise the group after a `:` (no `:` before
group 0).  The first argument bounds the number of steps. -/
def appendTo6Loop (gs : List Nat) (zeroStart zeroEnd : Nat) : Nat → Nat → Bytes
  | 0, _ => []
  | fuel + 1, i =>
    if i ≥ 8 then []
    else if i = zeroStart then
      58 :: 58 ::
        (if zeroEnd ≥ 8 then []
         else appendHex (gs.getD zeroEnd 0) ++ appendTo6Loop gs zeroStart zeroEnd fuel (zeroEnd + 1))
    else
      (if i > 0 then [58] else []) ++ appendHex (gs.getD i 0) ++
        appendTo6Loop gs zeroStart zeroEnd fuel (i + 1)

/-- The text of a 16-byte address that is not an IPv4-mapped one
(`netip.Addr.string6`). -/
def string6 (ip : Bytes) : Bytes :=
  let gs := v6u16s ip
  appendTo6Loop gs (zeroRun gs).1 (zeroRun gs).2 8 0

/-- The dotted quad of four bytes (`netip.Addr.string4`). -/
def string4 (ip : Bytes) : Bytes :=
  Itoa (ip.getD 0 0).toNat ++ [46] ++ Itoa (ip.getD 1 0).toNat ++ [46] ++
    Itoa (ip.getD 2 0).toNat ++ [46] ++ Itoa (ip.getD 3 0).toNat

/-- The method `IP.String`: `<nil>` for an empty address, `?` and the hexadecimal
bytes for a length other than 4 and 16, the dotted quad when `To4` gives four
bytes, the IPv6 text otherwise. -/
def IPString (ip : Bytes) : Bytes :=
  if ip.length = 0 then str "<nil>"
  else if ip.length ≠ 4 ∧ ip.length ≠ 16 then str "?" ++ EncodeToString ip
  else
    match To4 ip with
    | some p4 => string4 p4
    | none => string6 ip

/-! ## encoding/base32, strings.ToUpper, strings.ToLower -/

/-- The alphabet of `base32.StdEncoding`. -/
def encodeStd : Bytes := str "ABCDEFGHIJKLMNOPQRSTUVWXYZ234567"

/-- The eight 5-bit blocks `b[0..7]` that `Encoding.Encode` makes of a quantum of up to
five source bytes (a missing byte counts as 0). -/
def b32Blocks (src : Bytes) : List Nat :=
  let s (i : Nat) : Nat := (src.getD i 0).toNat
  [ s 0 >>> 3,
    ((s 0 <<< 2) &&& 0x1F) ||| ((s 1 >>> 6) &&& 0x1F),
    (s 1 >>> 1) &&& 0x1F,
    ((s 1 <<< 4) &&& 0x1F) ||| ((s 2 >>> 4) &&& 0x1F),
    ((s 2 <<< 1) &&& 0x1F) ||| (s 3 >>> 7),
    (s 3 >>> 2) &&& 0x1F,
    ((s 3 <<< 3) &&& 0x1F) ||| (s 4 >>> 5),
    s 4 &&& 0x1F ]

/-- The number of characters of a quantum that are not padding: 2, 4, 5, 7 or 8
for 1 to 5 source bytes. -/
def b32Chars (n : Nat) : Nat :=
  if n ≥ 5 then 8 else if n = 4 then 7 else if n = 3 then 5 else if n = 2 then 4 else 2

/-- The function `base32.StdEncoding.EncodeToString`: every quantum of five bytes gives
eight characters; the last quantum is padded with `=`.  The first argument
bounds the number of quanta. -/
def b32EncodeLoop : Nat → Bytes → Bytes
  | 0, _ => []
  | fuel + 1, src =>
    if src = [] then []
    else
      let chars := (b32Blocks (src.take 5)).map (fun b => encodeStd.getD b 0)
      if src.length < 5 then
        chars.take (b32Chars src.length) ++ List.replicate (8 - b32Chars src.length) 61
      else chars ++ b32EncodeLoop fuel (src.drop 5)

/-- The function `base32.StdEncoding.EncodeToString`. -/
def b32EncodeToString (src : Bytes) : Bytes := b32EncodeLoop src.length src

/-- The table `decodeMap` of `base32.StdEncoding`: the index of a character in the
alphabet, `none` for Go's `0xFF`. -/
def b32DecodeMap (c : UInt8) : Option Nat :=
  let i := encodeStd.indexOf c
  if i < 32 then some i else none

/-- The inner loop `for j := 0; j < 8` of `Encoding.decode` for one quantum: `dbuf` holds
the `j` blocks read so far.  The result is the blocks (`dlen` is their
number), whether the input ended with padding, and the rest of the input.
The end of the input inside a quantum is an error, since the encoding has
padding.  A `=` at `j >= 2` with fewer than 8 bytes after it is padding: the
`7 - j` bytes after it must be there and be `=`, and `j` must not be 3 or 6. -/
def b32DecodeQuantum : Nat → Bytes → List Nat → Except Error (List Nat × Bool × Bytes)
  | 0, src, dbuf => .ok (dbuf, false, src)
  | fuel + 1, src, dbuf =>
    match src with
    | [] => .error (.errorsNew "illegal base32 data")
    | c :: src =>
      let j := dbuf.length
      if c = 61 ∧ j ≥ 2 ∧ src.length < 8 then
        if src.length + j < 8 - 1 then .error (.errorsNew "illegal base32 data")
        else if (src.take (8 - 1 - j)).any (fun x => x ≠ 61) then
          .error (.errorsNew "illegal base32 data")
        else if j = 1 ∨ j = 3 ∨ j = 6 then .error (.errorsNew "illegal base32 data")
        else .ok (dbuf, true, src)
      else
        match b32DecodeMap c with
        | none => .error (.errorsNew "illegal base32 data")
        | some d => b32DecodeQuantum fuel src (dbuf ++ [d])

/-- The bytes `Encoding.decode` packs out of the blocks of one quantum: 5 bytes for
8 blocks, 4 for 7, 3 for 5, 2 for 4, 1 for 2 and none otherwise. -/
def b32Pack (dbuf : List Nat) : Bytes :=
  let d (i : Nat) : Nat := dbuf.getD i 0
  let dst : List Nat :=
    [ ((d 0 <<< 3) ||| (d 1 >>> 2)) % 256,
      ((d 1 <<< 6) ||| (d 2 <<< 1) ||| (d 3 >>> 4)) % 256,
      ((d 3 <<< 4) ||| (d 4 >>> 1)) % 256,
      ((d 4 <<< 7) ||| (d 5 <<< 2) ||| (d 6 >>> 3)) % 256,
      ((d 6 <<< 5) ||| d 7) % 256 ]
  let n := match dbuf.length with
    | 8 => 5
    | 7 => 4
    | 5 => 3
    | 4 => 2
    | 2 => 1
    | _ => 0
  (dst.take n).map UInt8.ofNat

/-- The outer loop `for len(src) > 0 && !end` of `Encoding.decode`.  The first
argument bounds the number of quanta. -/
def b32DecodeLoop : Nat → Bytes → Except Error Bytes
  | 0, _ => .ok []
  | fuel + 1, src =>
    if src = [] then .ok []
    else
      match b32DecodeQuantum 8 src [] with
      | .error e => .error e
      | .ok (dbuf, stop, rest) =>
        if stop then .ok (b32Pack dbuf)
        else (b32DecodeLoop fuel rest).map (fun r => b32Pack dbuf ++ r)

/-- The function `base32.StdEncoding.DecodeString`: line breaks (`\r`, `\n`) are removed
first. -/
def b32DecodeString (s : Bytes) : Except Error Bytes :=
  let buf := s.filter (fun c => c ≠ 13 ∧ c ≠ 10)
  b32DecodeLoop buf.length buf

/-- The function `strings.ToUpper` for a text that is ASCII apart from the two runes
outside ASCII whose upper case is an ASCII letter: `a` to `z` become `A` to
`Z`, the dotless i (`c4 b1`) becomes `I` and the long s (`c5 bf`) becomes `S`.
Every other byte is kept; its upper case in Go is again outside ASCII. -/
def ToUpper : Bytes → Bytes
  | [] => []
  | 0xc4 :: 0xb1 :: rest => 73 :: ToUpper rest
  | 0xc5 :: 0xbf :: rest => 83 :: ToUpper rest
  | c :: rest => (if 97 ≤ c ∧ c ≤ 122 then c - 32 else c) :: ToUpper rest

/-- The function `strings.ToLower` on ASCII text: `A` to `Z` become `a` to `z`. -/
def ToLower (s : Bytes) : Bytes := s.map (fun c => if 65 ≤ c ∧ c ≤ 90 then c + 32 else c)

/-! ## go-multiaddr

A multiaddr is its byte slice: for every component the protocol code as a
varint, then, for a protocol with a value, the value bytes, which a varint of
their number precedes when the protocol is length-prefixed.  `Equal` is
equality of the byte slices.

The model follows the releases of go-multiaddr of the time of this package
(early 2019): `ValueForProtocol` goes through `Split`, `Decapsulate` cuts the
text of the address, and the canonical name of the peer-identity protocol
(code `0x01A5`, also registered under the name `p2p`) is `ipfs`; later releases
print `p2p`.  Messages of errors hold no text of the input. -/

/-- The value transcoders of the protocol table. -/
inductive Transcoder where
  | TranscoderIP4
  | TranscoderIP6
  | TranscoderIP6Zone
  | TranscoderPort
  | TranscoderOnion
  | TranscoderP2P
  | TranscoderUnix
  deriving DecidableEq, Repr

/-- The type `ma.Protocol`: `Size` is the width of the value in bits, `0` for a protocol
without value and `-1` (`LengthPrefixedVarSize`) for a length-prefixed value;
`Path` marks a protocol whose value is the whole rest of the text. -/
structure Protocol where
  Code : Nat
  Size : Int
  Name : Bytes
  Path : Bool
  Transcoder : Option Transcoder
  deriving DecidableEq, Repr

/-- The constant `ma.P_P2P`, the code of the peer-identity protocol (`P_IPFS` is an alias). -/
def P_P2P : Nat := 0x01A5

/-- The constant `ma.P_UNIX`, the code of the path protocol `unix`. -/
def P_UNIX : Nat := 0x0190

/-- The constant `ma.P_ONION`. -/
def P_ONION : Nat := 0x01BC

/-- The protocol `protoP2P`. -/
def protoP2P : Protocol :=
  { Code := P_P2P, Size := -1, Name := str "ipfs", Path := false, Transcoder := some .TranscoderP2P }

/-- The protocols registered by the `init` function of go-multiaddr, the table `Protocols` of
protocols.go.  What other packages add with `AddProtocol` when the program
starts is not part of it. -/
def Protocols : List Protocol :=
  [ { Code := 0x0004, Size := 32, Name := str "ip4", Path := false, Transcoder := some .TranscoderIP4 },
    { Code := 0x0006, Size := 16, Name := str "tcp", Path := false, Transcoder := some .TranscoderPort },
    { Code := 0x0111, Size := 16, Name := str "udp", Path := false, Transcoder := some .TranscoderPort },
    { Code := 0x0021, Size := 16, Name := str "dccp", Path := false, Transcoder := some .TranscoderPort },
    { Code := 0x0029, Size := 128, Name := str "ip6", Path := false, Transcoder := some .TranscoderIP6 },
    { Code := 0x002A, Size := -1, Name := str "ip6zone", Path := false,
      Transcoder := some .TranscoderIP6Zone },
    { Code := 0x0084, Size := 16, Name := str "sctp", Path := false, Transcoder := some .TranscoderPort },
    { Code := P_ONION, Size := 96, Name := str "onion", Path := false,
      Transcoder := some .TranscoderOnion },
    { Code := 0x012E, Size := 0, Name := str "utp", Path := false, Transcoder := none },
    { Code := 0x012D, Size := 0, Name := str "udt", Path := false, Transcoder := none },
    { Code := 0x01CC, Size := 0, Name := str "quic", Path := false, Transcoder := none },
    { Code := 0x01E0, Size := 0, Name := str "http", Path := false, Transcoder := none },
    { Code := 0x01BB, Size := 0, Name := str "https", Path := false, Transcoder := none },
    protoP2P,
    { Code := P_UNIX, Size := -1, Name := str "unix", Path := true, Transcoder := some .TranscoderUnix } ]

/-- The function `ma.ProtocolWithName`: the table entry of that name; the names `p2p` and
`ipfs` are both set to `protoP2P`.  `none` is Go's `Protocol{}` (code 0). -/
def ProtocolWithName (name : Bytes) : Option Protocol :=
  if name = str "p2p" then some protoP2P
  else Protocols.find? (fun p => p.Name = name)

/-- The function `ma.ProtocolWithCode` for a code read as a Go `int`. -/
def ProtocolWithCode (code : Int) : Option Protocol :=
  Protocols.find? (fun p => (p.Code : Int) = code)

/-- The function `Transcoder.StringToBytes`.

* `ip4StB`: `net.ParseIP(s).To4()`.
* `ip6StB`: `net.ParseIP(s).To16()`.
* `ip6zoneStB`: the bytes of the text, which must not be empty.
* `portStB`: `strconv.Atoi`, a number below 65536, as `uint16` in big-endian order.
* `onionStB`: the text is split at `:` into exactly a host of 16 bytes, decoded
  as upper-case base32, and a port from 1 to 65535.
* `p2pStB`: `mh.FromB58String`.
* `unixStB`: the bytes of the text. -/
def Transcoder.StringToBytes : Transcoder → Bytes → Except Error Bytes
  | .TranscoderIP4, s =>
    match (ParseIP s).bind To4 with
    | none => .error (.errorsNew "failed to parse ip4 addr")
    | some i => .ok i
  | .TranscoderIP6, s =>
    match (ParseIP s).bind To16 with
    | none => .error (.errorsNew "failed to parse ip6 addr")
    | some i => .ok i
  | .TranscoderIP6Zone, s =>
    if s.length = 0 then .error (.errorsNew "empty ip6zone") else .ok s
  | .TranscoderPort, s =>
    match Atoi s with
    | .error _ => .error (.errorsNew "failed to parse port addr")
    | .ok i =>
      if i ≥ 65536 then .error (.errorsNew "failed to parse port addr: greater than 65536")
      else .ok (beBytes 2 (i % 65536).toNat)
  | .TranscoderOnion, s =>
    match Split s 58 with
    | [host, port] =>
      if host.length ≠ 16 then .error (.errorsNew "failed to parse onion addr: not a Tor onion address")
      else
        match b32DecodeString (ToUpper host) with
        | .error _ => .error (.errorsNew "failed to decode base32 onion addr")
        | .ok onionHostBytes =>
          match Atoi port with
          | .error _ => .error (.errorsNew "failed to parse onion addr")
          | .ok i =>
            if i ≥ 65536 then .error (.errorsNew "failed to parse onion addr: port greater than 65536")
            else if i < 1 then .error (.errorsNew "failed to parse onion addr: port less than 1")
            else .ok (onionHostBytes ++ beBytes 2 i.toNat)
    | _ => .error (.errorsNew "failed to parse onion addr: does not contain a port number")
  | .TranscoderP2P, s =>
    match FromB58String s with
    | .error _ => .error (.errorsNew "failed to parse p2p addr")
    | .ok m => .ok m
  | .TranscoderUnix, s => .ok s

/-- The function `Transcoder.BytesToString`.

* `ip4BtS`: `net.IP(b).String()`.
* `ip6BtS`: `::ffff:` and the dotted quad when `To4` is not `nil`,
  `net.IP(b).String()` otherwise.
* `ip6zoneBtS`: the bytes as text, which must not be empty.
* `portBtS`: the decimal number of the big-endian `uint16`; slices shorter than
  two bytes make `binary.BigEndian.Uint16` panic.
* `onionBtS`: the lower-case base32 text of `b[0:10]`, `:` and the port in
  `b[10:12]`; the slice expressions panic on fewer than 12 bytes.
* `p2pBtS`: `mh.Cast` and the base58 text.
* `unixBtS`: the bytes as text. -/
def Transcoder.BytesToString : Transcoder → Bytes → Except Error Bytes
  | .TranscoderIP4, b => .ok (IPString b)
  | .TranscoderIP6, b =>
    match To4 b with
    | some ip4 => .ok (str "::ffff:" ++ IPString ip4)
    | none => .ok (IPString b)
  | .TranscoderIP6Zone, b =>
    if b.length = 0 then .error (.errorsNew "invalid length (should be > 0)") else .ok b
  | .TranscoderPort, b =>
    match b with
    | hi :: lo :: _ => .ok (Itoa (hi.toNat * 256 + lo.toNat))
    | _ => .error (.panic "index out of range")
  | .TranscoderOnion, b =>
    if b.length < 12 then .error (.panic "slice bounds out of range")
    else
      .ok (ToLower (b32EncodeToString (b.take 10)) ++ [58] ++
        Itoa ((b.getD 10 0).toNat * 256 + (b.getD 11 0).toNat))
  | .TranscoderP2P, b =>
    match Cast b with
    | .error e => .error e
    | .ok m => .ok (b58Encode m)
  | .TranscoderUnix, b => .ok b

/-- The type `ma.Multiaddr`: the byte slice of the address. -/
abbrev Multiaddr := Bytes

/-- The function `CodeToVarint`: a non-negative number as a varint. -/
def CodeToVarint (num : Nat) : Bytes := PutUvarint num

/-- The function `ReadVarintCode`: the number at the start of the buffer, converted to
`int`, and the number of bytes read (`0` when the buffer ends inside the
varint); an error on a varint of more than 64 bits. -/
def ReadVarintCode (buf : Bytes) : Except Error (Int × Nat) :=
  let (num, n) := Uvarint buf
  if n < 0 then .error (.errorsNew "varints larger than uint64 not yet supported")
  else .ok (if num < 2 ^ 63 then (num : Int) else (num : Int) - 2 ^ 64, n.toNat)

/-- The function `strings.Join(sp, "/")`. -/
def Join : List Bytes → Bytes
  | [] => []
  | [x] => x
  | x :: rest => x ++ 47 :: Join rest

/-- The loop of `stringToBytes` over the pieces `sp` of the text: the bytes written to
the buffer.  For every protocol name the code is written; a protocol with a
value takes the next piece, a path protocol all the remaining pieces, joined
again and after a `/`; the value is written after its length when the protocol is
length-prefixed. -/
def stringToBytesLoop : List Bytes → Except Error Bytes
  | [] => .ok []
  | name :: sp =>
    match ProtocolWithName name with
    | none => .error (.errorsNew "no protocol with name")
    | some p =>
      if p.Size = 0 then
        (stringToBytesLoop sp).map (fun b => CodeToVarint p.Code ++ b)
      else
        match sp with
        | [] => .error (.errorsNew "protocol requires address, none given")
        | v :: rest =>
          match p.Transcoder with
          | none => .error (.errorsNew "no transcoder for protocol")
          | some t =>
            if p.Path then
              match t.StringToBytes (47 :: Join (v :: rest)) with
              | .error _ => .error (.errorsNew "failed to parse")
              | .ok a =>
                .ok (CodeToVarint p.Code ++ (if p.Size < 0 then CodeToVarint a.length else []) ++ a)
            else
              match t.StringToBytes v with
              | .error _ => .error (.errorsNew "failed to parse")
              | .ok a =>
                (stringToBytesLoop rest).map (fun b =>
                  CodeToVarint p.Code ++ (if p.Size < 0 then CodeToVarint a.length else []) ++ a ++ b)

/-- The function `stringToBytes`: trailing slashes are dropped, the text is split at `/`,
the first piece must be empty. -/
def stringToBytes (s : Bytes) : Except Error Bytes :=
  match Split (TrimRight s 47) 47 with
  | [] :: sp => stringToBytesLoop sp
  | _ => .error (.errorsNew "invalid multiaddr, must begin with /")

/-- The function `ma.NewMultiaddr(s)`. -/
def NewMultiaddr (s : Bytes) : Except Error Multiaddr := stringToBytes s

/-- The function `sizeForAddr`: the number of bytes of the length prefix and the number
of bytes of the value, the latter read from the buffer as a Go `int` when the
protocol is length-prefixed. -/
def sizeForAddr (p : Protocol) (b : Bytes) : Except Error (Nat × Int) :=
  if p.Size > 0 then .ok (0, p.Size / 8)
  else if p.Size = 0 then .ok (0, 0)
  else
    match ReadVarintCode b with
    | .error e => .error e
    | .ok (size, n) => .ok (n, size)

/-- The loop of `bytesToString`: for every component `/name`, then `/value` when the
protocol has a value and the text of the value is not empty; the text of a
path value loses its leading `/`.  The first argument bounds the number of
components; every component takes at least one byte. -/
def bytesToStringLoop : Nat → Bytes → Except Error Bytes
  | 0, _ => .ok []
  | fuel + 1, b =>
    if b = [] then .ok []
    else
      match ReadVarintCode b with
      | .error e => .error e
      | .ok (code, n) =>
        match ProtocolWithCode code with
        | none => .error (.errorsNew "no protocol with code")
        | some p =>
          let b := b.drop n
          if p.Size = 0 then (bytesToStringLoop fuel b).map (fun r => 47 :: p.Name ++ r)
          else
            match sizeForAddr p b with
            | .error e => .error e
            | .ok (n, size) =>
              let b := b.drop n
              if (b.length : Int) < size ∨ size < 0 then .error (.errorsNew "invalid value for size")
              else
                match p.Transcoder with
                | none => .error (.errorsNew "no transcoder for protocol")
                | some t =>
                  match t.BytesToString (b.take size.toNat) with
                  | .error e => .error e
                  | .ok a =>
                    let a := if p.Path then (match a with | 47 :: r => r | r => r) else a
                    let v := if a.length > 0 then 47 :: a else []
                    (bytesToStringLoop fuel (b.drop size.toNat)).map (fun r => 47 :: p.Name ++ v ++ r)

/-- The function `bytesToString`. -/
def bytesToString (b : Bytes) : Except Error Bytes := bytesToStringLoop b.length b

/-- The method `Multiaddr.String()`: panics when `bytesToString` fails. -/
def Multiaddr.String (m : Multiaddr) : Except Error Bytes :=
  match bytesToString m with
  | .error _ => .error (.panic "multiaddr failed to convert back to string. corrupted?")
  | .ok s => .ok s

/-- The loop of `bytesSplit`: the byte slices of the components.  The slice expressions
`b[:length]` and `b[length:]` panic when the buffer is shorter than the
component or the length is negative.  The first argument bounds the number of
components. -/
def bytesSplitLoop : Nat → Bytes → Except Error (List Bytes)
  | 0, _ => .ok []
  | fuel + 1, b =>
    if b = [] then .ok []
    else
      match ReadVarintCode b with
      | .error e => .error e
      | .ok (code, n) =>
        match ProtocolWithCode code with
        | none => .error (.errorsNew "no protocol with code")
        | some p =>
          match sizeForAddr p (b.drop n) with
          | .error e => .error e
          | .ok (n2, size) =>
            let length : Int := (n : Int) + (n2 : Int) + size
            if length < 0 ∨ (b.length : Int) < length then .error (.panic "slice bounds out of range")
            else (bytesSplitLoop fuel (b.drop length.toNat)).map (fun r => b.take length.toNat :: r)

/-- The function `bytesSplit`. -/
def bytesSplit (b : Bytes) : Except Error (List Bytes) := bytesSplitLoop b.length b

/-- The function `ma.Split`: panics when `bytesSplit` fails. -/
def maSplit (m : Multiaddr) : Except Error (List Multiaddr) :=
  match bytesSplit m with
  | .error _ => .error (.panic "invalid multiaddr")
  | .ok subs => .ok subs

/-- The loop of the method `Multiaddr.Protocols()`: the protocols of the components; every
error is a panic.  The first argument bounds the number of components. -/
def ProtocolsLoop : Nat → Bytes → Except Error (List Protocol)
  | 0, _ => .ok []
  | fuel + 1, b =>
    if b = [] then .ok []
    else
      match ReadVarintCode b with
      | .error _ => .error (.panic "varints larger than uint64 not yet supported")
      | .ok (code, n) =>
        match ProtocolWithCode code with
        | none => .error (.panic "no protocol with code")
        | some p =>
          let b := b.drop n
          match sizeForAddr p b with
          | .error _ => .error (.panic "varints larger than uint64 not yet supported")
          | .ok (n, size) =>
            let skip : Int := (n : Int) + size
            if skip < 0 ∨ (b.length : Int) < skip then .error (.panic "slice bounds out of range")
            else (ProtocolsLoop fuel (b.drop skip.toNat)).map (fun r => p :: r)

/-- The method `Multiaddr.Protocols()`. -/
def Multiaddr.Protocols (m : Multiaddr) : Except Error (List Protocol) := ProtocolsLoop m.length m

/-- The value `strings.SplitN(s, "/", 3)[2]`: what follows the second `/`; an index
panic when `s` has fewer than two. -/
def SplitN3Index2 (s : Bytes) : Except Error Bytes :=
  match IndexByte s 47 with
  | none => .error (.panic "index out of range")
  | some i =>
    match IndexByte (s.drop (i + 1)) 47 with
    | none => .error (.panic "index out of range")
    | some j => .ok (s.drop (i + 1 + j + 1))

/-- The loop of `ValueForProtocol` over the components `Split(m)`: the first component
whose protocol `sub.Protocols()[0]` has the code gives the value, the text of
the component after its second `/`. -/
def valueForProtocolLoop : List Multiaddr → Nat → Except Error Bytes
  | [], _ => .error .ErrProtocolNotFound
  | sub :: rest, code =>
    match sub.Protocols with
    | .error e => .error e
    | .ok [] => .error (.panic "index out of range")
    | .ok (p :: _) =>
      if p.Code = code then
        if p.Size = 0 then .ok []
        else
          match sub.String with
          | .error e => .error e
          | .ok s => SplitN3Index2 s
      else valueForProtocolLoop rest code

/-- The method `Multiaddr.ValueForProtocol(code)`: the value text of the first component
of that protocol, `ErrProtocolNotFound` when there is none. -/
def ValueForProtocol (m : Multiaddr) (code : Nat) : Except Error Bytes :=
  match maSplit m with
  | .error e => .error e
  | .ok subs => valueForProtocolLoop subs code

/-- The method `Multiaddr.Decapsulate(o)`: the text of `m` up to the last occurrence of
the text of `o`, parsed again; a copy of `m` when `o` does not occur.  `o` is
`none` for a nil interface value. -/
def Decapsulate (m : Multiaddr) (o : Option Multiaddr) : Except Error Multiaddr :=
  match m.String with
  | .error e => .error e
  | .ok s1 =>
    match o with
    | none => .error (.panic "nil pointer dereference")
    | some o =>
      match o.String with
      | .error e => .error e
      | .ok s2 =>
        match LastIndex s1 s2 with
        | none => .ok m
        | some i =>
          match NewMultiaddr (s1.take i) with
          | .error _ => .error (.panic "Multiaddr.Decapsulate incorrect byte boundaries.")
          | .ok ma => .ok ma

/-! ## dns.go: ParseBootstrapPeer -/

/-- The type `peerstore.PeerInfo`. -/
structure PeerInfo where
  ID : Bytes
  Addrs : List Multiaddr
  deriving DecidableEq, Repr

/-- The function `ParseBootstrapPeer` of dns.go. -/
def ParseBootstrapPeer (addr : Bytes) : Except Error PeerInfo :=
  match NewMultiaddr addr with
  | .error err => .error err
  | .ok p2pAddr =>
    match ValueForProtocol p2pAddr P_P2P with
    | .error err => .error err
    | .ok pid =>
      match IDB58Decode pid with
      | .error err => .error err
      | .ok peerid =>
        let targetPeerAddr := (NewMultiaddr (str "/p2p/" ++ IDB58Encode peerid)).toOption
        match Decapsulate p2pAddr targetPeerAddr with
        | .error e => .error e
        | .ok targetAddr => .ok { Addrs := [targetAddr], ID := peerid }

/-! ## chaincfg -/

/-- The type `chaincfg.DNSSeed`. -/
structure DNSSeed where
  Host : Bytes
  HasFiltering : Bool
  deriving DecidableEq, Repr

/-- The type `chaincfg.Params`: the fields the package reads, and the name and network
magic that identify the network. -/
structure Params where
  Name : Bytes
  Net : Nat
  DNSSeeds : List DNSSeed
  deriving DecidableEq, Repr

/-! ## dns.go: SeedFromDNS

`SeedFromDNS` starts one goroutine that starts one goroutine per seed host,
waits on a `sync.WaitGroup` and closes the unbuffered channel `ch`.  The model
is a transition system: a state records where every goroutine stands, an event
is one step of one goroutine, and a schedule is a list of events.  The receiver
of `ch` is the `for pi := range peerChan` loop of `StartOnlineServices`, which
is ready to receive whenever a sender is ready to send. -/

/-- Where one per-host goroutine stands. -/
inductive Task where
  /-- Started; `lookupFn(host)` has not been called yet. -/
  | lookup (host : Bytes)
  /-- In `for _, t := range txt` with these records still to visit. -/
  | range (txt : List Bytes)
  /-- Blocked in `ch <- pi`; these records follow. -/
  | send (pi : PeerInfo) (rest : List Bytes)
  /-- Ended after `wg.Done()`. -/
  | done
  /-- Ended by a `return` inside the function body; `wg.Done()` was not run. -/
  | returned
  deriving DecidableEq, Repr

/-- State of one run of `SeedFromDNS` together with its receiver. -/
structure SeedState where
  /-- Seed hosts the loop over `chainParams.DNSSeeds` has still to visit. -/
  seeds : List Bytes
  /-- Counter of the `sync.WaitGroup`. -/
  wg : Nat
  /-- The per-host goroutines, in the order they were started. -/
  tasks : List Task
  /-- Whether `close(ch)` has run. -/
  closed : Bool
  /-- The receiver's slice `peers`. -/
  peers : List PeerInfo
  /-- Hosts `lookupFn` has been called with, in call order. -/
  lookups : List Bytes
  /-- Whether a goroutine has panicked (the process is gone). -/
  panicked : Bool
  deriving DecidableEq, Repr

/-- One step of one goroutine. -/
inductive Event where
  /-- The outer goroutine visits the next seed: `wg.Add(1)` and `go func(host)`. -/
  | spawn
  /-- The `i`-th per-host goroutine takes its next step. -/
  | task (i : Nat)
  /-- The outer goroutine passes `wg.Wait()` and runs `close(ch)`. -/
  | close
  deriving DecidableEq, Repr

/-- The type `LookupTXTFunc`. -/
abbrev LookupTXTFunc := Bytes → Except Error (List Bytes)

/-- The state in which `SeedFromDNS` starts: `peers` is the receiver's slice
before the first receive. -/
def SeedState.init (seeds : List Bytes) (peers : List PeerInfo) : SeedState :=
  { seeds := seeds, wg := 0, tasks := [], closed := false, peers := peers,
    lookups := [], panicked := false }

/-- The step an event takes from a state, `none` when the event is not enabled
there (the goroutine is blocked or has ended). -/
def step (lookupFn : LookupTXTFunc) (s : SeedState) : Event → Option SeedState
  | .spawn =>
    if s.panicked then none
    else
      match s.seeds with
      | [] => none
      | host :: rest => some { s with seeds := rest, wg := s.wg + 1, tasks := s.tasks ++ [.lookup host] }
  | .close =>
    if s.panicked ∨ s.closed ∨ s.seeds ≠ [] ∨ s.wg ≠ 0 then none
    else some { s with closed := true }
  | .task i =>
    if s.panicked then none
    else
      match s.tasks.get? i with
      | none => none
      | some (.lookup host) =>
        match lookupFn host with
        | .error _ => some { s with tasks := s.tasks.set i .returned, lookups := s.lookups ++ [host] }
        | .ok txt => some { s with tasks := s.tasks.set i (.range txt), lookups := s.lookups ++ [host] }
      | some (.range []) =>
        if s.wg = 0 then some { s with panicked := true }
        else some { s with tasks := s.tasks.set i .done, wg := s.wg - 1 }
      | some (.range (t :: rest)) =>
        match ParseBootstrapPeer t with
        | .error (.panic _) => some { s with panicked := true }
        | .error _ => some { s with tasks := s.tasks.set i .returned }
        | .ok pi => some { s with tasks := s.tasks.set i (.send pi rest) }
      | some (.send pi rest) =>
        if s.closed then some { s with panicked := true }
        else some { s with tasks := s.tasks.set i (.range rest), peers := s.peers ++ [pi] }
      | some .done => none
      | some .returned => none

/-- The state a schedule leads to, `none` when one of its events is not enabled. -/
def run (lookupFn : LookupTXTFunc) : List Event → SeedState → Option SeedState
  | [], s => some s
  | e :: es, s =>
    match step lookupFn s e with
    | none => none
    | some s1 => run lookupFn es s1

/-- The function `SeedFromDNS` of dns.go together with the receiver of its channel:
the state the schedule leads to from the start, where `peers` is the
receiver's slice before the first receive. -/
def SeedFromDNS (chainParams : Params) (lookupFn : LookupTXTFunc) (peers : List PeerInfo)
    (schedule : List Event) : Option SeedState :=
  run lookupFn schedule (SeedState.init (chainParams.DNSSeeds.map (·.Host)) peers)

/-! ## node.go -/

/-- A `*chaincfg.Params`: the address and the value it points to.  Go compares
pointers by address. -/
structure ParamsPtr where
  addr : Nat
  params : Params
  deriving DecidableEq, Repr

/-- The address of the package-level variable `chaincfg.MainNetParams`. -/
def addrMainNetParams : Nat := 1

/-- The type `host.Host`, an opaque handle. -/
structure Host where
  id : Nat
  deriving DecidableEq, Repr

/-- The type `datastore.Datastore`, an opaque handle. -/
structure Datastore where
  id : Nat
  deriving DecidableEq, Repr

/-- The type `*dht.IpfsDHT`, an opaque handle. -/
structure IpfsDHT where
  id : Nat
  deriving DecidableEq, Repr

/-- The type `*pubsub.PubSub`, an opaque handle. -/
structure GossipSub where
  id : Nat
  deriving DecidableEq, Repr

/-- The type `NodeConfig` of config.go. -/
structure NodeConfig where
  Params : ParamsPtr
  Port : Nat
  DisableDNSSeeds : Bool
  BootstrapPeers : List PeerInfo
  PrivateKey : Bytes
  DataDir : Bytes
  ConnectionType : Nat
  TorControlPort : Nat
  TorControlPassword : Bytes
  TorListeningPort : Nat

/-- The type `Pubsub` of pubsub.go; `rt` is `none` for a nil routing value. -/
structure Pubsub where
  ps : GossipSub
  rt : Option IpfsDHT
  ht : Host
  deriving DecidableEq, Repr

/-- The type `OverlayNode`; `Routing` is `none` when the value stored is nil. -/
structure OverlayNode where
  Params : ParamsPtr
  Host : Host
  Routing : Option IpfsDHT
  PubSub : Pubsub
  PrivateKey : Bytes
  Datastore : Datastore
  bootstrapPeers : List PeerInfo
  disableDNSSeeeds : Bool
  deriving DecidableEq, Repr

/-- The constant `ProtocolDHTMainnet`. -/
def ProtocolDHTMainnet : Bytes := str "/bitcoincash/mainnet/kad/1.0.0"

/-- The constant `ProtocolDHTTestnet3`. -/
def ProtocolDHTTestnet3 : Bytes := str "/bitcoincash/testnet3/kad/1.0.0"

/-- The constructors of the libraries `NewOverlayNode` calls, as functions of
the arguments the code passes; each returns the value or the error. -/
structure Libs where
  /-- The call `libp2p.New(ctx, ListenAddrStrings(a4), ListenAddrStrings(a6), Identity(key))`. -/
  libp2pNew : Bytes → Bytes → Bytes → Except Error Host
  /-- The call `path.Join(dir, name)`. -/
  pathJoin : Bytes → Bytes → Bytes
  /-- The call `leveldb.NewDatastore(path, nil)`. -/
  NewDatastore : Bytes → Except Error Datastore
  /-- The call `dht.New(ctx, host, Datastore(dstore), Protocols(protocol), Validator(..))`;
  the namespaces of the validator are `pk` and `sha256`. -/
  dhtNew : Host → Datastore → Bytes → List Bytes → Except Error IpfsDHT
  /-- The call `pubsub.NewGossipSub(ctx, host)`. -/
  NewGossipSub : Host → Except Error GossipSub

/-- The DHT protocol identifier `NewOverlayNode` selects. -/
def selectProtocol (config : NodeConfig) : Bytes :=
  if config.Params.addr = addrMainNetParams then ProtocolDHTMainnet else ProtocolDHTTestnet3

/-- The function `NewOverlayNode` of node.go.  The error of `dht.New` is assigned to `err`
and overwritten by the next call without being looked at; the value `dht.New`
returns beside an error is nil. -/
def NewOverlayNode (libs : Libs) (config : NodeConfig) : Except Error OverlayNode :=
  match libs.libp2pNew (str "/ip4/0.0.0.0/tcp/" ++ Itoa config.Port)
      (str "/ip6/::/tcp/" ++ Itoa config.Port) config.PrivateKey with
  | .error err => .error err
  | .ok peerHost =>
    match libs.NewDatastore (libs.pathJoin config.DataDir (str "libp2p")) with
    | .error err => .error err
    | .ok dstore =>
      let protocol := selectProtocol config
      let routing := (libs.dhtNew peerHost dstore protocol [str "pk", str "sha256"]).toOption
      match libs.NewGossipSub peerHost with
      | .error err => .error err
      | .ok ps =>
        .ok { Params := config.Params, Host := peerHost, Routing := routing,
              PubSub := { ps := ps, ht := peerHost, rt := routing },
              PrivateKey := config.PrivateKey, Datastore := dstore,
              bootstrapPeers := config.BootstrapPeers,
              disableDNSSeeeds := config.DisableDNSSeeds }

/-- What one call of `StartOnlineServices` did: the peers it handed to
`Bootstrap` (through `bootstrapConfigWithPeers`), the hosts the TXT lookup was
called with, and the error it returned. -/
structure Online where
  peers : List PeerInfo
  lookups : List Bytes
  err : Option Error
  deriving DecidableEq, Repr

/-- The function `OverlayNode.StartOnlineServices`.  `Bootstrap` (bootstrap.go, not part of
the sources at hand) is a parameter that receives the routing value, the host
and the peers.  With DNS seeding enabled the goroutines of `SeedFromDNS` run
under the given schedule; the result is `none` when the schedule does not lead
to `close(ch)`, which is what ends the `range` loop. -/
def StartOnlineServices (Bootstrap : Option IpfsDHT → Host → List PeerInfo → Option Error)
    (LookupTXT : LookupTXTFunc) (n : OverlayNode) (schedule : List Event) : Option Online :=
  if n.disableDNSSeeeds then
    some { peers := n.bootstrapPeers, lookups := [],
           err := Bootstrap n.Routing n.Host n.bootstrapPeers }
  else
    match SeedFromDNS n.Params.params LookupTXT n.bootstrapPeers schedule with
    | none => none
    | some s =>
      if s.closed ∧ ¬ s.panicked then
        some { peers := s.peers, lookups := s.lookups, err := Bootstrap n.Routing n.Host s.peers }
      else none

/-! ## Predicates used to state the results -/

/-- A goroutine that has not run `wg.Done()`: it still counts in the wait group. -/
def Task.notDone : Task → Bool
  | .done => false
  | _ => true

/-- A record that `ParseBootstrapPeer` does not turn into a peer. -/
def badRecord (t : Bytes) : Bool :=
  match ParseBootstrapPeer t with
  | .error _ => true
  | .ok _ => false

/-- A lookup result after which the goroutine does not reach `wg.Done()`: the
lookup failed, or one of the records is not parsed. -/
def badLookup (lookupFn : LookupTXTFunc) (host : Bytes) : Bool :=
  match lookupFn host with
  | .error _ => true
  | .ok txt => txt.any badRecord

/-- A goroutine that will not run `wg.Done()` whatever the schedule. -/
def Task.lost (lookupFn : LookupTXTFunc) : Task → Bool
  | .lookup host => badLookup lookupFn host
  | .range txt => txt.any badRecord
  | .send _ rest => rest.any badRecord
  | .done => false
  | .returned => true

/-- A state from which `close(ch)` cannot be reached: the channel is open, the
wait group counts the goroutines that have not run `wg.Done()`, and a goroutine
that never will is present or still to be started. -/
structure Wedged (lookupFn : LookupTXTFunc) (s : SeedState) : Prop where
  isOpen : s.closed = false
  count : s.wg = s.tasks.countP Task.notDone
  lost : (∃ h ∈ s.seeds, badLookup lookupFn h = true) ∨
    (∃ t ∈ s.tasks, Task.lost lookupFn t = true)

/-- A multiaddr that splits into components none of which is of the
peer-identity protocol: `Split` succeeds and `sub.Protocols()[0]` is another
protocol for every component `sub`. -/
def noP2P (a : Multiaddr) : Bool :=
  match maSplit a with
  | .error _ => false
  | .ok subs =>
    subs.all (fun sub =>
      match sub.Protocols with
      | .ok (p :: _) => p.Code ≠ P_P2P
      | _ => false)

/-- One component as `stringToBytes` writes it: the protocol found by name and
the value bytes the transcoder returned (no bytes for a protocol without
value). -/
structure Component where
  proto : Protocol
  value : Bytes
  deriving DecidableEq, Repr

/-- The bytes `stringToBytes` writes for a component: the code, the length of
the value when the protocol is length-prefixed, the value. -/
def Component.encode (c : Component) : Bytes :=
  CodeToVarint c.proto.Code ++ (if c.proto.Size < 0 then CodeToVarint c.value.length else []) ++
    c.value

/-- The bytes of a sequence of components. -/
def encodeAll (cs : List Component) : Bytes := (cs.map Component.encode).flatten

/-- The loop of `stringToBytes` once more, with the components it writes as
the result instead of their bytes. -/
def componentsLoop : List Bytes → Except Error (List Component)
  | [] => .ok []
  | name :: sp =>
    match ProtocolWithName name with
    | none => .error (.errorsNew "no protocol with name")
    | some p =>
      if p.Size = 0 then
        (componentsLoop sp).map (fun cs => { proto := p, value := [] } :: cs)
      else
        match sp with
        | [] => .error (.errorsNew "protocol requires address, none given")
        | v :: rest =>
          match p.Transcoder with
          | none => .error (.errorsNew "no transcoder for protocol")
          | some t =>
            if p.Path then
              match t.StringToBytes (47 :: Join (v :: rest)) with
              | .error _ => .error (.errorsNew "failed to parse")
              | .ok a => .ok [{ proto := p, value := a }]
            else
              match t.StringToBytes v with
              | .error _ => .error (.errorsNew "failed to parse")
              | .ok a => (componentsLoop rest).map (fun cs => { proto := p, value := a } :: cs)

/-- The components `stringToBytes` writes for a text. -/
def stringToComponents (s : Bytes) : Except Error (List Component) :=
  match Split (TrimRight s 47) 47 with
  | [] :: sp => componentsLoop sp
  | _ => .error (.errorsNew "invalid multiaddr, must begin with /")

/-- The value of a component has the width of its protocol: `Size / 8` bytes
for a protocol of fixed width, and a number of bytes that a Go `int` holds for
a length-prefixed protocol.  `stringToBytes` does not check the width of what a
transcoder returns. -/
def Component.wellSized (c : Component) : Bool :=
  if c.proto.Size < 0 then c.value.length < 2 ^ 63
  else (c.value.length : Int) * 8 = c.proto.Size

/-! ## Inputs used in the examples -/

/-- Libraries in which every constructor succeeds. -/
def libsOk : Libs :=
  { libp2pNew := fun _ _ _ => .ok { id := 1 }
    pathJoin := fun dir name => dir ++ 47 :: name
    NewDatastore := fun _ => .ok { id := 2 }
    dhtNew := fun _ _ _ _ => .ok { id := 3 }
    NewGossipSub := fun _ => .ok { id := 4 } }

/-- Libraries in which `dht.New` fails and every other constructor succeeds. -/
def libsDhtFails : Libs :=
  { libsOk with dhtNew := fun _ _ _ _ => .error (.external 1) }

/-- The identity `QmNnooDu7bfjPFoTZYxMNLWUQJyrVwtbZg5gBMjTezGAJN`: a sha2-256 multihash. -/
def peerA : Bytes :=
  [18, 32, 6, 179, 96, 138, 160, 0, 39, 64, 73, 235, 40, 173, 142, 121, 58, 38, 255, 111, 171,
   40, 26, 125, 59, 215, 124, 209, 142, 183, 69, 223, 170, 187]

/-- The address `/ip4/127.0.0.1/tcp/8005`. -/
def addrA : Multiaddr := [4, 127, 0, 0, 1, 6, 31, 69]

/-- The address `/ip4/127.0.0.2/tcp/8005`. -/
def addrB : Multiaddr := [4, 127, 0, 0, 2, 6, 31, 69]

/-- A TXT record that parses. -/
def recordA : Bytes := str "/ip4/127.0.0.1/tcp/8005/p2p/QmNnooDu7bfjPFoTZYxMNLWUQJyrVwtbZg5gBMjTezGAJN"

/-- A second TXT record that parses. -/
def recordB : Bytes := str "/ip4/127.0.0.2/tcp/8005/p2p/QmNnooDu7bfjPFoTZYxMNLWUQJyrVwtbZg5gBMjTezGAJN"

/-- Network parameters with one DNS seed. -/
def paramsOne : Params :=
  { Name := str "testnet3", Net := 0xf4f3e5f4,
    DNSSeeds := [{ Host := str "seed.example.org", HasFiltering := true }] }

/-- A configuration of a test network with DNS seeding switched off and one
static bootstrap peer. -/
def configStatic : NodeConfig :=
  { Params := { addr := 2, params := paramsOne }
    Port := 8005
    DisableDNSSeeds := true
    BootstrapPeers := [{ ID := peerA, Addrs := [addrA] }]
    PrivateKey := []
    DataDir := str "/tmp/overlay"
    ConnectionType := 0
    TorControlPort := 0
    TorControlPassword := []
    TorListeningPort := 0 }

/-- A lookup that answers every host with a valid record, a malformed record
and another valid record, in this order. -/
def lookupMixed : LookupTXTFunc := fun _ => .ok [recordA, str "not an address", recordB]

/-- A lookup that answers every host with one valid record. -/
def lookupOne : LookupTXTFunc := fun _ => .ok [recordA]

/-- A lookup that fails for every host. -/
def lookupFails : LookupTXTFunc := fun _ => .error (.external 2)

/-- The node `NewOverlayNode libsOk configStatic` returns. -/
def nodeStatic : OverlayNode :=
  { Params := configStatic.Params, Host := { id := 1 }, Routing := some { id := 3 },
    PubSub := { ps := { id := 4 }, rt := some { id := 3 }, ht := { id := 1 } },
    PrivateKey := [], Datastore := { id := 2 },
    bootstrapPeers := configStatic.BootstrapPeers, disableDNSSeeeds := true }

/-- The hosts of the seeds of `paramsOne`. -/
def seedsOne : List Bytes := paramsOne.DNSSeeds.map (·.Host)

/-- The state of the run on `seedsOne` with the given goroutine, counter and
received peers, the channel open. -/
def oneTask (t : Task) (looked : Bool) (peers : List PeerInfo) : SeedState :=
  { seeds := [], wg := 1, tasks := [t], closed := false, peers := peers,
    lookups := if looked then seedsOne else [], panicked := false }

/-- The states the run of `SeedFromDNS` on `seedsOne` with `lookupMixed` passes
through, in order. -/
def mixedStates : List SeedState :=
  [ SeedState.init seedsOne [],
    oneTask (.lookup (str "seed.example.org")) false [],
    oneTask (.range [recordA, str "not an address", recordB]) true [],
    oneTask (.send { ID := peerA, Addrs := [addrA] } [str "not an address", recordB]) true [],
    oneTask (.range [str "not an address", recordB]) true [{ ID := peerA, Addrs := [addrA] }],
    oneTask .returned true [{ ID := peerA, Addrs := [addrA] }] ]

/-- The address `/ip6/::1/tcp/8005`. -/
def addrSix : Multiaddr := [41, 0, 0, 0, 0, 0, 0, 0, 0, 0, 0, 0, 0, 0, 0, 0, 1, 6, 31, 69]

/-- The components of `/ip6/::1/tcp/8005`. -/
def componentsSix : List Component :=
  [ { proto := { Code := 0x0029, Size := 128, Name := str "ip6", Path := false,
                 Transcoder := some .TranscoderIP6 },
      value := [0, 0, 0, 0, 0, 0, 0, 0, 0, 0, 0, 0, 0, 0, 0, 1] },
    { proto := { Code := 0x0006, Size := 16, Name := str "tcp", Path := false,
                 Transcoder := some .TranscoderPort },
      value := [31, 69] } ]

/-- The address `/unix/a/b`: the code `0x0190` as a varint, the length 4, the path `/a/b`. -/
def addrUnix : Multiaddr := [144, 3, 4, 47, 97, 47, 98]

/-! ## go-multihash: Encode, and go-cid -/

/-- The constant `multihash.SHA2_256`. -/
def SHA2_256 : Nat := 0x12

/-- The function `multihash.Encode(buf, code)`: the code and the length of the
digest as varints, then the digest; `ErrUnknownCode` for a code that is not valid. -/
def Encode (buf : Bytes) (code : Nat) : Except Error Bytes :=
  if !ValidCode code then .error .ErrUnknownCode
  else .ok (PutUvarint code ++ PutUvarint buf.length ++ buf)

/-- The type `cid.Cid`. -/
structure Cid where
  version : Nat
  codec : Nat
  hash : Bytes
  deriving DecidableEq, Repr

/-- The constant `cid.Raw`. -/
def Raw : Nat := 0x55

/-- The function `cid.NewCidV1(codecType, mhash)`. -/
def NewCidV1 (codecType : Nat) (mhash : Bytes) : Cid :=
  { version := 1, codec := codecType, hash := mhash }

/-- The function `Cid.Bytes()`: the multihash alone for version 0, the version
and the codec as varints followed by the multihash for version 1, a panic for
any other version. -/
def Cid.Bytes (c : Cid) : Except Error Bytes :=
  if c.version = 0 then .ok c.hash
  else if c.version = 1 then .ok (PutUvarint c.version ++ PutUvarint c.codec ++ c.hash)
  else .error (.panic "not possible to reach this point")

/-! ## pubsub.go -/

/-- The type `*pubsub.Subscription`, an opaque handle. -/
structure Subscription where
  id : Nat
  deriving DecidableEq, Repr

/-- The goroutine `Subscribe` starts, up to its calls of `p.rt.Provide` and
`p.connectToPubSubPeers`: the content identifier `id` handed to both, `none`
when the goroutine returns at one of the two `err != nil` checks. -/
def subscribeTask (topic : Bytes) : Option Cid :=
  let h := Sum256 (str "gossipsub:" ++ topic)
  match Encode h SHA2_256 with
  | .error _ => none
  | .ok encoded =>
    match Cast encoded with
    | .error _ => none
    | .ok mh => some (NewCidV1 Raw mh)

/-- What `Subscribe` leaves behind when `p.ps.Subscribe` succeeds: the
subscription it returns and the identifier its goroutine announces and looks up. -/
structure Subscribed where
  sub : Subscription
  id : Option Cid
  deriving DecidableEq, Repr

/-- The function `Pubsub.Subscribe`; `psSubscribe` is `p.ps.Subscribe` of the
pub/sub transport.  An error of the transport is returned and no goroutine is
started. -/
def Subscribe (psSubscribe : Bytes → Except Error Subscription) (topic : Bytes) :
    Except Error Subscribed :=
  match psSubscribe topic with
  | .error err => .error err
  | .ok sub => .ok { sub := sub, id := subscribeTask topic }

/-! ## chaincfg: the package-level parameter sets -/

/-- The address of the package-level variable `chaincfg.TestNet3Params`. -/
def addrTestNet3Params : Nat := 2

/-- The address of the package-level variable `chaincfg.RegressionNetParams`. -/
def addrRegressionNetParams : Nat := 3

/-- The pointer `&chaincfg.MainNetParams`: name `mainnet`, magic `wire.MainNet`;
the seed list is left empty. -/
def mainNetPtr : ParamsPtr :=
  { addr := addrMainNetParams,
    params := { Name := str "mainnet", Net := 0xe8f3e1e3, DNSSeeds := [] } }

/-- The pointer `&chaincfg.TestNet3Params`: name `testnet3`, magic `wire.TestNet3`. -/
def testNet3Ptr : ParamsPtr :=
  { addr := addrTestNet3Params,
    params := { Name := str "testnet3", Net := 0xf4f3e5f4, DNSSeeds := [] } }

/-- The pointer `&chaincfg.RegressionNetParams`: name `regtest`, magic `wire.TestNet`. -/
def regressionNetPtr : ParamsPtr :=
  { addr := addrRegressionNetParams,
    params := { Name := str "regtest", Net := 0xfabfb5da, DNSSeeds := [] } }

/-- A pointer to a copy of the mainnet parameters the caller has allocated. -/
def mainNetCopyPtr : ParamsPtr :=
  { addr := 100, params := mainNetPtr.params }

/-- Two parameter sets denote different logical networks when their network
magic or their name differs. -/
def differentNetworks (p q : Params) : Prop := p.Net ≠ q.Net ∨ p.Name ≠ q.Name

instance instDecidableDifferentNetworks (p q : Params) : Decidable (differentNetworks p q) :=
  inferInstanceAs (Decidable (p.Net ≠ q.Net ∨ p.Name ≠ q.Name))

/-- The configuration `configStatic` with other network parameters. -/
def configFor (p : ParamsPtr) : NodeConfig := { configStatic with Params := p }

/-! ## pubsub.go: connectToPubSubPeers

The function ranges over the channel of `FindProvidersAsync`, starts one
goroutine per provider after `wg.Add(1)`, and waits on the wait group.  As for
`SeedFromDNS` the model is a transition system over the goroutines.  The
stream of providers is a finite list.  What `p.ht.Connect` returns under its
timeout of ten seconds is a parameter: `Connect i pi` is the error of the call
the `i`-th goroutine makes for the peer `pi`, `none` when the connection is
established; a timeout is one of the errors. -/

/-- Where one connection goroutine stands. -/
inductive ConnTask where
  /-- Started for this provider; `p.ht.Connect` has not been called yet. -/
  | connect (pi : PeerInfo)
  /-- The call `p.ht.Connect` has returned and its outcome is logged; the
  deferred `wg.Done()` has not run yet. -/
  | logged
  /-- Ended; the deferred `wg.Done()` has run. -/
  | done
  deriving DecidableEq, Repr

/-- State of one call of `connectToPubSubPeers`. -/
structure ConnState where
  /-- Providers the `range provs` loop has still to receive. -/
  provs : List PeerInfo
  /-- Counter of the `sync.WaitGroup`. -/
  wg : Nat
  /-- The goroutines, in the order they were started. -/
  tasks : List ConnTask
  /-- The calls of `p.ht.Connect` made so far: goroutine and peer, in call order. -/
  attempts : List (Nat × PeerInfo)
  /-- The calls of `p.ht.Connect` that returned a nil error. -/
  established : List (Nat × PeerInfo)
  /-- Whether `wg.Wait()` has been passed and the function has returned. -/
  returned : Bool
  /-- Whether a goroutine has panicked. -/
  panicked : Bool
  deriving DecidableEq, Repr

/-- One step of one goroutine of `connectToPubSubPeers`. -/
inductive ConnEvent where
  /-- The loop receives the next provider: `wg.Add(1)` and `go func(pi)`. -/
  | recv
  /-- The `i`-th connection goroutine takes its next step. -/
  | task (i : Nat)
  /-- The loop has ended, `wg.Wait()` is passed and the function returns. -/
  | wait
  deriving DecidableEq, Repr

/-- The state in which `connectToPubSubPeers` starts on a stream of providers. -/
def ConnState.init (provs : List PeerInfo) : ConnState :=
  { provs := provs, wg := 0, tasks := [], attempts := [], established := [],
    returned := false, panicked := false }

/-- The step an event takes from a state, `none` when the event is not enabled. -/
def connStep (Connect : Nat → PeerInfo → Option Error) (s : ConnState) :
    ConnEvent → Option ConnState
  | .recv =>
    if s.panicked ∨ s.returned then none
    else
      match s.provs with
      | [] => none
      | prov :: rest => some { s with provs := rest, wg := s.wg + 1, tasks := s.tasks ++ [.connect prov] }
  | .wait =>
    if s.panicked ∨ s.returned ∨ s.provs ≠ [] ∨ s.wg ≠ 0 then none
    else some { s with returned := true }
  | .task i =>
    if s.panicked then none
    else
      match s.tasks.get? i with
      | none => none
      | some (.connect pi) =>
        match Connect i pi with
        | some _ => some { s with tasks := s.tasks.set i .logged, attempts := s.attempts ++ [(i, pi)] }
        | none => some { s with tasks := s.tasks.set i .logged, attempts := s.attempts ++ [(i, pi)],
                                established := s.established ++ [(i, pi)] }
      | some .logged =>
        if s.wg = 0 then some { s with panicked := true }
        else some { s with tasks := s.tasks.set i .done, wg := s.wg - 1 }
      | some .done => none

/-- The state a schedule leads to, `none` when one of its events is not enabled. -/
def connRun (Connect : Nat → PeerInfo → Option Error) :
    List ConnEvent → ConnState → Option ConnState
  | [], s => some s
  | e :: es, s =>
    match connStep Connect s e with
    | none => none
    | some s1 => connRun Connect es s1

/-- The function `Pubsub.connectToPubSubPeers` on the stream `provs` that
`FindProvidersAsync` delivers: the state the schedule leads to from the start. -/
def connectToPubSubPeers (Connect : Nat → PeerInfo → Option Error) (provs : List PeerInfo)
    (schedule : List ConnEvent) : Option ConnState :=
  connRun Connect schedule (ConnState.init provs)

/-! ## Predicates used to state the results on connectToPubSubPeers -/

/-- A goroutine that has not run its deferred `wg.Done()`. -/
def ConnTask.notDone : ConnTask → Bool
  | .done => false
  | _ => true

/-- A goroutine that has made its call of `p.ht.Connect`. -/
def ConnTask.called : ConnTask → Bool
  | .connect _ => false
  | _ => true

/-- Whether the `i`-th goroutine exists and has made its call of `p.ht.Connect`. -/
def calledAt (tasks : List ConnTask) (i : Nat) : Bool :=
  match tasks[i]? with
  | some t => t.called
  | none => false

/-- The steps a goroutine has still to take. -/
def ConnTask.weight : ConnTask → Nat
  | .connect _ => 2
  | .logged => 1
  | .done => 0

/-- The number of steps a state is away from the return of the function. -/
def ConnState.measure (s : ConnState) : Nat :=
  3 * s.provs.length + (s.tasks.map ConnTask.weight).sum + (if s.returned then 0 else 1)

/-- The invariant of `connectToPubSubPeers` on the stream `providers`: no panic;
the wait group counts the goroutines that have not run `wg.Done()`; the
goroutines started are those of the providers received so far; every call of
`p.ht.Connect` logged is the one call of a goroutine that has made its call,
for its own provider; the connections established are the calls that returned
nil; and the function has only returned when every provider is received and
every goroutine has ended. -/
structure ConnInv (Connect : Nat → PeerInfo → Option Error) (providers : List PeerInfo)
    (s : ConnState) : Prop where
  noPanic : s.panicked = false
  count : s.wg = s.tasks.countP ConnTask.notDone
  rest : s.provs = providers.drop s.tasks.length
  len : s.tasks.length ≤ providers.length
  own : ∀ (i : Nat) (pi : PeerInfo), s.tasks[i]? = some (ConnTask.connect pi) → providers[i]? = some pi
  att : ∀ (i : Nat) (pi : PeerInfo), s.attempts.count (i, pi) =
    if calledAt s.tasks i = true ∧ providers[i]? = some pi then 1 else 0
  est : ∀ (i : Nat) (pi : PeerInfo), s.established.count (i, pi) =
    if calledAt s.tasks i = true ∧ providers[i]? = some pi ∧ Connect i pi = none then 1 else 0
  ret : s.returned = true → s.provs = [] ∧ s.wg = 0

/-- The outcome function of the example: of ten attempts the third, the sixth
and the ninth fail, the other seven succeed. -/
def connectSeven : Nat → PeerInfo → Option Error :=
  fun i _ => if i % 3 = 2 then some (.external 3) else none

/-- Ten providers. -/
def tenProviders : List PeerInfo :=
  (List.range 10).map (fun i => { ID := peerA, Addrs := [[6, 0, UInt8.ofNat i]] })

/-- The schedule that starts each goroutine and lets it run to its end before
the next provider is received. -/
def sequentialSchedule (n : Nat) : List ConnEvent :=
  ((List.range n).map (fun i => [ConnEvent.recv, .task i, .task i])).flatten ++ [.wait]

/-- The state in which the call on `tenProviders` with the outcomes of
`connectSeven` has returned under the sequential schedule. -/
def tenReturned : ConnState :=
  { provs := [], wg := 0, tasks := List.replicate 10 .done, attempts := tenProviders.enum,
    established := tenProviders.enum.filter (fun x => (connectSeven x.1 x.2).isNone),
    returned := true, panicked := false }

/-- A component as the loop of `stringToBytes` makes it: the protocol is in the
table; a protocol without value has no value bytes, and the value of another
protocol is what its transcoder made of a text, which holds no `/` unless the
protocol is a path protocol. -/
def Component.traced (c : Component) : Prop :=
  c.proto ∈ Protocols ∧
    ((c.proto.Size = 0 ∧ c.value = []) ∨
     (c.proto.Size ≠ 0 ∧ ∃ t v, c.proto.Transcoder = some t ∧ (c.proto.Path = false → 47 ∉ v) ∧
        t.StringToBytes v = .ok c.value))

/-! ## Theorems: record validator -/

theorem str_slash_sha256 : str "/sha256/" = [47, 115, 104, 97, 50, 53, 54, 47] := by decide

theorem str_sha256_slash : str "sha256/" = [115, 104, 97, 50, 53, 54, 47] := by decide

theorem str_sha256 : str "sha256" = [115, 104, 97, 50, 53, 54] := by decide

/-- A key with the leading separator and the namespace `sha256` splits into
that namespace and the rest. -/
theorem SplitKey_slash_sha256 (k : Bytes) :
    SplitKey (str "/sha256/" ++ k) = .ok (str "sha256", k) := by
  simp [str_slash_sha256, str_sha256, SplitKey, IndexByte]

/-- A key that does not start with the separator is rejected by `SplitKey`. -/
theorem SplitKey_no_leading_slash (c : UInt8) (k : Bytes) (h : c ≠ 47) :
    SplitKey (c :: k) = .error .ErrInvalidRecordType := by
  simp [SplitKey, h]

/-- C1: for every value `v` and every string `k`, `Validate("/sha256/" + k, v)`
returns nil exactly when `k` is the lowercase hex encoding of `sha256(v)`, and
returns `ErrInvalidSha256Record` for every other `k`. -/
theorem Validate_slash_sha256_iff (k v : Bytes) :
    (Validate (str "/sha256/" ++ k) v = .ok () ↔ k = EncodeToString (Sum256 v)) ∧
    (Validate (str "/sha256/" ++ k) v = .error .ErrInvalidSha256Record ↔
      k ≠ EncodeToString (Sum256 v)) := by
  by_cases h : k = EncodeToString (Sum256 v) <;> simp [Validate, SplitKey_slash_sha256, h]

set_option maxRecDepth 100000 in
/-- The SHA-256 test vector of the empty message. -/
theorem Sum256_empty :
    EncodeToString (Sum256 []) =
      str "e3b0c44298fc1c149afbf4c8996fb92427ae41e4649b934ca495991b7852b855" := by
  decide

set_option maxRecDepth 100000 in
/-- The SHA-256 test vector of the message `abc`. -/
theorem Sum256_abc :
    EncodeToString (Sum256 (str "abc")) =
      str "ba7816bf8f01cfea414140de5dae2223b00361a396177a9cb410ff61f20015ad" := by
  decide

/-- C2 fails as stated: the key `"sha256/" + hex(sha256(v))` without a leading
separator is rejected for the empty value with the malformed-key error of
`SplitKey`, not accepted; and the key `"sha256/00"`, whose `k` differs from the
hash, is not rejected with `ErrInvalidSha256Record`. -/
theorem Validate_no_leading_slash_counterexample :
    Validate (str "sha256/" ++ EncodeToString (Sum256 [])) [] = .error .ErrInvalidRecordType ∧
    str "00" ≠ EncodeToString (Sum256 []) ∧
    Validate (str "sha256/" ++ str "00") [] ≠ .error .ErrInvalidSha256Record := by
  refine ⟨?_, ?_, ?_⟩
  · simp [Validate, str_sha256_slash, SplitKey]
  · rw [Sum256_empty]
    decide
  · simp [Validate, str_sha256_slash, SplitKey]

/-- C2 as amended: the accepted key format is `"/<namespace>/<namespace-key>"`.
With the leading separator the key of `hex(sha256(v))` validates and every other
`k` fails with `ErrInvalidSha256Record`; without it every key
`"sha256/" + k` fails with `ErrInvalidRecordType`. -/
theorem Validate_key_format (k v : Bytes) :
    Validate (str "/sha256/" ++ EncodeToString (Sum256 v)) v = .ok () ∧
    Validate (str "/sha256/" ++ k) v =
      (if k = EncodeToString (Sum256 v) then .ok () else .error .ErrInvalidSha256Record) ∧
    Validate (str "sha256/" ++ k) v = .error .ErrInvalidRecordType := by
  refine ⟨?_, ?_, ?_⟩
  · simp [Validate, SplitKey_slash_sha256]
  · by_cases h : k = EncodeToString (Sum256 v) <;> simp [Validate, SplitKey_slash_sha256, h]
  · simp [Validate, str_sha256_slash, SplitKey]

/-- A key without any separator is rejected by `SplitKey`. -/
theorem SplitKey_no_separator (key : Bytes) (h : (47 : UInt8) ∉ key) :
    SplitKey key = .error .ErrInvalidRecordType := by
  cases key with
  | nil => rfl
  | cons c k =>
    have hc : c ≠ 47 := fun e => h (by simp [e])
    exact SplitKey_no_leading_slash c k hc

/-- C3: for every key that contains no `/` and every value, `Validate` fails
with the malformed-key error of `SplitKey` (`ErrInvalidRecordType`), which is
not `ErrInvalidSha256Record`. -/
theorem Validate_no_separator (key value : Bytes) (h : (47 : UInt8) ∉ key) :
    Validate key value = .error .ErrInvalidRecordType ∧
    Validate key value ≠ .error .ErrInvalidSha256Record := by
  simp [Validate, SplitKey_no_separator key h]

/-- C3 at the key `"sha256"` (no separator) and the value `"abc"`. -/
theorem Validate_no_separator_witness :
    (47 : UInt8) ∉ str "sha256" ∧
    Validate (str "sha256") (str "abc") = .error .ErrInvalidRecordType ∧
    Validate (str "sha256") (str "abc") ≠ .error .ErrInvalidSha256Record :=
  ⟨by decide, Validate_no_separator (str "sha256") (str "abc") (by decide)⟩

/-- For every well-formed key whose namespace is not `sha256`, `Validate`
returns the error allocated by `errors.New`. -/
theorem Validate_other_namespace (key value ns k : Bytes) (hsplit : SplitKey key = .ok (ns, k))
    (hns : ns ≠ str "sha256") :
    Validate key value = .error (.errorsNew "namespace not 'sha256'") := by
  simp [Validate, hsplit, hns]

/-- C4 fails on the code: for the well-formed key `"/pk/abc"`, whose namespace
is not `sha256`, `Validate` returns an error allocated on the spot by
`errors.New("namespace not 'sha256'")`, which is not the sentinel
`ErrInvalidNamespace`. -/
theorem Validate_other_namespace_not_sentinel :
    SplitKey (str "/pk/abc") = .ok (str "pk", str "abc") ∧
    Validate (str "/pk/abc") [] = .error (.errorsNew "namespace not 'sha256'") ∧
    Validate (str "/pk/abc") [] ≠ .error .ErrInvalidNamespace := by
  decide

/-! ## Theorems: node construction -/

/-- A failure of host construction aborts `NewOverlayNode`. -/
theorem NewOverlayNode_host_error (libs : Libs) (config : NodeConfig) (e : Error)
    (h : libs.libp2pNew (str "/ip4/0.0.0.0/tcp/" ++ Itoa config.Port)
      (str "/ip6/::/tcp/" ++ Itoa config.Port) config.PrivateKey = .error e) :
    NewOverlayNode libs config = .error e := by
  simp [NewOverlayNode, h]

/-- A failure to open the datastore aborts `NewOverlayNode`. -/
theorem NewOverlayNode_datastore_error (libs : Libs) (config : NodeConfig) (e : Error)
    (peerHost : Host)
    (hh : libs.libp2pNew (str "/ip4/0.0.0.0/tcp/" ++ Itoa config.Port)
      (str "/ip6/::/tcp/" ++ Itoa config.Port) config.PrivateKey = .ok peerHost)
    (h : libs.NewDatastore (libs.pathJoin config.DataDir (str "libp2p")) = .error e) :
    NewOverlayNode libs config = .error e := by
  simp [NewOverlayNode, hh, h]

/-- A failure of `dht.New` does not abort `NewOverlayNode`: when the host, the
datastore and the pub/sub construction succeed, a node is returned and its
`Routing` is nil. -/
theorem NewOverlayNode_dht_error (libs : Libs) (config : NodeConfig) (e : Error)
    (peerHost : Host) (dstore : Datastore) (ps : GossipSub)
    (hh : libs.libp2pNew (str "/ip4/0.0.0.0/tcp/" ++ Itoa config.Port)
      (str "/ip6/::/tcp/" ++ Itoa config.Port) config.PrivateKey = .ok peerHost)
    (hd : libs.NewDatastore (libs.pathJoin config.DataDir (str "libp2p")) = .ok dstore)
    (hr : libs.dhtNew peerHost dstore (selectProtocol config) [str "pk", str "sha256"] = .error e)
    (hp : libs.NewGossipSub peerHost = .ok ps) :
    ∃ node, NewOverlayNode libs config = .ok node ∧ node.Routing = none := by
  simp [NewOverlayNode, hh, hd, hr, hp, Except.toOption]

/-- C5 fails on the code: with libraries in which `dht.New` fails and the
later `pubsub.NewGossipSub` succeeds, `NewOverlayNode` returns a node and a nil
error, and the node's `Routing` is nil. -/
theorem NewOverlayNode_returns_node_without_routing :
    libsDhtFails.dhtNew { id := 1 } { id := 2 } (selectProtocol configStatic)
        [str "pk", str "sha256"] = .error (.external 1) ∧
    (NewOverlayNode libsDhtFails configStatic).toOption.isSome = true ∧
    (NewOverlayNode libsDhtFails configStatic).toOption.map (·.Routing) = some none := by
  simp [NewOverlayNode, libsDhtFails, libsOk, Except.toOption]

/-! ## Theorems: bootstrap resolution -/

/-- A node whose `disableDNSSeeeds` is set hands its `bootstrapPeers` to
`Bootstrap` and calls no lookup, under every schedule. -/
theorem StartOnlineServices_disabled
    (Bootstrap : Option IpfsDHT → Host → List PeerInfo → Option Error)
    (LookupTXT : LookupTXTFunc) (n : OverlayNode) (schedule : List Event)
    (h : n.disableDNSSeeeds = true) :
    StartOnlineServices Bootstrap LookupTXT n schedule =
      some { peers := n.bootstrapPeers, lookups := [],
             err := Bootstrap n.Routing n.Host n.bootstrapPeers } := by
  simp [StartOnlineServices, h]

/-- The function `NewOverlayNode` copies the static peers and the DNS flag of the configuration. -/
theorem NewOverlayNode_copies_config (libs : Libs) (config : NodeConfig) (node : OverlayNode)
    (h : NewOverlayNode libs config = .ok node) :
    node.bootstrapPeers = config.BootstrapPeers ∧
    node.disableDNSSeeeds = config.DisableDNSSeeds := by
  unfold NewOverlayNode at h
  split at h
  · exact absurd h (by simp)
  · split at h
    · exact absurd h (by simp)
    · split at h
      · exact absurd h (by simp)
      · simp only [Except.ok.injEq] at h
        subst h
        exact ⟨rfl, rfl⟩

/-- C6: for a node built from a configuration with DNS seeding disabled, under
every schedule and for every lookup function, `StartOnlineServices` hands to
`Bootstrap` exactly the configured `BootstrapPeers`, in their order, and the
list of hosts the lookup was called with is empty. -/
theorem StartOnlineServices_dns_disabled (libs : Libs) (config : NodeConfig)
    (node : OverlayNode)
    (Bootstrap : Option IpfsDHT → Host → List PeerInfo → Option Error)
    (LookupTXT : LookupTXTFunc) (schedule : List Event)
    (hnode : NewOverlayNode libs config = .ok node)
    (hdns : config.DisableDNSSeeds = true) :
    ∃ r, StartOnlineServices Bootstrap LookupTXT node schedule = some r ∧
      r.peers = config.BootstrapPeers ∧ r.lookups = [] := by
  obtain ⟨hp, hd⟩ := NewOverlayNode_copies_config libs config node hnode
  refine ⟨_, StartOnlineServices_disabled Bootstrap LookupTXT node schedule (by rw [hd, hdns]),
    hp, rfl⟩

/-! ## Theorems: the goroutines of SeedFromDNS -/

/-- Replacing a goroutine state by one of the same `notDone` value keeps the count. -/
theorem countP_set_same (l : List Task) (i : Nat) (x t : Task) (hx : l.get? i = some x)
    (h : Task.notDone x = Task.notDone t) :
    (l.set i t).countP Task.notDone = l.countP Task.notDone := by
  induction l generalizing i with
  | nil => simp
  | cons a l ih =>
    cases i with
    | zero =>
      simp only [List.get?_cons_zero, Option.some.injEq] at hx
      subst hx
      simp [List.countP_cons, h]
    | succ i =>
      simp only [List.get?_cons_succ] at hx
      simp [List.countP_cons, ih i hx]

/-- Replacing a goroutine that has not run `wg.Done()` by `done` lowers the count by one. -/
theorem countP_set_done (l : List Task) (i : Nat) (x : Task) (hx : l.get? i = some x)
    (h : Task.notDone x = true) :
    (l.set i .done).countP Task.notDone + 1 = l.countP Task.notDone := by
  induction l generalizing i with
  | nil => simp at hx
  | cons a l ih =>
    cases i with
    | zero =>
      simp only [List.get?_cons_zero, Option.some.injEq] at hx
      subst hx
      have hd : Task.notDone .done = false := rfl
      simp [List.countP_cons, h, hd]
    | succ i =>
      simp only [List.get?_cons_succ] at hx
      have := ih i hx
      simp only [List.set_cons_succ, List.countP_cons]
      omega

/-- A lost goroutine stays in the list when a goroutine is replaced by one
that is lost whenever the replaced one was. -/
theorem exists_lost_set (lookupFn : LookupTXTFunc) (l : List Task) (i : Nat) (x t : Task)
    (hx : l.get? i = some x)
    (himp : Task.lost lookupFn x = true → Task.lost lookupFn t = true)
    (h : ∃ u ∈ l, Task.lost lookupFn u = true) :
    ∃ u ∈ l.set i t, Task.lost lookupFn u = true := by
  induction l generalizing i with
  | nil => simp at hx
  | cons a l ih =>
    obtain ⟨u, hu, hl⟩ := h
    cases i with
    | zero =>
      simp only [List.get?_cons_zero, Option.some.injEq] at hx
      subst hx
      rcases List.mem_cons.mp hu with rfl | hu
      · exact ⟨t, by simp, himp hl⟩
      · exact ⟨u, by simp [hu], hl⟩
    | succ i =>
      simp only [List.get?_cons_succ] at hx
      rcases List.mem_cons.mp hu with rfl | hu
      · exact ⟨u, by simp, hl⟩
      · obtain ⟨w, hw, hwl⟩ := ih i hx ⟨u, hu, hl⟩
        exact ⟨w, by simp [hw], hwl⟩

/-- A lost goroutine has not run `wg.Done()`. -/
theorem notDone_of_lost (lookupFn : LookupTXTFunc) (t : Task)
    (h : Task.lost lookupFn t = true) : Task.notDone t = true := by
  cases t <;> simp_all [Task.lost, Task.notDone]

/-- The step `spawn`, spelled out. -/
theorem step_spawn (lookupFn : LookupTXTFunc) (s : SeedState) :
    step lookupFn s .spawn =
      if s.panicked then none
      else
        match s.seeds with
        | [] => none
        | host :: rest =>
          some { s with seeds := rest, wg := s.wg + 1, tasks := s.tasks ++ [.lookup host] } := rfl

/-- The step `close`, spelled out. -/
theorem step_close (lookupFn : LookupTXTFunc) (s : SeedState) :
    step lookupFn s .close =
      if s.panicked ∨ s.closed ∨ s.seeds ≠ [] ∨ s.wg ≠ 0 then none
      else some { s with closed := true } := rfl

/-- In a wedged state the wait-group counter is positive once every seed has
been visited, so `close(ch)` is not enabled. -/
theorem Wedged_close_disabled {lookupFn : LookupTXTFunc} {s : SeedState}
    (w : Wedged lookupFn s) : step lookupFn s .close = none := by
  rw [step_close]
  by_cases hs : s.seeds = []
  · have hl : ∃ t ∈ s.tasks, Task.lost lookupFn t = true := by
      rcases w.lost with ⟨h, hh, _⟩ | hl
      · rw [hs] at hh
        exact absurd hh (by simp)
      · exact hl
    obtain ⟨t, ht, hlost⟩ := hl
    have hpos : 0 < s.tasks.countP Task.notDone :=
      List.countP_pos_iff.mpr ⟨t, ht, notDone_of_lost lookupFn t hlost⟩
    have hwg : s.wg ≠ 0 := by
      rw [w.count]
      omega
    simp [hwg]
  · simp [hs]

/-- The step `spawn` keeps a wedged state wedged. -/
theorem Wedged_spawn {lookupFn : LookupTXTFunc} {s s1 : SeedState}
    (w : Wedged lookupFn s) (h : step lookupFn s .spawn = some s1) : Wedged lookupFn s1 := by
  rw [step_spawn] at h
  split at h
  · exact absurd h (by simp)
  · split at h
    · exact absurd h (by simp)
    · rename_i host rest hseeds
      simp only [Option.some.injEq] at h
      subst h
      refine ⟨w.isOpen, ?_, ?_⟩
      · have hn : Task.notDone (.lookup host) = true := rfl
        simp [List.countP_append, w.count, List.countP_cons, hn]
      · rcases w.lost with ⟨x, hx, hb⟩ | ⟨t, ht, hl⟩
        · rw [hseeds] at hx
          rcases List.mem_cons.mp hx with rfl | hx
          · exact Or.inr ⟨.lookup x, by simp, by simpa [Task.lost] using hb⟩
          · exact Or.inl ⟨x, hx, hb⟩
        · exact Or.inr ⟨t, by simp [ht], hl⟩

/-- Replacing the `i`-th goroutine keeps a wedged state wedged when the new
goroutine still counts in the wait group and is lost whenever the old one was. -/
theorem Wedged_set {lookupFn : LookupTXTFunc} {s : SeedState} (w : Wedged lookupFn s)
    (i : Nat) (x t : Task) (hx : s.tasks.get? i = some x)
    (hn : Task.notDone x = Task.notDone t)
    (himp : Task.lost lookupFn x = true → Task.lost lookupFn t = true)
    (peers : List PeerInfo) (lookups : List Bytes) :
    Wedged lookupFn { s with tasks := s.tasks.set i t, peers := peers, lookups := lookups } := by
  refine ⟨w.isOpen, ?_, ?_⟩
  · show s.wg = (s.tasks.set i t).countP Task.notDone
    rw [countP_set_same s.tasks i x t hx hn]
    exact w.count
  · rcases w.lost with hl | hl
    · exact Or.inl hl
    · exact Or.inr (exists_lost_set lookupFn s.tasks i x t hx himp hl)

/-- A panic keeps a wedged state wedged. -/
theorem Wedged_panicked {lookupFn : LookupTXTFunc} {s : SeedState} (w : Wedged lookupFn s) :
    Wedged lookupFn { s with panicked := true } :=
  ⟨w.isOpen, w.count, w.lost⟩

/-- A step of a per-host goroutine keeps a wedged state wedged. -/
theorem Wedged_task {lookupFn : LookupTXTFunc} {s s1 : SeedState} (i : Nat)
    (w : Wedged lookupFn s) (h : step lookupFn s (.task i) = some s1) : Wedged lookupFn s1 := by
  simp only [step] at h
  split at h
  · exact absurd h (by simp)
  · split at h
    · exact absurd h (by simp)
    · rename_i host hx
      split at h
      · rename_i e hlk
        simp only [Option.some.injEq] at h
        subst h
        exact Wedged_set w i (.lookup host) .returned hx rfl (fun _ => rfl) _ _
      · rename_i txt hlk
        simp only [Option.some.injEq] at h
        subst h
        exact Wedged_set w i (.lookup host) (.range txt) hx rfl
          (by simp [Task.lost, badLookup, hlk]) _ _
    · rename_i hx
      split at h
      · simp only [Option.some.injEq] at h
        subst h
        exact Wedged_panicked w
      · rename_i hwg
        simp only [Option.some.injEq] at h
        subst h
        refine ⟨w.isOpen, ?_, ?_⟩
        · have := countP_set_done s.tasks i _ hx rfl
          have := w.count
          show s.wg - 1 = (s.tasks.set i .done).countP Task.notDone
          omega
        · rcases w.lost with hl | hl
          · exact Or.inl hl
          · exact Or.inr (exists_lost_set lookupFn s.tasks i _ _ hx (by simp [Task.lost]) hl)
    · rename_i t rest hx
      split at h
      · simp only [Option.some.injEq] at h
        subst h
        exact Wedged_panicked w
      · simp only [Option.some.injEq] at h
        subst h
        exact Wedged_set w i (.range (t :: rest)) .returned hx rfl (fun _ => rfl) _ _
      · rename_i pi hparse
        simp only [Option.some.injEq] at h
        subst h
        exact Wedged_set w i (.range (t :: rest)) (.send pi rest) hx rfl
          (by simp [Task.lost, badRecord, hparse]) _ _
    · rename_i pi rest hx
      split at h
      · simp only [Option.some.injEq] at h
        subst h
        exact Wedged_panicked w
      · simp only [Option.some.injEq] at h
        subst h
        exact Wedged_set w i (.send pi rest) (.range rest) hx rfl (by simp [Task.lost]) _ _
    · exact absurd h (by simp)
    · exact absurd h (by simp)

/-- Every step keeps a wedged state wedged. -/
theorem Wedged_step {lookupFn : LookupTXTFunc} {s s1 : SeedState} (e : Event)
    (w : Wedged lookupFn s) (h : step lookupFn s e = some s1) : Wedged lookupFn s1 := by
  cases e with
  | spawn => exact Wedged_spawn w h
  | task i => exact Wedged_task i w h
  | close =>
    rw [Wedged_close_disabled w] at h
    exact absurd h (by simp)

/-- Every schedule keeps a wedged state wedged. -/
theorem Wedged_run {lookupFn : LookupTXTFunc} (evs : List Event) {s s1 : SeedState}
    (w : Wedged lookupFn s) (h : run lookupFn evs s = some s1) : Wedged lookupFn s1 := by
  induction evs generalizing s with
  | nil =>
    simp only [run, Option.some.injEq] at h
    subst h
    exact w
  | cons e es ih =>
    simp only [run] at h
    split at h
    · exact absurd h (by simp)
    · rename_i s2 hs2
      exact ih (Wedged_step e w hs2) h

/-- The initial state is wedged when the lookup of one of the seeds is bad. -/
theorem Wedged_init (lookupFn : LookupTXTFunc) (seeds : List Bytes) (peers : List PeerInfo)
    (host : Bytes) (hmem : host ∈ seeds) (hbad : badLookup lookupFn host = true) :
    Wedged lookupFn (SeedState.init seeds peers) :=
  ⟨rfl, rfl, Or.inl ⟨host, hmem, hbad⟩⟩

/-- When the lookup of one seed is bad, no schedule leads to a state in which
`close(ch)` has run. -/
theorem run_never_closes (lookupFn : LookupTXTFunc) (seeds : List Bytes) (peers : List PeerInfo)
    (host : Bytes) (evs : List Event) (s : SeedState) (hmem : host ∈ seeds)
    (hbad : badLookup lookupFn host = true)
    (hrun : run lookupFn evs (SeedState.init seeds peers) = some s) : s.closed = false :=
  (Wedged_run evs (Wedged_init lookupFn seeds peers host hmem hbad) hrun).isOpen

/-- C6 at `configStatic`: the node `NewOverlayNode` builds hands the one
configured peer to `Bootstrap` and looks up no host. -/
theorem StartOnlineServices_dns_disabled_witness :
    NewOverlayNode libsOk configStatic = .ok nodeStatic ∧
    configStatic.DisableDNSSeeds = true ∧
    ∃ r, StartOnlineServices (fun _ _ _ => none) lookupFails nodeStatic [.spawn, .task 0] = some r ∧
      r.peers = configStatic.BootstrapPeers ∧ r.lookups = [] :=
  ⟨rfl, rfl, StartOnlineServices_dns_disabled libsOk configStatic nodeStatic (fun _ _ _ => none)
    lookupFails [.spawn, .task 0] rfl rfl⟩

/-- C8 fails on the code: when the lookup of one seed host returns an error,
no schedule leads to a state in which `close(ch)` has run.  The goroutine of
that host returns without `wg.Done()`, so `wg.Wait()` never returns. -/
theorem SeedFromDNS_lookup_error_never_closes (chainParams : Params) (lookupFn : LookupTXTFunc)
    (peers : List PeerInfo) (seed : DNSSeed) (e : Error) (schedule : List Event) (s : SeedState)
    (hmem : seed ∈ chainParams.DNSSeeds) (herr : lookupFn seed.Host = .error e)
    (hrun : SeedFromDNS chainParams lookupFn peers schedule = some s) :
    s.closed = false :=
  run_never_closes lookupFn _ peers seed.Host schedule s (List.mem_map_of_mem _ hmem)
    (by simp [badLookup, herr]) hrun

/-- C8 at one seed host whose lookup fails: after the goroutine has been
started and has called the lookup, the channel is open, the counter of the wait
group is 1 and the goroutine has returned. -/
theorem SeedFromDNS_lookup_error_never_closes_witness :
    { Host := str "seed.example.org", HasFiltering := true } ∈ paramsOne.DNSSeeds ∧
    lookupFails (str "seed.example.org") = .error (.external 2) ∧
    SeedFromDNS paramsOne lookupFails [] [.spawn, .task 0] =
      some { seeds := [], wg := 1, tasks := [.returned], closed := false, peers := [],
             lookups := seedsOne, panicked := false } ∧
    (SeedState.mk [] 1 [.returned] false [] seedsOne false).closed = false :=
  ⟨by decide, rfl, by decide,
   SeedFromDNS_lookup_error_never_closes paramsOne lookupFails []
     { Host := str "seed.example.org", HasFiltering := true }
     (.external 2) [.spawn, .task 0] _ (by decide) rfl (by decide)⟩

/-- With DNS seeding enabled and a seed host whose lookup fails,
`StartOnlineServices` does not return under any schedule. -/
theorem StartOnlineServices_blocks_on_lookup_error
    (Bootstrap : Option IpfsDHT → Host → List PeerInfo → Option Error)
    (LookupTXT : LookupTXTFunc) (n : OverlayNode) (schedule : List Event)
    (host : Bytes) (e : Error) (hdns : n.disableDNSSeeeds = false)
    (hmem : host ∈ n.Params.params.DNSSeeds.map (·.Host)) (herr : LookupTXT host = .error e) :
    StartOnlineServices Bootstrap LookupTXT n schedule = none := by
  unfold StartOnlineServices
  rw [if_neg (by simp [hdns])]
  split
  · rfl
  · rename_i s hs
    have := run_never_closes LookupTXT _ _ host schedule s hmem (by simp [badLookup, herr]) hs
    simp [this]

/-- When one record of a seed host does not parse, no schedule leads to a state
in which `close(ch)` has run: the goroutine returns at that record (or at an
earlier one) without `wg.Done()`. -/
theorem SeedFromDNS_bad_record_never_closes (chainParams : Params) (lookupFn : LookupTXTFunc)
    (peers : List PeerInfo) (seed : DNSSeed) (txt : List Bytes) (t : Bytes) (e : Error)
    (schedule : List Event) (s : SeedState)
    (hmem : seed ∈ chainParams.DNSSeeds) (hlookup : lookupFn seed.Host = .ok txt)
    (ht : t ∈ txt) (hparse : ParseBootstrapPeer t = .error e)
    (hrun : SeedFromDNS chainParams lookupFn peers schedule = some s) :
    s.closed = false := by
  have hbad : badLookup lookupFn seed.Host = true := by
    simp only [badLookup, hlookup, List.any_eq_true]
    exact ⟨t, ht, by simp [badRecord, hparse]⟩
  exact run_never_closes lookupFn _ peers seed.Host schedule s (List.mem_map_of_mem _ hmem)
    hbad hrun

/-- When the lookup succeeds and its record parses, the run can be scheduled to
the end: the peer is received, `wg.Done()` runs and `close(ch)` follows. -/
theorem SeedFromDNS_completes_example :
    SeedFromDNS paramsOne lookupOne [] [.spawn, .task 0, .task 0, .task 0, .task 0, .close] =
      some { seeds := [], wg := 0, tasks := [.done], closed := true,
             peers := [{ ID := peerA, Addrs := [addrA] }], lookups := seedsOne,
             panicked := false } := by
  decide!

/-- The three records of `lookupMixed`: the first and the third parse, the
second does not. -/
theorem lookupMixed_records :
    ParseBootstrapPeer recordA = .ok { ID := peerA, Addrs := [addrA] } ∧
    ParseBootstrapPeer (str "not an address") =
      .error (.errorsNew "invalid multiaddr, must begin with /") ∧
    ParseBootstrapPeer recordB = .ok { ID := peerA, Addrs := [addrB] } := by
  decide!

/-- A goroutine that does not exist takes no step. -/
theorem step_task_none (lookupFn : LookupTXTFunc) (s : SeedState) (i : Nat)
    (h : s.tasks.get? i = none) : step lookupFn s (.task i) = none := by
  simp only [step]
  rw [h]
  split <;> rfl

/-- The states of `mixedStates` hold at most one goroutine. -/
theorem mixedStates_tasks (s : SeedState) (h : s ∈ mixedStates) : s.tasks.length ≤ 1 := by
  simp only [mixedStates, List.mem_cons, List.mem_singleton, List.not_mem_nil, or_false] at h
  rcases h with rfl | rfl | rfl | rfl | rfl | rfl <;> simp [SeedState.init, oneTask]

/-- The events `spawn`, `task 0` and `close` lead from `mixedStates` into `mixedStates`. -/
theorem mixedStates_closed_under_events :
    ∀ e ∈ [Event.spawn, Event.task 0, Event.close], ∀ s ∈ mixedStates,
      (match step lookupMixed s e with
       | none => true
       | some s1 => decide (s1 ∈ mixedStates)) = true := by
  decide!

/-- Every step leads from `mixedStates` into `mixedStates`. -/
theorem mixedStates_step (s s1 : SeedState) (e : Event) (hs : s ∈ mixedStates)
    (h : step lookupMixed s e = some s1) : s1 ∈ mixedStates := by
  have key : e ∈ [Event.spawn, Event.task 0, Event.close] → s1 ∈ mixedStates := by
    intro he
    have := mixedStates_closed_under_events e he s hs
    rw [h] at this
    simpa using this
  cases e with
  | spawn => exact key (by simp)
  | close => exact key (by simp)
  | task i =>
    cases i with
    | zero => exact key (by simp)
    | succ i =>
      have hlen := mixedStates_tasks s hs
      have hnone : s.tasks.get? (i + 1) = none := List.get?_eq_none.mpr (by omega)
      rw [step_task_none lookupMixed s (i + 1) hnone] at h
      exact absurd h (by simp)

/-- Every schedule leads from `mixedStates` into `mixedStates`. -/
theorem mixedStates_run (evs : List Event) (s s1 : SeedState) (hs : s ∈ mixedStates)
    (h : run lookupMixed evs s = some s1) : s1 ∈ mixedStates := by
  induction evs generalizing s with
  | nil =>
    simp only [run, Option.some.injEq] at h
    subst h
    exact hs
  | cons e es ih =>
    simp only [run] at h
    split at h
    · exact absurd h (by simp)
    · rename_i s2 hs2
      exact ih s2 (mixedStates_step s s2 e hs hs2) h

/-- C7 fails on the code: a host whose lookup returns a valid record, a
malformed record and another valid record yields, under every schedule, at most
one peer, never the peer of the record after the malformed one, and the channel
is never closed.  The goroutine returns at the malformed record. -/
theorem SeedFromDNS_malformed_record_ends_host (schedule : List Event) (s : SeedState)
    (hrun : SeedFromDNS paramsOne lookupMixed [] schedule = some s) :
    s.peers.length ≤ 1 ∧ { ID := peerA, Addrs := [addrB] } ∉ s.peers ∧ s.closed = false := by
  have hmem := mixedStates_run schedule _ s (by simp [mixedStates, seedsOne]) hrun
  have hall : ∀ x ∈ mixedStates,
      x.peers.length ≤ 1 ∧ { ID := peerA, Addrs := [addrB] } ∉ x.peers ∧ x.closed = false := by
    decide
  exact hall s hmem

/-- The schedule that runs the one goroutine of `lookupMixed` as far as it goes: one peer
has been received and the goroutine has returned. -/
theorem SeedFromDNS_mixed_schedule :
    SeedFromDNS paramsOne lookupMixed [] [.spawn, .task 0, .task 0, .task 0, .task 0] =
      some (oneTask .returned true [{ ID := peerA, Addrs := [addrA] }]) := by
  decide!

/-- C7 at the schedule that runs the one goroutine as far as it goes: one peer
has been received and the goroutine has returned. -/
theorem SeedFromDNS_malformed_record_ends_host_witness :
    SeedFromDNS paramsOne lookupMixed [] [.spawn, .task 0, .task 0, .task 0, .task 0] =
      some (oneTask .returned true [{ ID := peerA, Addrs := [addrA] }]) ∧
    (oneTask .returned true [{ ID := peerA, Addrs := [addrA] }]).peers.length ≤ 1 ∧
    { ID := peerA, Addrs := [addrB] } ∉
      (oneTask .returned true [{ ID := peerA, Addrs := [addrA] }]).peers ∧
    (oneTask .returned true [{ ID := peerA, Addrs := [addrA] }]).closed = false :=
  ⟨SeedFromDNS_mixed_schedule,
   SeedFromDNS_malformed_record_ends_host [.spawn, .task 0, .task 0, .task 0, .task 0] _
     SeedFromDNS_mixed_schedule⟩

/-! ## Lemmas: bytes and strings -/

theorem u8_le (a b : UInt8) : a ≤ b ↔ a.toNat ≤ b.toNat := by
  rw [UInt8.le_def, BitVec.le_def]; rfl

theorem u8_lt (a b : UInt8) : a < b ↔ a.toNat < b.toNat := by
  rw [UInt8.lt_def, BitVec.lt_def]; rfl

theorem u8_eq (a b : UInt8) : a = b ↔ a.toNat = b.toNat :=
  ⟨fun h => by rw [h], UInt8.ext⟩

theorem u8_toNat_ofNat (n : Nat) (h : n < 256) : (UInt8.ofNat n).toNat = n := by
  show (UInt8.ofNat n).toBitVec.toNat = n
  simp [UInt8.ofNat, BitVec.toNat_ofNat, Nat.mod_eq_of_lt h]

theorem u8_ofNat_toNat (c : UInt8) : UInt8.ofNat c.toNat = c := by
  apply UInt8.ext
  rw [u8_toNat_ofNat _ (UInt8.toNat_lt c)]

/-- The function `Split` at a separator. -/
theorem Split_cons_sep (rest : Bytes) (sep : UInt8) :
    Split (sep :: rest) sep = [] :: Split rest sep := by
  simp [Split]

/-- The function `Split` at another byte, the rest being split into `seg :: segs`. -/
theorem Split_cons_ne (c : UInt8) (rest seg : Bytes) (segs : List Bytes) (sep : UInt8)
    (hc : c ≠ sep) (h : Split rest sep = seg :: segs) :
    Split (c :: rest) sep = (c :: seg) :: segs := by
  simp [Split, hc, h]

/-- The function `TrimRight` in front of a rest that is not trimmed away. -/
theorem TrimRight_cons (a : UInt8) (l : Bytes) (cut : UInt8) (h : TrimRight l cut ≠ []) :
    TrimRight (a :: l) cut = a :: TrimRight l cut := by
  cases hr : TrimRight l cut with
  | nil => exact absurd hr h
  | cons x r => simp [TrimRight, hr]

/-- The function `Split` returns at least one piece. -/
theorem Split_ne_nil (s : Bytes) (sep : UInt8) : Split s sep ≠ [] := by
  cases s with
  | nil => simp [Split]
  | cons c rest =>
    simp only [Split]
    split
    · simp
    · split <;> simp

/-- A string without the separator is its only piece. -/
theorem Split_no_sep (s : Bytes) (sep : UInt8) (h : sep ∉ s) : Split s sep = [s] := by
  induction s with
  | nil => rfl
  | cons c rest ih =>
    have hc : c ≠ sep := fun e => h (by simp [e])
    have hr : sep ∉ rest := fun e => h (by simp [e])
    simp [Split, hc, ih hr]

/-- Splitting distributes over a separator in the middle. -/
theorem Split_append_sep (s t : Bytes) (sep : UInt8) :
    Split (s ++ sep :: t) sep = Split s sep ++ Split t sep := by
  induction s with
  | nil => simp [Split]
  | cons c rest ih =>
    rw [List.cons_append]
    cases hs : Split rest sep with
    | nil => exact absurd hs (Split_ne_nil rest sep)
    | cons seg segs =>
      by_cases hc : c = sep
      · subst hc
        rw [Split_cons_sep, Split_cons_sep, ih, hs]
        rfl
      · rw [Split_cons_ne c _ seg (segs ++ Split t sep) sep hc (by rw [ih, hs]; rfl),
          Split_cons_ne c rest seg segs sep hc hs]
        rfl

/-- A separator-free piece in front of a string that starts with the separator. -/
theorem Split_piece_append (p rest : Bytes) (q : List Bytes) (sep : UInt8) (hp : sep ∉ p)
    (hrest : Split rest sep = [] :: q) : Split (p ++ rest) sep = p :: q := by
  induction p with
  | nil => simpa using hrest
  | cons c p ih =>
    have hc : c ≠ sep := fun e => hp (by simp [e])
    have hr : sep ∉ p := fun e => hp (by simp [e])
    rw [List.cons_append, Split_cons_ne c _ p q sep hc (ih hr)]

/-- The text `/p1/p2/../pn` splits into an empty piece and `p1 .. pn`. -/
theorem Split_flatMap (ps : List Bytes) (sep : UInt8) (h : ∀ p ∈ ps, sep ∉ p) :
    Split (ps.flatMap (fun p => sep :: p)) sep = [] :: ps := by
  induction ps with
  | nil => rfl
  | cons p ps ih =>
    have ih := ih (fun q hq => h q (by simp [hq]))
    rw [List.flatMap_cons, List.cons_append, Split_cons_sep,
      Split_piece_append p _ ps sep (h p (by simp)) ih]

/-- The function `TrimRight` leaves a string that ends in another byte unchanged. -/
theorem TrimRight_concat (l : Bytes) (c cut : UInt8) (h : c ≠ cut) :
    TrimRight (l ++ [c]) cut = l ++ [c] := by
  induction l with
  | nil => simp [TrimRight, h]
  | cons a l ih =>
    rw [List.cons_append, TrimRight_cons a _ cut (by rw [ih]; simp), ih]

/-- The function `TrimRight` leaves a string unchanged when it is empty or ends in a piece
that is not empty and free of the cut byte. -/
theorem TrimRight_append_piece (l p : Bytes) (cut : UInt8) (hne : p ≠ []) (hp : cut ∉ p) :
    TrimRight (l ++ p) cut = l ++ p := by
  rcases List.eq_nil_or_concat p with rfl | ⟨q, c, rfl⟩
  · exact absurd rfl hne
  · have hc : c ≠ cut := fun e => hp (by simp [e])
    rw [List.concat_eq_append, ← List.append_assoc]
    exact TrimRight_concat _ c cut hc

/-- No occurrence in a string shorter than the substring. -/
theorem LastIndex_short (s t : Bytes) (h : s.length < t.length) : LastIndex s t = none := by
  induction s with
  | nil =>
    have : t ≠ [] := by
      intro e
      simp [e] at h
    simp [LastIndex, this]
  | cons c rest ih =>
    have hr : rest.length < t.length := by
      simp only [List.length_cons] at h
      omega
    have hp : t.isPrefixOf (c :: rest) = false := by
      rw [Bool.eq_false_iff]
      intro hpre
      have := (List.isPrefixOf_iff_prefix.mp hpre).length_le
      omega
    simp [LastIndex, ih hr, hp]

/-- The last occurrence of `t` in `t` is at index 0. -/
theorem LastIndex_self (t : Bytes) : LastIndex t t = some 0 := by
  cases t with
  | nil => simp [LastIndex]
  | cons c rest =>
    have hs : LastIndex rest (c :: rest) = none := LastIndex_short rest (c :: rest) (by simp)
    have hp : (c :: rest).isPrefixOf (c :: rest) = true :=
      List.isPrefixOf_iff_prefix.mpr (List.prefix_refl _)
    simp only [LastIndex, hs, hp, if_true]

/-- The last occurrence of `t` in `a ++ t` is at the end of `a`. -/
theorem LastIndex_append (a t : Bytes) : LastIndex (a ++ t) t = some a.length := by
  induction a with
  | nil => simpa using LastIndex_self t
  | cons c a ih => simp [LastIndex, ih]

/-- The first separator of a string that starts with a separator-free piece. -/
theorem IndexByte_piece (p rest : Bytes) (sep : UInt8) (hp : sep ∉ p) :
    IndexByte (p ++ sep :: rest) sep = some p.length := by
  induction p with
  | nil => simp [IndexByte]
  | cons c p ih =>
    have hc : c ≠ sep := fun e => hp (by simp [e])
    have hr : sep ∉ p := fun e => hp (by simp [e])
    simp [IndexByte, hc, ih hr]

/-! ## Lemmas: decimal numbers -/

/-- The byte of a decimal digit. -/
theorem digit_byte (d : Nat) (h : d < 10) :
    (48 ≤ UInt8.ofNat (48 + d) ∧ UInt8.ofNat (48 + d) ≤ 57) ∧
      (UInt8.ofNat (48 + d)).toNat - 48 = d := by
  have ht : (UInt8.ofNat (48 + d)).toNat = 48 + d := u8_toNat_ofNat _ (by omega)
  have h48 : (48 : UInt8).toNat = 48 := rfl
  have h57 : (57 : UInt8).toNat = 57 := rfl
  rw [u8_le, u8_le, ht, h48, h57]
  omega

/-- The function `parseDigits` over a concatenation. -/
theorem parseDigits_append (a b : Bytes) (m : Nat) :
    parseDigits (a ++ b) m = (parseDigits a m).bind (parseDigits b) := by
  induction a generalizing m with
  | nil => rfl
  | cons c a ih =>
    simp only [List.cons_append, parseDigits]
    split
    · exact ih _
    · rfl

/-- The value only grows while digits are read. -/
theorem parseDigits_ge (ds : Bytes) (m v : Nat) (h : parseDigits ds m = some v) : m ≤ v := by
  induction ds generalizing m with
  | nil =>
    simp only [parseDigits, Option.some.injEq] at h
    omega
  | cons c ds ih =>
    simp only [parseDigits] at h
    split at h
    · have := ih _ h
      omega
    · exact absurd h (by simp)

/-- The one-digit case of `itoaAux`. -/
theorem itoa_one_digit (n : Nat) (h0 : n / 10 = 0) :
    (∀ c ∈ [UInt8.ofNat (48 + n % 10)], 48 ≤ c ∧ c ≤ 57) ∧
      ∀ m, parseDigits [UInt8.ofNat (48 + n % 10)] m = some (m * 10 ^ 1 + n) := by
  have hd := digit_byte (n % 10) (Nat.mod_lt _ (by omega))
  have hn : n % 10 = n := Nat.mod_eq_of_lt (by omega)
  constructor
  · intro c hc
    simp only [List.mem_singleton] at hc
    subst hc
    exact hd.1
  · intro m
    simp only [parseDigits, hd.1, and_self, if_true, hd.2, pow_one]
    rw [hn]

/-- What `itoaAux` prepends: a non-empty string of digits whose value is `n`. -/
theorem itoaAux_spec (fuel n : Nat) (acc : Bytes) (h : n < 10 ^ (fuel + 1)) :
    ∃ ds, itoaAux (fuel + 1) n acc = ds ++ acc ∧ ds ≠ [] ∧ (∀ c ∈ ds, 48 ≤ c ∧ c ≤ 57) ∧
      ∀ m, parseDigits ds m = some (m * 10 ^ ds.length + n) := by
  induction fuel generalizing n acc with
  | zero =>
    have h0 : n / 10 = 0 := by
      simp only [zero_add, pow_one] at h
      omega
    have := itoa_one_digit n h0
    exact ⟨[UInt8.ofNat (48 + n % 10)], by simp [itoaAux, h0], by simp, this.1, this.2⟩
  | succ fuel ih =>
    by_cases h0 : n / 10 = 0
    · have := itoa_one_digit n h0
      exact ⟨[UInt8.ofNat (48 + n % 10)], by simp [itoaAux, h0], by simp, this.1, this.2⟩
    · have hd := digit_byte (n % 10) (Nat.mod_lt _ (by omega))
      have hlt : n / 10 < 10 ^ (fuel + 1) := by
        rw [Nat.div_lt_iff_lt_mul (by omega)]
        rw [pow_succ] at h
        exact h
      obtain ⟨ds, hds, hne, hdig, hval⟩ := ih (n / 10) (UInt8.ofNat (48 + n % 10) :: acc) hlt
      refine ⟨ds ++ [UInt8.ofNat (48 + n % 10)], ?_, by simp, ?_, ?_⟩
      · rw [itoaAux]
        simp only [h0, if_false]
        rw [hds]
        simp
      · intro c hc
        rcases List.mem_append.mp hc with hc | hc
        · exact hdig c hc
        · simp only [List.mem_singleton] at hc
          subst hc
          exact hd.1
      · intro m
        rw [parseDigits_append, hval m]
        simp only [Option.bind, parseDigits, hd.1, and_self, if_true, hd.2, List.length_append,
          List.length_singleton, Option.some.injEq]
        rw [pow_succ]
        have := Nat.div_add_mod n 10
        nlinarith [this]

/-- The string `Itoa n` is a non-empty string of digits whose value is `n`. -/
theorem Itoa_spec (n : Nat) :
    Itoa n ≠ [] ∧ (∀ c ∈ Itoa n, 48 ≤ c ∧ c ≤ 57) ∧
      ∀ m, parseDigits (Itoa n) m = some (m * 10 ^ (Itoa n).length + n) := by
  have hlt : n < 10 ^ (n + 1) := Nat.lt_of_lt_of_le (Nat.lt_pow_self (by omega) n)
    (Nat.pow_le_pow_right (by omega) (by omega))
  obtain ⟨ds, hds, hne, hdig, hval⟩ := itoaAux_spec n n [] hlt
  have : Itoa n = ds := by simp [Itoa, hds]
  rw [this]
  exact ⟨hne, hdig, hval⟩

/-- A digit is none of the bytes `/`, `.`, `:`, `+`, `-`. -/
theorem digit_ne (c : UInt8) (h : 48 ≤ c ∧ c ≤ 57) :
    c ≠ 47 ∧ c ≠ 46 ∧ c ≠ 58 ∧ c ≠ 43 ∧ c ≠ 45 := by
  rw [u8_le, u8_le] at h
  have h48 : (48 : UInt8).toNat = 48 := rfl
  have h57 : (57 : UInt8).toNat = 57 := rfl
  rw [h48, h57] at h
  refine ⟨?_, ?_, ?_, ?_, ?_⟩ <;>
  · intro e
    rw [e] at h
    revert h
    decide

/-! ## Lemmas: varints -/

set_option maxRecDepth 100000 in
/-- The bytes `PutUvarint` writes for a continuation and what `Uvarint` reads from them. -/
theorem continuation_byte :
    ∀ n < 256, ¬ ((UInt8.ofNat n ||| 0x80) < 0x80) ∧
      ((UInt8.ofNat n ||| 0x80) &&& 0x7f).toNat = n % 128 := by
  decide

/-- The byte of a number is the byte of its remainder modulo 256. -/
theorem u8_ofNat_mod (x : Nat) : UInt8.ofNat x = UInt8.ofNat (x % 256) := by
  rw [u8_eq]
  show (UInt8.ofNat x).toBitVec.toNat = (UInt8.ofNat (x % 256)).toBitVec.toNat
  simp [UInt8.ofNat, BitVec.toNat_ofNat]

/-- A number below a power of two joined with a multiple of that power is their sum. -/
theorem lor_shiftLeft (x d s : Nat) (h : x < 2 ^ s) : x ||| (d <<< s) = x + d * 2 ^ s := by
  rw [Nat.shiftLeft_eq, Nat.lor_comm, Nat.mul_comm d, ← Nat.mul_add_lt_is_or h]
  omega

/-- The last byte of a varint: `Uvarint` ends on it. -/
theorem UvarintLoop_last (y i x : Nat) (rest : Bytes) (hx : x < 2 ^ (7 * i))
    (hy : y < 2 ^ (64 - 7 * i)) (hy128 : y < 128) (hi : i ≤ 9) :
    UvarintLoop (UInt8.ofNat y :: rest) i x (7 * i) = (x + y * 2 ^ (7 * i), ((i + 1 : Nat) : Int)) := by
  have hb : (UInt8.ofNat y).toNat = y := u8_toNat_ofNat y (by omega)
  have hlt : UInt8.ofNat y < 0x80 := by
    rw [u8_lt, hb]
    exact hy128
  have hgt : ¬ (i > 9 ∨ (i = 9 ∧ UInt8.ofNat y > 1)) := by
    rintro (h | ⟨h9, h1⟩)
    · omega
    · subst h9
      have h2 : y < 2 := by simpa using hy
      have h1' : (1 : UInt8) < UInt8.ofNat y := h1
      rw [u8_lt, hb] at h1'
      have h3 : (1 : UInt8).toNat = 1 := rfl
      omega
  have hsum : x + y * 2 ^ (7 * i) < 2 ^ 64 := by
    have h1 : (y + 1) * 2 ^ (7 * i) ≤ 2 ^ (64 - 7 * i) * 2 ^ (7 * i) :=
      Nat.mul_le_mul_right _ hy
    have h2 : 2 ^ (64 - 7 * i) * 2 ^ (7 * i) = 2 ^ 64 := by
      rw [← pow_add]
      congr 1
      omega
    rw [h2, Nat.add_mul] at h1
    omega
  simp only [UvarintLoop, hlt, if_true, hgt, if_false,
    hb, lor_shiftLeft x y (7 * i) hx, Nat.mod_eq_of_lt hsum]
  push_cast
  rfl

/-- The function `Uvarint` reads back what `PutUvarint` wrote, whatever follows. -/
theorem UvarintLoop_PutUvarintLoop (fuel : Nat) :
    ∀ (y i x : Nat) (rest : Bytes), x < 2 ^ (7 * i) → y < 2 ^ (64 - 7 * i) →
      y < 128 ^ (fuel + 1) → i + fuel ≤ 9 →
      UvarintLoop (PutUvarintLoop fuel y ++ rest) i x (7 * i) =
        (x + y * 2 ^ (7 * i), ((i + (PutUvarintLoop fuel y).length : Nat) : Int)) := by
  induction fuel with
  | zero =>
    intro y i x rest hx hy hy2 hi
    have hy128 : y < 128 := by simpa using hy2
    simpa [PutUvarintLoop] using UvarintLoop_last y i x rest hx hy hy128 (by omega)
  | succ fuel ih =>
    intro y i x rest hx hy hy2 hi
    by_cases hge : y ≥ 0x80
    · have hcont := continuation_byte (y % 256) (Nat.mod_lt _ (by omega))
      rw [← u8_ofNat_mod] at hcont
      have hmod : y % 256 % 128 = y % 128 := by omega
      rw [hmod] at hcont
      obtain ⟨hc1, hc2⟩ := hcont
      have hpow : (2 : Nat) ^ (7 * (i + 1)) = 2 ^ (7 * i) * 128 := by
        rw [show 7 * (i + 1) = 7 * i + 7 by ring, pow_add]
        norm_num
      have hq : y % 128 * 2 ^ (7 * i) ≤ 127 * 2 ^ (7 * i) :=
        Nat.mul_le_mul_right _ (by omega)
      have hx2 : x + y % 128 * 2 ^ (7 * i) < 2 ^ (7 * (i + 1)) := by
        rw [hpow]
        omega
      have h64 : (2 : Nat) ^ (7 * (i + 1)) ≤ 2 ^ 64 := Nat.pow_le_pow_right (by omega) (by omega)
      have hy3 : y >>> 7 < 2 ^ (64 - 7 * (i + 1)) := by
        rw [Nat.shiftRight_eq_div_pow, Nat.div_lt_iff_lt_mul (by positivity)]
        have : 2 ^ (64 - 7 * (i + 1)) * 2 ^ 7 = 2 ^ (64 - 7 * i) := by
          rw [← pow_add]
          congr 1
          omega
        rw [this]
        exact hy
      have hy4 : y >>> 7 < 128 ^ (fuel + 1) := by
        rw [Nat.shiftRight_eq_div_pow, Nat.div_lt_iff_lt_mul (by positivity)]
        rw [pow_succ] at hy2
        exact hy2
      have hrec := ih (y >>> 7) (i + 1) (x + y % 128 * 2 ^ (7 * i)) rest hx2 hy3 hy4 (by omega)
      have hstep : PutUvarintLoop (fuel + 1) y =
          (UInt8.ofNat y ||| 0x80) :: PutUvarintLoop fuel (y >>> 7) := by
        simp [PutUvarintLoop, hge]
      have hval : x + y % 128 * 2 ^ (7 * i) + y >>> 7 * 2 ^ (7 * (i + 1)) = x + y * 2 ^ (7 * i) := by
        rw [hpow, Nat.shiftRight_eq_div_pow]
        have h7 : (2 : Nat) ^ 7 = 128 := by norm_num
        rw [h7]
        have hdm : 128 * (y / 128) + y % 128 = y := Nat.div_add_mod y 128
        calc x + y % 128 * 2 ^ (7 * i) + y / 128 * (2 ^ (7 * i) * 128)
            = x + (128 * (y / 128) + y % 128) * 2 ^ (7 * i) := by ring
          _ = x + y * 2 ^ (7 * i) := by rw [hdm]
      rw [hstep, List.cons_append, UvarintLoop]
      simp only [hc1, if_false, hc2, lor_shiftLeft x (y % 128) (7 * i) hx,
        Nat.mod_eq_of_lt (Nat.lt_of_lt_of_le hx2 h64)]
      rw [show 7 * i + 7 = 7 * (i + 1) by ring, hrec, hval]
      simp only [List.length_cons, Prod.mk.injEq, true_and]
      push_cast
      ring
    · have hy128 : y < 128 := by omega
      have hstep : PutUvarintLoop (fuel + 1) y = [UInt8.ofNat y] := by
        simp [PutUvarintLoop, hge]
      rw [hstep]
      simpa using UvarintLoop_last y i x rest hx hy hy128 (by omega)

/-- A varint has at least one byte. -/
theorem PutUvarintLoop_length (fuel y : Nat) : 1 ≤ (PutUvarintLoop fuel y).length := by
  cases fuel with
  | zero => simp [PutUvarintLoop]
  | succ fuel =>
    unfold PutUvarintLoop
    split <;> simp

/-- The function `ReadVarintCode` reads back what `CodeToVarint` wrote for a number that
a Go `int` holds, whatever follows. -/
theorem ReadVarintCode_CodeToVarint (x : Nat) (rest : Bytes) (hx : x < 2 ^ 63) :
    ReadVarintCode (CodeToVarint x ++ rest) = .ok ((x : Int), (CodeToVarint x).length) ∧
      1 ≤ (CodeToVarint x).length := by
  have h64 : x % 2 ^ 64 = x := Nat.mod_eq_of_lt (by omega)
  have hloop := UvarintLoop_PutUvarintLoop 9 x 0 0 rest (by simp) (by simpa using (by omega : x < 2 ^ 64))
    (by
      have : (2 : Nat) ^ 63 ≤ 128 ^ (9 + 1) := by norm_num
      omega) (by omega)
  simp only [Nat.mul_zero, pow_zero, Nat.mul_one, Nat.zero_add] at hloop
  refine ⟨?_, PutUvarintLoop_length _ _⟩
  simp only [ReadVarintCode, CodeToVarint, PutUvarint, h64, Uvarint, hloop]
  have hneg : ¬ (((PutUvarintLoop 9 x).length : Nat) : Int) < 0 := by omega
  have hx2 : x < 9223372036854775808 := by simpa using hx
  simp [hneg, hx2]

/-! ## Lemmas: IPv4 text -/

set_option maxRecDepth 100000 in
/-- The decimal digits of an octet. -/
theorem Itoa_octet :
    ∀ n < 256,
      (n < 10 ∧ Itoa n = [UInt8.ofNat (48 + n)]) ∨
      (10 ≤ n ∧ n < 100 ∧ Itoa n = [UInt8.ofNat (48 + n / 10), UInt8.ofNat (48 + n % 10)]) ∨
      (100 ≤ n ∧ Itoa n =
        [UInt8.ofNat (48 + n / 100), UInt8.ofNat (48 + n / 10 % 10), UInt8.ofNat (48 + n % 10)]) := by
  decide

/-- One digit read by `parseIPv4Fields`. -/
theorem parseIPv4Fields_digit (d : Nat) (rest : Bytes) (start : Bool) (val digLen : Nat)
    (fields : Bytes) (hd : d < 10) (hzero : ¬ (digLen = 1 ∧ val = 0)) (hval : val * 10 + d ≤ 255) :
    parseIPv4Fields (UInt8.ofNat (48 + d) :: rest) start val digLen fields =
      parseIPv4Fields rest false (val * 10 + d) (digLen + 1) fields := by
  obtain ⟨hr, hv⟩ := digit_byte d hd
  have hnot : ¬ (val * 10 + d > 255) := by omega
  simp only [parseIPv4Fields, hr, and_self, if_true, hzero, if_false, hv, hnot]

/-- The octet `Itoa n` read by `parseIPv4Fields`. -/
theorem parseIPv4Fields_octet (n : Nat) (rest : Bytes) (start : Bool) (fields : Bytes)
    (hn : n < 256) :
    ∃ k, parseIPv4Fields (Itoa n ++ rest) start 0 0 fields = parseIPv4Fields rest false n k fields := by
  rcases Itoa_octet n hn with ⟨h1, hs⟩ | ⟨h1, h2, hs⟩ | ⟨h1, hs⟩
  · refine ⟨1, ?_⟩
    rw [hs, List.singleton_append, parseIPv4Fields_digit n rest start 0 0 fields h1 (by omega)
      (by omega)]
    simp
  · refine ⟨2, ?_⟩
    rw [hs]
    simp only [List.cons_append, List.nil_append]
    rw [parseIPv4Fields_digit (n / 10) _ start 0 0 fields (by omega) (by omega) (by omega),
      parseIPv4Fields_digit (n % 10) _ false _ _ fields (by omega) (by omega) (by omega)]
    have : (0 * 10 + n / 10) * 10 + n % 10 = n := by omega
    rw [this]
  · refine ⟨3, ?_⟩
    rw [hs]
    simp only [List.cons_append, List.nil_append]
    rw [parseIPv4Fields_digit (n / 100) _ start 0 0 fields (by omega) (by omega) (by omega),
      parseIPv4Fields_digit (n / 10 % 10) _ false _ _ fields (by omega) (by omega) (by omega),
      parseIPv4Fields_digit (n % 10) _ false _ _ fields (by omega) (by omega) (by omega)]
    have : ((0 * 10 + n / 100) * 10 + n / 10 % 10) * 10 + n % 10 = n := by omega
    rw [this]

/-- The dot is not a digit. -/
theorem dot_not_digit : ¬ (48 ≤ (46 : UInt8) ∧ (46 : UInt8) ≤ 57) := by decide

/-- A dot read by `parseIPv4Fields` after an octet. -/
theorem parseIPv4Fields_dot (rest : Bytes) (val digLen : Nat) (fields : Bytes)
    (hrest : rest ≠ []) (hlen : fields.length ≠ 3) :
    parseIPv4Fields (46 :: rest) false val digLen fields =
      parseIPv4Fields rest true 0 0 (fields ++ [UInt8.ofNat val]) := by
  simp [parseIPv4Fields, dot_not_digit, hrest, hlen]

/-- The dotted quad, octet by octet. -/
theorem string4_eq (a b c d : UInt8) :
    string4 [a, b, c, d] =
      Itoa a.toNat ++ 46 :: (Itoa b.toNat ++ 46 :: (Itoa c.toNat ++ 46 :: Itoa d.toNat)) := by
  simp [string4]

/-- The function `parseIPv4` reads back the dotted quad of four bytes. -/
theorem parseIPv4_string4 (a b c d : UInt8) : parseIPv4 (string4 [a, b, c, d]) = some [a, b, c, d] := by
  have ha := UInt8.toNat_lt a
  have hb := UInt8.toNat_lt b
  have hc := UInt8.toNat_lt c
  have hd := UInt8.toNat_lt d
  have hne : ∀ (n : Nat) (r : Bytes), Itoa n ++ r ≠ [] := by
    intro n r h
    exact (Itoa_spec n).1 (List.append_eq_nil.mp h).1
  rw [string4_eq, parseIPv4]
  obtain ⟨k1, h1⟩ := parseIPv4Fields_octet a.toNat
    (46 :: (Itoa b.toNat ++ 46 :: (Itoa c.toNat ++ 46 :: Itoa d.toNat))) true [] ha
  rw [h1, parseIPv4Fields_dot _ _ _ _ (hne _ _) (by simp)]
  obtain ⟨k2, h2⟩ := parseIPv4Fields_octet b.toNat
    (46 :: (Itoa c.toNat ++ 46 :: Itoa d.toNat)) true ([] ++ [UInt8.ofNat a.toNat]) hb
  rw [h2, parseIPv4Fields_dot _ _ _ _ (hne _ _) (by simp)]
  obtain ⟨k3, h3⟩ := parseIPv4Fields_octet c.toNat
    (46 :: Itoa d.toNat) true ([] ++ [UInt8.ofNat a.toNat] ++ [UInt8.ofNat b.toNat]) hc
  rw [h3, parseIPv4Fields_dot _ _ _ _ (Itoa_spec _).1 (by simp)]
  obtain ⟨k4, h4⟩ := parseIPv4Fields_octet d.toNat [] true
    ([] ++ [UInt8.ofNat a.toNat] ++ [UInt8.ofNat b.toNat] ++ [UInt8.ofNat c.toNat]) hd
  rw [List.append_nil] at h4
  rw [h4]
  simp [parseIPv4Fields, u8_ofNat_toNat]

/-- The first of the bytes `.`, `:` and `%` in a text that starts with digits and a dot. -/
theorem find_dot (ds rest : Bytes) (h : ∀ c ∈ ds, 48 ≤ c ∧ c ≤ 57) :
    (ds ++ 46 :: rest).find? (fun c => c = 46 ∨ c = 58 ∨ c = 37) = some 46 := by
  induction ds with
  | nil => simp
  | cons c ds ih =>
    have hc := digit_ne c (h c (by simp))
    have h37 : c ≠ 37 := by
      intro e
      have := h c (by simp)
      rw [e] at this
      revert this
      decide
    have ih := ih (fun x hx => h x (by simp [hx]))
    rw [List.cons_append, List.find?_cons]
    have hp : decide (c = 46 ∨ c = 58 ∨ c = 37) = false := by simp [hc.2.1, hc.2.2.1, h37]
    rw [hp]
    exact ih

/-- The text of a dotted quad: not empty, without `/`, neither `:` nor `%` before the
first dot. -/
theorem string4_text (a b c d : UInt8) :
    string4 [a, b, c, d] ≠ [] ∧ 47 ∉ string4 [a, b, c, d] ∧
      (string4 [a, b, c, d]).find? (fun c => c = 46 ∨ c = 58 ∨ c = 37) = some 46 := by
  have hs : ∀ n, 47 ∉ Itoa n := fun n hx => (digit_ne 47 ((Itoa_spec n).2.1 47 hx)).1 rfl
  refine ⟨?_, ?_, ?_⟩
  · simp [string4, (Itoa_spec a.toNat).1]
  · simp [string4, hs]
  · rw [string4_eq]
    exact find_dot _ _ (Itoa_spec _).2.1

/-- The function `net.ParseIP` reads the dotted quad of four bytes as their 16-byte form. -/
theorem ParseIP_string4 (a b c d : UInt8) :
    ParseIP (string4 [a, b, c, d]) = some (v4InV6 [a, b, c, d]) := by
  unfold ParseIP
  rw [(string4_text a b c d).2.2, parseIPv4_string4]
  rfl

/-- The method `To4` gives back the four bytes of a 16-byte form. -/
theorem To4_v4InV6 (a b c d : UInt8) : To4 (v4InV6 [a, b, c, d]) = some [a, b, c, d] := by
  simp [To4, v4InV6, List.replicate]

/-- Round trip of the `ip4` transcoder on four bytes. -/
theorem ip4_roundtrip (a b c d : UInt8) :
    ∃ v, Transcoder.BytesToString .TranscoderIP4 [a, b, c, d] = .ok v ∧ v ≠ [] ∧ 47 ∉ v ∧
      Transcoder.StringToBytes .TranscoderIP4 v = .ok [a, b, c, d] := by
  have ht := string4_text a b c d
  have hs : IPString [a, b, c, d] = string4 [a, b, c, d] := by
    simp [IPString, To4]
  refine ⟨string4 [a, b, c, d], by simp [Transcoder.BytesToString, hs], ht.1, ht.2.1, ?_⟩
  simp [Transcoder.StringToBytes, ParseIP_string4, To4_v4InV6]

/-- The function `Atoi` reads back what `Itoa` prints. -/
theorem Atoi_Itoa (n : Nat) (h : n < 2 ^ 63) : Atoi (Itoa n) = .ok (n : Int) := by
  obtain ⟨hne, hdig, hval⟩ := Itoa_spec n
  obtain ⟨c, tl, hs⟩ : ∃ c tl, Itoa n = c :: tl := by
    cases hi : Itoa n with
    | nil => exact absurd hi hne
    | cons c tl => exact ⟨c, tl, rfl⟩
  have hc := digit_ne c (hdig c (by simp [hs]))
  have hv := hval 0
  rw [hs] at hv
  simp only [zero_mul, zero_add] at hv
  have hbody : stripSign (c :: tl) = c :: tl := by
    unfold stripSign
    split
    · rename_i r heq
      simp only [List.cons.injEq] at heq
      exact absurd heq.1 hc.2.2.2.1
    · rename_i r heq
      simp only [List.cons.injEq] at heq
      exact absurd heq.1 hc.2.2.2.2
    · rfl
  have hr : ¬ ((n : Int) < - (2 : Int) ^ 63 ∨ (2 : Int) ^ 63 ≤ (n : Int)) := by
    have : ((2 ^ 63 : Nat) : Int) = (2 : Int) ^ 63 := by norm_num
    omega
  rw [hs]
  simp only [Atoi, hbody, hv, List.head?_cons, Option.some.injEq, hc.2.2.2.2, if_false, hr]

/-- Round trip of the port transcoder on two bytes. -/
theorem port_roundtrip (hi lo : UInt8) :
    ∃ v, Transcoder.BytesToString .TranscoderPort [hi, lo] = .ok v ∧ v ≠ [] ∧ 47 ∉ v ∧
      Transcoder.StringToBytes .TranscoderPort v = .ok [hi, lo] := by
  have hhi := UInt8.toNat_lt hi
  have hlo := UInt8.toNat_lt lo
  refine ⟨_, rfl, (Itoa_spec _).1, ?_, ?_⟩
  · exact fun hx => (digit_ne 47 ((Itoa_spec _).2.1 47 hx)).1 rfl
  · have hn : hi.toNat * 256 + lo.toNat < 65536 := by omega
    have hA := Atoi_Itoa (hi.toNat * 256 + lo.toNat) (by omega)
    have h1 : ¬ (((hi.toNat * 256 + lo.toNat : Nat) : Int) ≥ 65536) := by omega
    have h2 : (((hi.toNat * 256 + lo.toNat : Nat) : Int) % 65536).toNat
        = hi.toNat * 256 + lo.toNat := by omega
    simp only [Transcoder.StringToBytes, hA, h1, if_false, h2, beBytes]
    have e1 : (hi.toNat * 256 + lo.toNat) / 256 ^ 1 % 256 = hi.toNat := by omega
    have e2 : (hi.toNat * 256 + lo.toNat) / 256 ^ 0 % 256 = lo.toNat := by omega
    rw [e1, e2, u8_ofNat_toNat, u8_ofNat_toNat]

/-! ## Lemmas: base58 -/

/-- The function `toDigitsBE` lists the digits of `Nat.digits`, most significant first. -/
theorem toDigitsBE_eq (b fuel n : Nat) (acc : List Nat) (hb : 1 < b) (h : n < b ^ fuel) :
    toDigitsBE b fuel n acc = (Nat.digits b n).reverse ++ acc := by
  induction fuel generalizing n acc with
  | zero =>
    simp only [pow_zero, Nat.lt_one_iff] at h
    subst h
    simp [toDigitsBE]
  | succ fuel ih =>
    by_cases h0 : n = 0
    · subst h0
      simp [toDigitsBE]
    · have hlt : n / b < b ^ fuel := by
        rw [Nat.div_lt_iff_lt_mul (by omega)]
        rw [pow_succ] at h
        exact h
      have hd : Nat.digits b n = n % b :: Nat.digits b (n / b) :=
        Nat.digits_def' hb (Nat.pos_of_ne_zero h0)
      rw [toDigitsBE, if_neg h0, ih _ _ hlt, hd]
      simp

/-- The function `ofDigitsBE` is `Nat.ofDigits` on the reversed list. -/
theorem ofDigitsBE_eq (b : Nat) (ds : List Nat) (n : Nat) :
    ofDigitsBE b ds n = n * b ^ ds.length + Nat.ofDigits b ds.reverse := by
  induction ds generalizing n with
  | nil => simp [ofDigitsBE]
  | cons d ds ih =>
    rw [ofDigitsBE, ih, List.reverse_cons, Nat.ofDigits_append, Nat.ofDigits_singleton,
      List.length_reverse, List.length_cons, pow_succ]
    ring

/-- Zero digits at the most significant end do not change the number. -/
theorem ofDigits_append_zeros (b z : Nat) (l : List Nat) :
    Nat.ofDigits b (l ++ List.replicate z 0) = Nat.ofDigits b l := by
  rw [Nat.ofDigits_append]
  have : Nat.ofDigits b (List.replicate z 0) = 0 := by
    induction z with
    | zero => rfl
    | succ z ih => simp [List.replicate_succ, Nat.ofDigits_cons, ih]
  rw [this]
  simp

/-- A byte sequence is a run of zero bytes followed by a sequence that is
empty or starts with another byte. -/
theorem split_zeros (P : Bytes) :
    ∃ z P1, P = List.replicate z 0 ++ P1 ∧ (P.takeWhile (· = 0)).length = z ∧
      (P1 = [] ∨ ∃ c r, P1 = c :: r ∧ c ≠ 0) := by
  induction P with
  | nil => exact ⟨0, [], rfl, rfl, Or.inl rfl⟩
  | cons c P ih =>
    by_cases hc : c = 0
    · obtain ⟨z, P1, hP, hz, h1⟩ := ih
      refine ⟨z + 1, P1, ?_, ?_, h1⟩
      · rw [hc, List.replicate_succ, List.cons_append, ← hP]
      · simp [List.takeWhile_cons, hc, hz]
    · exact ⟨0, c :: P, rfl, by simp [List.takeWhile_cons, hc], Or.inr ⟨c, P, rfl, hc⟩⟩

/-- The run of `1`s at the start of an encoded string. -/
theorem takeWhile_ones (z : Nat) (T : Bytes) (h : T = [] ∨ ∃ c r, T = c :: r ∧ c ≠ 49) :
    ((List.replicate z 49 ++ T).takeWhile (· = 49)).length = z := by
  induction z with
  | zero =>
    rcases h with rfl | ⟨c, r, rfl, hc⟩
    · rfl
    · simp [List.takeWhile_cons, hc]
  | succ z ih =>
    rw [List.replicate_succ, List.cons_append, List.takeWhile_cons_of_pos (by simp),
      List.length_cons, ih]

/-- The alphabet: the byte of the digit `d` has index `d`, is `1` only for
`d = 0`, and is never `/`. -/
theorem b58Alphabet_digit :
    ∀ d, d < 58 → b58Digit (b58Alphabet.getD d 0) = some d ∧
      (b58Alphabet.getD d 0 = 49 → d = 0) ∧ b58Alphabet.getD d 0 ≠ 47 := by
  decide

/-- The digits of a string, byte by byte. -/
theorem b58Digits_cons_some (c : UInt8) (rest : Bytes) (d : Nat) (ds : List Nat)
    (h1 : b58Digit c = some d) (h2 : b58Digits rest = some ds) :
    b58Digits (c :: rest) = some (d :: ds) := by
  simp [b58Digits, h1, h2]

/-- The digits of a run of `1`s followed by alphabet bytes. -/
theorem b58Digits_encode (z : Nat) (ds : List Nat) (h : ∀ d ∈ ds, d < 58) :
    b58Digits (List.replicate z 49 ++ ds.map (fun d => b58Alphabet.getD d 0)) =
      some (List.replicate z 0 ++ ds) := by
  induction z with
  | zero =>
    induction ds with
    | nil => rfl
    | cons d ds ih =>
      have ih := ih (fun x hx => h x (by simp [hx]))
      simp only [List.replicate_zero, List.nil_append] at ih ⊢
      rw [List.map_cons]
      exact b58Digits_cons_some _ _ _ _ (b58Alphabet_digit d (h d (by simp))).1 ih
  | succ z ih =>
    have h1 : b58Digit 49 = some 0 := by decide
    rw [List.replicate_succ, List.cons_append, List.replicate_succ, List.cons_append]
    exact b58Digits_cons_some _ _ _ _ h1 ih

/-- The value of a byte sequence does not depend on its leading zero bytes,
and its base-256 digits are the bytes after them. -/
theorem bytes_value (z : Nat) (P1 : Bytes) (h1 : P1 = [] ∨ ∃ c r, P1 = c :: r ∧ c ≠ 0) :
    ofDigitsBE 256 ((List.replicate z 0 ++ P1).map UInt8.toNat) 0 =
        Nat.ofDigits 256 (P1.map UInt8.toNat).reverse ∧
      Nat.digits 256 (Nat.ofDigits 256 (P1.map UInt8.toNat).reverse) =
        (P1.map UInt8.toNat).reverse := by
  constructor
  · have hz : (List.replicate z (0 : UInt8)).map UInt8.toNat = List.replicate z 0 := by
      simp [List.map_replicate]
    rw [ofDigitsBE_eq, List.map_append, List.reverse_append, hz, List.reverse_replicate,
      ofDigits_append_zeros]
    simp
  · apply Nat.digits_ofDigits 256 (by omega)
    · intro l hl
      simp only [List.mem_reverse, List.mem_map] at hl
      obtain ⟨c, _, rfl⟩ := hl
      exact UInt8.toNat_lt c
    · intro hne
      rcases h1 with rfl | ⟨c, r, rfl, hc⟩
      · exact absurd rfl hne
      · simp only [List.map_cons, List.reverse_cons, List.getLast_append_singleton]
        intro h0
        exact hc (UInt8.ext h0)

/-- The value of a byte sequence is below `256 ^ length`. -/
theorem bytes_value_lt (P : Bytes) :
    Nat.ofDigits 256 (P.map UInt8.toNat).reverse < 256 ^ P.length := by
  have := Nat.ofDigits_lt_base_pow_length (b := 256) (l := (P.map UInt8.toNat).reverse)
    (by omega) (by
      intro l hl
      simp only [List.mem_reverse, List.mem_map] at hl
      obtain ⟨c, _, rfl⟩ := hl
      exact UInt8.toNat_lt c)
  simpa using this

/-- The shape of `b58Encode`: the `1`s of the leading zero bytes, then the
alphabet bytes of the base-58 digits of the value. -/
theorem b58Encode_eq (z : Nat) (P1 : Bytes) (h1 : P1 = [] ∨ ∃ c r, P1 = c :: r ∧ c ≠ 0) :
    b58Encode (List.replicate z 0 ++ P1) =
      List.replicate z 49 ++
        ((Nat.digits 58 (Nat.ofDigits 256 (P1.map UInt8.toNat).reverse)).reverse).map
          (fun d => b58Alphabet.getD d 0) := by
  have hz : ((List.replicate z (0 : UInt8) ++ P1).takeWhile (· = 0)).length = z := by
    induction z with
    | zero =>
      rcases h1 with rfl | ⟨c, r, rfl, hc⟩
      · rfl
      · simp [List.takeWhile_cons, hc]
    | succ z ih =>
      rw [List.replicate_succ, List.cons_append, List.takeWhile_cons_of_pos (by simp),
        List.length_cons, ih]
  have hv := (bytes_value z P1 h1).1
  have hlt : Nat.ofDigits 256 (P1.map UInt8.toNat).reverse
      < 58 ^ (2 * (List.replicate z (0 : UInt8) ++ P1).length) := by
    have h256 := bytes_value_lt P1
    have hle : 256 ^ P1.length ≤ 58 ^ (2 * (List.replicate z (0 : UInt8) ++ P1).length) := by
      rw [pow_mul]
      calc 256 ^ P1.length ≤ (58 ^ 2) ^ P1.length := Nat.pow_le_pow_left (by norm_num) _
        _ ≤ (58 ^ 2) ^ (List.replicate z (0 : UInt8) ++ P1).length :=
          Nat.pow_le_pow_right (by norm_num) (by simp)
    omega
  unfold b58Encode
  simp only [hz, hv]
  rw [toDigitsBE_eq 58 _ _ [] (by omega) hlt]
  simp

/-- The function `b58.Decode` inverts `b58.Encode` on a non-empty byte sequence; the encoded
string is not empty and holds no `/`. -/
theorem b58Decode_encode (P : Bytes) (hP : P ≠ []) :
    b58Decode (b58Encode P) = .ok P ∧ b58Encode P ≠ [] ∧ 47 ∉ b58Encode P := by
  obtain ⟨z, P1, hPeq, _, h1⟩ := split_zeros P
  subst hPeq
  rw [b58Encode_eq z P1 h1]
  obtain ⟨_, hdig⟩ := bytes_value z P1 h1
  generalize hx : Nat.ofDigits 256 (P1.map UInt8.toNat).reverse = x at hdig ⊢
  have hlt58 : ∀ d ∈ (Nat.digits 58 x).reverse, d < 58 := fun d hd =>
    Nat.digits_lt_base (by omega) (List.mem_reverse.mp hd)
  -- the first base-58 digit is not zero
  have hhead : (Nat.digits 58 x).reverse.map (fun d => b58Alphabet.getD d 0) = [] ∨
      ∃ c r, (Nat.digits 58 x).reverse.map (fun d => b58Alphabet.getD d 0) = c :: r ∧ c ≠ 49 := by
    cases hD : (Nat.digits 58 x).reverse with
    | nil => exact Or.inl rfl
    | cons d0 r =>
      refine Or.inr ⟨_, _, rfl, ?_⟩
      have hd0 : d0 < 58 := hlt58 d0 (by simp [hD])
      intro h49
      have hz0 := (b58Alphabet_digit d0 hd0).2.1 h49
      have hx0 : x ≠ 0 := by
        intro h0
        rw [h0] at hD
        simp at hD
      have hlast := Nat.getLast_digit_ne_zero 58 hx0
      have hrev : Nat.digits 58 x = r.reverse ++ [d0] := by
        have := congrArg List.reverse hD
        simpa using this
      simp only [hrev, List.getLast_append_singleton] at hlast
      exact hlast hz0
  -- the encoded string is not empty
  have hne : List.replicate z 49 ++
      (Nat.digits 58 x).reverse.map (fun d => b58Alphabet.getD d 0) ≠ [] := by
    intro hnil
    simp only [List.append_eq_nil, List.replicate_eq_nil_iff, List.map_eq_nil_iff,
      List.reverse_eq_nil_iff] at hnil
    obtain ⟨hz0, hd0⟩ := hnil
    have hx0 : x = 0 := by
      have := Nat.ofDigits_digits 58 x
      rw [hd0] at this
      simpa using this.symm
    rw [hx0] at hdig
    have hP1 : P1 = [] := by simpa using hdig.symm
    exact hP (by simp [hz0, hP1])
  refine ⟨?_, hne, ?_⟩
  · have hval : ofDigitsBE 58 (List.replicate z 0 ++ (Nat.digits 58 x).reverse) 0 = x := by
      rw [ofDigitsBE_eq, List.reverse_append, List.reverse_reverse, List.reverse_replicate,
        ofDigits_append_zeros, Nat.ofDigits_digits]
      simp
    have hfuel : x < 256 ^ (List.replicate z (49 : UInt8) ++
        (Nat.digits 58 x).reverse.map (fun d => b58Alphabet.getD d 0)).length := by
      have h58 : x < 58 ^ (Nat.digits 58 x).length := Nat.lt_base_pow_length_digits (by omega)
      have hle : 58 ^ (Nat.digits 58 x).length ≤ 256 ^ (List.replicate z (49 : UInt8) ++
          (Nat.digits 58 x).reverse.map (fun d => b58Alphabet.getD d 0)).length := by
        calc 58 ^ (Nat.digits 58 x).length ≤ 256 ^ (Nat.digits 58 x).length :=
              Nat.pow_le_pow_left (by norm_num) _
          _ ≤ _ := Nat.pow_le_pow_right (by norm_num) (by simp)
      omega
    unfold b58Decode
    rw [if_neg hne, b58Digits_encode z _ hlt58]
    simp only [takeWhile_ones z _ hhead, hval]
    rw [toDigitsBE_eq 256 _ _ [] (by omega) hfuel, hdig]
    simp [List.map_map, Function.comp_def, u8_ofNat_toNat]
  · intro h47
    rcases List.mem_append.mp h47 with h | h
    · have := List.eq_of_mem_replicate h
      revert this
      decide
    · simp only [List.mem_map, List.mem_reverse] at h
      obtain ⟨d, hd, hd47⟩ := h
      exact (b58Alphabet_digit d (Nat.digits_lt_base (by omega) hd)).2.2 hd47

/-- A well-formed multihash is not empty and `Cast` returns it unchanged. -/
theorem Cast_ok (b m : Bytes) (h : Cast b = .ok m) : m = b ∧ b ≠ [] := by
  unfold Cast at h
  split at h
  · exact absurd h (by simp)
  · rename_i hlen
    have hb : b ≠ [] := by
      intro e
      simp [e] at hlen
    split at h
    · exact absurd h (by simp)
    · split at h
      · exact absurd h (by simp)
      · split at h
        · exact absurd h (by simp)
        · split at h
          · exact absurd h (by simp)
          · split at h
            · exact absurd h (by simp)
            · simp only [Except.ok.injEq] at h
              exact ⟨h.symm, hb⟩

/-- The function `mh.FromB58String` inverts `b58.Encode` on a well-formed multihash. -/
theorem FromB58String_encode (P : Bytes) (hP : Cast P = .ok P) :
    FromB58String (b58Encode P) = .ok P := by
  have hne := (Cast_ok P P hP).2
  simp [FromB58String, (b58Decode_encode P hne).1, hP]

/-- Round trip of the peer-identity transcoder on a well-formed multihash. -/
theorem p2p_roundtrip (P : Bytes) (hP : Cast P = .ok P) :
    ∃ v, Transcoder.BytesToString .TranscoderP2P P = .ok v ∧ v ≠ [] ∧ 47 ∉ v ∧
      Transcoder.StringToBytes .TranscoderP2P v = .ok P := by
  have hne := (Cast_ok P P hP).2
  obtain ⟨_, h2, h3⟩ := b58Decode_encode P hne
  exact ⟨b58Encode P, by simp [Transcoder.BytesToString, hP], h2, h3,
    by simp [Transcoder.StringToBytes, FromB58String_encode P hP]⟩

/-! ## Lemmas: IPv6 text -/

/-- The hexadecimal digits: `hexVal` reads them back, and none is a separator. -/
theorem hextable_digit :
    ∀ d < 16, hexVal (hextable.getD d 0) = some d ∧ hextable.getD d 0 ≠ 58 ∧
      hextable.getD d 0 ≠ 46 ∧ hextable.getD d 0 ≠ 47 ∧ hextable.getD d 0 ≠ 37 := by
  decide

/-- One hexadecimal digit read by `hexGroup`. -/
theorem hexGroup_digit (d : Nat) (rest : Bytes) (off acc : Nat) (hd : d < 16) (hoff : off ≤ 3)
    (hacc : acc * 16 + d ≤ 0xFFFF) :
    hexGroup (hextable.getD d 0 :: rest) off acc = hexGroup rest (off + 1) (acc * 16 + d) := by
  have h1 : ¬ off > 3 := by omega
  have h2 : ¬ (acc <<< 4) + d > 0xFFFF := by omega
  have h3 : (acc <<< 4) + d = acc * 16 + d := by omega
  have h4 : ¬ acc * 16 + d > 0xFFFF := by omega
  simp only [hexGroup, (hextable_digit d hd).1, h1, h2, if_false, h3, h4]

/-- The end of a group: `hexGroup` stops at the end of the text and at a byte that is
no hexadecimal digit. -/
theorem hexGroup_end (rest : Bytes) (off acc : Nat)
    (hrest : rest = [] ∨ ∃ c r, rest = c :: r ∧ hexVal c = none) :
    hexGroup rest off acc = some (acc, off) := by
  rcases hrest with rfl | ⟨c, r, rfl, hc⟩
  · rfl
  · simp [hexGroup, hc]

/-- The digits of a masked shift. -/
theorem and_15 (x : Nat) : x &&& 0xf = x % 16 := Nat.and_pow_two_sub_one_eq_mod x 4

/-- The digits `appendHex` prints, by the size of the number. -/
theorem appendHex_cases (x : Nat) :
    (x ≥ 0x1000 ∧ appendHex x =
      [hextable.getD (x >>> 12) 0, hextable.getD ((x >>> 8) % 16) 0,
       hextable.getD ((x >>> 4) % 16) 0, hextable.getD (x % 16) 0]) ∨
    (x < 0x1000 ∧ x ≥ 0x100 ∧ appendHex x =
      [hextable.getD ((x >>> 8) % 16) 0, hextable.getD ((x >>> 4) % 16) 0,
       hextable.getD (x % 16) 0]) ∨
    (x < 0x100 ∧ x ≥ 0x10 ∧ appendHex x =
      [hextable.getD ((x >>> 4) % 16) 0, hextable.getD (x % 16) 0]) ∨
    (x < 0x10 ∧ appendHex x = [hextable.getD (x % 16) 0]) := by
  by_cases h1 : x ≥ 0x1000
  · have h2 : x ≥ 0x100 := by omega
    have h3 : x ≥ 0x10 := by omega
    refine Or.inl ⟨h1, ?_⟩
    unfold appendHex
    rw [if_pos h1, if_pos h2, if_pos h3]
    simp only [and_15]
    rfl
  · by_cases h2 : x ≥ 0x100
    · have h3 : x ≥ 0x10 := by omega
      refine Or.inr (Or.inl ⟨by omega, h2, ?_⟩)
      unfold appendHex
      rw [if_neg h1, if_pos h2, if_pos h3]
      simp only [and_15]
      rfl
    · by_cases h3 : x ≥ 0x10
      · refine Or.inr (Or.inr (Or.inl ⟨by omega, h3, ?_⟩))
        unfold appendHex
        rw [if_neg h1, if_neg h2, if_pos h3]
        simp only [and_15]
        rfl
      · refine Or.inr (Or.inr (Or.inr ⟨by omega, ?_⟩))
        unfold appendHex
        rw [if_neg h1, if_neg h2, if_neg h3]
        simp only [and_15]
        rfl

/-- The function `hexGroup` reads back what `appendHex` printed for a 16-bit number. -/
theorem hexGroup_appendHex (x : Nat) (rest : Bytes) (hx : x < 65536)
    (hrest : rest = [] ∨ ∃ c r, rest = c :: r ∧ hexVal c = none) :
    ∃ k, 1 ≤ k ∧ hexGroup (appendHex x ++ rest) 0 0 = some (x, k) ∧
      (appendHex x ++ rest).drop k = rest := by
  have hend := fun off acc => hexGroup_end rest off acc hrest
  rcases appendHex_cases x with ⟨h1, hs⟩ | ⟨h0, h1, hs⟩ | ⟨h0, h1, hs⟩ | ⟨h0, hs⟩
  · refine ⟨4, by omega, ?_, by rw [hs]; rfl⟩
    rw [hs]
    simp only [List.cons_append, List.nil_append]
    rw [hexGroup_digit _ _ _ _ (by omega) (by omega) (by omega),
      hexGroup_digit _ _ _ _ (Nat.mod_lt _ (by omega)) (by omega) (by omega),
      hexGroup_digit _ _ _ _ (Nat.mod_lt _ (by omega)) (by omega) (by omega),
      hexGroup_digit _ _ _ _ (Nat.mod_lt _ (by omega)) (by omega) (by omega), hend]
    congr 2
    omega
  · refine ⟨3, by omega, ?_, by rw [hs]; rfl⟩
    rw [hs]
    simp only [List.cons_append, List.nil_append]
    rw [hexGroup_digit _ _ _ _ (Nat.mod_lt _ (by omega)) (by omega) (by omega),
      hexGroup_digit _ _ _ _ (Nat.mod_lt _ (by omega)) (by omega) (by omega),
      hexGroup_digit _ _ _ _ (Nat.mod_lt _ (by omega)) (by omega) (by omega), hend]
    congr 2
    omega
  · refine ⟨2, by omega, ?_, by rw [hs]; rfl⟩
    rw [hs]
    simp only [List.cons_append, List.nil_append]
    rw [hexGroup_digit _ _ _ _ (Nat.mod_lt _ (by omega)) (by omega) (by omega),
      hexGroup_digit _ _ _ _ (Nat.mod_lt _ (by omega)) (by omega) (by omega), hend]
    congr 2
    omega
  · refine ⟨1, by omega, ?_, by rw [hs]; rfl⟩
    rw [hs]
    simp only [List.cons_append, List.nil_append]
    rw [hexGroup_digit _ _ _ _ (Nat.mod_lt _ (by omega)) (by omega) (by omega), hend]
    congr 2
    omega

/-- The first byte of `appendHex` is a hexadecimal digit. -/
theorem appendHex_head (x : Nat) (hx : x < 65536) :
    ∃ c r, appendHex x = c :: r ∧ c ≠ 58 ∧ hexVal c ≠ none := by
  rcases appendHex_cases x with ⟨h1, hs⟩ | ⟨h0, h1, hs⟩ | ⟨h0, h1, hs⟩ | ⟨h0, hs⟩
  · have d := hextable_digit (x >>> 12) (by omega)
    exact ⟨_, _, hs, d.2.1, by rw [d.1]; simp⟩
  · have d := hextable_digit ((x >>> 8) % 16) (Nat.mod_lt _ (by omega))
    exact ⟨_, _, hs, d.2.1, by rw [d.1]; simp⟩
  · have d := hextable_digit ((x >>> 4) % 16) (Nat.mod_lt _ (by omega))
    exact ⟨_, _, hs, d.2.1, by rw [d.1]; simp⟩
  · have d := hextable_digit (x % 16) (Nat.mod_lt _ (by omega))
    exact ⟨_, _, hs, d.2.1, by rw [d.1]; simp⟩

/-- The bytes of `appendHex` are hexadecimal digits: none of `.`, `/`, `%`, `:`. -/
theorem appendHex_bytes (x : Nat) (hx : x < 65536) :
    ∀ c ∈ appendHex x, c ≠ 58 ∧ c ≠ 46 ∧ c ≠ 47 ∧ c ≠ 37 := by
  intro c hc
  have d0 := hextable_digit (x % 16) (Nat.mod_lt _ (by omega))
  have d1 := hextable_digit ((x >>> 4) % 16) (Nat.mod_lt _ (by omega))
  have d2 := hextable_digit ((x >>> 8) % 16) (Nat.mod_lt _ (by omega))
  have d3 := hextable_digit (x >>> 12) (by omega)
  rcases appendHex_cases x with ⟨h1, hs⟩ | ⟨h0, h1, hs⟩ | ⟨h0, h1, hs⟩ | ⟨h0, hs⟩ <;>
  · rw [hs] at hc
    simp only [List.mem_cons, List.mem_singleton, List.not_mem_nil, or_false] at hc
    rcases hc with rfl | rfl | rfl | rfl <;> first | exact d0.2 | exact d1.2 | exact d2.2 | exact d3.2

/-- The colon is no hexadecimal digit. -/
theorem hexVal_colon : hexVal 58 = none := by decide

/-- A group at the end of the text read by the loop of `parseIPv6`. -/
theorem parseIPv6Loop_last (g fuel : Nat) (ip : Bytes) (ellipsis : Option Nat) (hg : g < 65536)
    (hip : ip.length < 16) :
    parseIPv6Loop (fuel + 1) (appendHex g) ip ellipsis =
      some ([], ip ++ [UInt8.ofNat (g >>> 8), UInt8.ofNat g], ellipsis) := by
  obtain ⟨k, hk, hgroup, hdrop⟩ := hexGroup_appendHex g [] hg (Or.inl rfl)
  rw [List.append_nil] at hgroup hdrop
  have h16 : ¬ ip.length ≥ 16 := by omega
  have hk0 : ¬ k = 0 := by omega
  rw [parseIPv6Loop]
  simp only [h16, if_false, hgroup, hk0, hdrop, List.head?_nil]
  simp

/-- A group followed by `:` and a further group. -/
theorem parseIPv6Loop_colon (g fuel : Nat) (c : UInt8) (r ip : Bytes) (ellipsis : Option Nat)
    (hg : g < 65536) (hip : ip.length < 16) (hc : c ≠ 58) :
    parseIPv6Loop (fuel + 1) (appendHex g ++ 58 :: c :: r) ip ellipsis =
      parseIPv6Loop fuel (c :: r) (ip ++ [UInt8.ofNat (g >>> 8), UInt8.ofNat g]) ellipsis := by
  obtain ⟨k, hk, hgroup, hdrop⟩ :=
    hexGroup_appendHex g (58 :: c :: r) hg (Or.inr ⟨58, _, rfl, hexVal_colon⟩)
  have h16 : ¬ ip.length ≥ 16 := by omega
  have hk0 : ¬ k = 0 := by omega
  rw [parseIPv6Loop]
  simp only [h16, if_false, hgroup, hk0, hdrop, List.head?_cons]
  simp [hc]

/-- A group followed by `::`. -/
theorem parseIPv6Loop_ellipsis (g fuel : Nat) (rest ip : Bytes) (hg : g < 65536)
    (hip : ip.length < 16) :
    parseIPv6Loop (fuel + 1) (appendHex g ++ 58 :: 58 :: rest) ip none =
      if rest = [] then
        some ([], ip ++ [UInt8.ofNat (g >>> 8), UInt8.ofNat g], some (ip.length + 2))
      else
        parseIPv6Loop fuel rest (ip ++ [UInt8.ofNat (g >>> 8), UInt8.ofNat g])
          (some (ip.length + 2)) := by
  obtain ⟨k, hk, hgroup, hdrop⟩ :=
    hexGroup_appendHex g (58 :: 58 :: rest) hg (Or.inr ⟨58, _, rfl, hexVal_colon⟩)
  have h16 : ¬ ip.length ≥ 16 := by omega
  have hk0 : ¬ k = 0 := by omega
  rw [parseIPv6Loop]
  simp only [h16, if_false, hgroup, hk0, hdrop, List.head?_cons]
  simp

/-- Groups separated by colons up to the end of the text: the loop of `parseIPv6`
appends their bytes. -/
theorem parseIPv6Loop_groups (gs : List Nat) :
    ∀ (g fuel : Nat) (ip : Bytes) (ellipsis : Option Nat), g < 65536 → (∀ x ∈ gs, x < 65536) →
      ip.length + 2 * (gs.length + 1) ≤ 16 → gs.length + 1 ≤ fuel →
      parseIPv6Loop fuel (appendHex g ++ gs.flatMap (fun x => 58 :: appendHex x)) ip ellipsis =
        some ([], ip ++ (g :: gs).flatMap (fun x => [UInt8.ofNat (x >>> 8), UInt8.ofNat x]),
          ellipsis) := by
  induction gs with
  | nil =>
    intro g fuel ip ellipsis hg _ hlen hfuel
    obtain ⟨f, rfl⟩ : ∃ f, fuel = f + 1 := ⟨fuel - 1, by simp at hfuel; omega⟩
    simp only [List.flatMap_nil, List.append_nil]
    rw [parseIPv6Loop_last g f ip ellipsis hg (by simp at hlen; omega)]
    simp
  | cons g2 gs ih =>
    intro g fuel ip ellipsis hg hgs hlen hfuel
    obtain ⟨f, rfl⟩ : ∃ f, fuel = f + 1 := ⟨fuel - 1, by simp at hfuel; omega⟩
    have hg2 : g2 < 65536 := hgs g2 (by simp)
    obtain ⟨c, r, hcr, hc, _⟩ := appendHex_head g2 hg2
    simp only [List.length_cons] at hlen hfuel
    have hshape : appendHex g ++ (g2 :: gs).flatMap (fun x => 58 :: appendHex x) =
        appendHex g ++ 58 :: c :: (r ++ gs.flatMap (fun x => 58 :: appendHex x)) := by
      simp [List.flatMap_cons, hcr]
    rw [hshape, parseIPv6Loop_colon g f c _ ip ellipsis hg (by omega) hc]
    have hback : c :: (r ++ gs.flatMap (fun x => 58 :: appendHex x)) =
        appendHex g2 ++ gs.flatMap (fun x => 58 :: appendHex x) := by
      simp [hcr]
    rw [hback, ih g2 f _ ellipsis hg2 (fun x hx => hgs x (by simp [hx]))
      (by simp only [List.length_append, List.length_cons, List.length_nil]; omega) (by omega)]
    simp [List.flatMap_cons]

/-- Groups before a `::`: the loop of `parseIPv6` appends their bytes, notes the
position of the ellipsis and goes on behind it. -/
theorem parseIPv6Loop_front (gs : List Nat) :
    ∀ (g fuel : Nat) (ip rest : Bytes), g < 65536 → (∀ x ∈ gs, x < 65536) →
      ip.length + 2 * (gs.length + 1) < 16 → gs.length + 1 ≤ fuel →
      parseIPv6Loop fuel
          (appendHex g ++ gs.flatMap (fun x => 58 :: appendHex x) ++ 58 :: 58 :: rest) ip none =
        if rest = [] then
          some ([], ip ++ (g :: gs).flatMap (fun x => [UInt8.ofNat (x >>> 8), UInt8.ofNat x]),
            some (ip.length + 2 * (gs.length + 1)))
        else
          parseIPv6Loop (fuel - (gs.length + 1)) rest
            (ip ++ (g :: gs).flatMap (fun x => [UInt8.ofNat (x >>> 8), UInt8.ofNat x]))
            (some (ip.length + 2 * (gs.length + 1))) := by
  induction gs with
  | nil =>
    intro g fuel ip rest hg _ hlen hfuel
    obtain ⟨f, rfl⟩ : ∃ f, fuel = f + 1 := ⟨fuel - 1, by simp at hfuel; omega⟩
    simp only [List.flatMap_nil, List.append_nil, List.length_nil]
    rw [parseIPv6Loop_ellipsis g f rest ip hg (by simp at hlen; omega)]
    simp
  | cons g2 gs ih =>
    intro g fuel ip rest hg hgs hlen hfuel
    obtain ⟨f, rfl⟩ : ∃ f, fuel = f + 1 := ⟨fuel - 1, by simp at hfuel; omega⟩
    have hg2 : g2 < 65536 := hgs g2 (by simp)
    obtain ⟨c, r, hcr, hc, _⟩ := appendHex_head g2 hg2
    simp only [List.length_cons] at hlen hfuel
    have hshape : appendHex g ++ (g2 :: gs).flatMap (fun x => 58 :: appendHex x) ++
          58 :: 58 :: rest =
        appendHex g ++ 58 :: c ::
          (r ++ gs.flatMap (fun x => 58 :: appendHex x) ++ 58 :: 58 :: rest) := by
      simp [List.flatMap_cons, hcr]
    rw [hshape, parseIPv6Loop_colon g f c _ ip none hg (by omega) hc]
    have hback : c :: (r ++ gs.flatMap (fun x => 58 :: appendHex x) ++ 58 :: 58 :: rest) =
        appendHex g2 ++ gs.flatMap (fun x => 58 :: appendHex x) ++ 58 :: 58 :: rest := by
      simp [hcr]
    rw [hback, ih g2 f _ rest hg2 (fun x hx => hgs x (by simp [hx]))
      (by simp only [List.length_append, List.length_cons, List.length_nil]; omega) (by omega)]
    have e1 : f + 1 - (gs.length + 1 + 1) = f - (gs.length + 1) := by omega
    have e2 : (ip ++ [UInt8.ofNat (g >>> 8), UInt8.ofNat g]).length + 2 * (gs.length + 1) =
        ip.length + 2 * (gs.length + 1 + 1) := by
      simp only [List.length_append, List.length_cons, List.length_nil]
      omega
    simp only [List.length_cons, e1, e2, List.flatMap_cons, List.append_assoc]

/-- The printing loop of `appendTo6` behind the ellipsis, or without one: every group
after a colon. -/
theorem appendTo6Loop_after (gs : List Nat) (zs ze : Nat) (hlen : gs.length = 8) :
    ∀ fuel i, 1 ≤ i → (zs < i ∨ 8 ≤ zs) → 8 ≤ fuel + i →
      appendTo6Loop gs zs ze fuel i = (gs.drop i).flatMap (fun g => 58 :: appendHex g) := by
  intro fuel
  induction fuel with
  | zero =>
    intro i _ _ hf
    rw [List.drop_of_length_le (by omega)]
    rfl
  | succ fuel ih =>
    intro i hi hz hf
    rw [appendTo6Loop]
    by_cases h8 : i ≥ 8
    · rw [if_pos h8, List.drop_of_length_le (by omega)]
      rfl
    · have hne : ¬ i = zs := by omega
      have hlt : i < gs.length := by omega
      rw [if_neg h8, if_neg hne, if_pos (by omega), ih (i + 1) (by omega) (by omega) (by omega),
        List.drop_eq_getElem_cons hlt, List.getD_eq_getElem gs 0 hlt, List.flatMap_cons]
      rfl

/-- What `appendTo6` prints behind the ellipsis. -/
theorem appendTo6Loop_tail (gs : List Nat) (zs ze fuel : Nat) (hlen : gs.length = 8)
    (hz : zs < ze) (hf : 8 ≤ fuel + ze + 1) :
    (if ze ≥ 8 then []
     else appendHex (gs.getD ze 0) ++ appendTo6Loop gs zs ze fuel (ze + 1)) =
      ((gs.drop ze).flatMap (fun g => 58 :: appendHex g)).drop 1 := by
  by_cases h8 : ze ≥ 8
  · have hd : gs.drop ze = [] := List.drop_of_length_le (by omega)
    rw [if_pos h8, hd]
    rfl
  · have hlt : ze < gs.length := by omega
    have hd : gs.drop ze = gs[ze] :: gs.drop (ze + 1) := List.drop_eq_getElem_cons hlt
    rw [if_neg h8, appendTo6Loop_after gs zs ze hlen fuel (ze + 1) (by omega) (by omega) (by omega),
      hd, List.getD_eq_getElem gs 0 hlt, List.flatMap_cons]
    rfl

/-- The printing loop of `appendTo6` before the ellipsis. -/
theorem appendTo6Loop_before (gs : List Nat) (zs ze : Nat) (hlen : gs.length = 8) (hzs : zs < 8)
    (hz : zs < ze) :
    ∀ fuel i, 1 ≤ i → i ≤ zs → 8 ≤ fuel + i →
      appendTo6Loop gs zs ze fuel i =
        ((gs.take zs).drop i).flatMap (fun g => 58 :: appendHex g) ++ 58 :: 58 ::
          ((gs.drop ze).flatMap (fun g => 58 :: appendHex g)).drop 1 := by
  intro fuel
  induction fuel with
  | zero =>
    intro i _ hi hf
    omega
  | succ fuel ih =>
    intro i hi hiz hf
    rw [appendTo6Loop]
    have h8 : ¬ i ≥ 8 := by omega
    rw [if_neg h8]
    by_cases he : i = zs
    · subst he
      have hd : (gs.take i).drop i = [] :=
        List.drop_of_length_le (by rw [List.length_take]; omega)
      rw [if_pos rfl, appendTo6Loop_tail gs i ze fuel hlen hz (by omega), hd]
      rfl
    · have hlt : i < (gs.take zs).length := by
        rw [List.length_take]
        omega
      have hlt2 : i < gs.length := by omega
      have hd : (gs.take zs).drop i = gs[i] :: (gs.take zs).drop (i + 1) := by
        rw [List.drop_eq_getElem_cons hlt, List.getElem_take]
      rw [if_neg he, if_pos (by omega), ih (i + 1) (by omega) (by omega) (by omega), hd,
        List.getD_eq_getElem gs 0 hlt2, List.flatMap_cons]
      simp only [List.cons_append, List.nil_append, List.append_assoc]

/-- The elements `takeWhile` keeps are a prefix. -/
theorem take_length_takeWhile (p : Nat → Bool) (l : List Nat) :
    l.take (l.takeWhile p).length = l.takeWhile p := by
  induction l with
  | nil => rfl
  | cons a l ih =>
    by_cases h : p a = true
    · simp [List.takeWhile_cons, h, ih]
    · simp [List.takeWhile_cons, h]

/-- The run `appendTo6` prints as `::`: there is none, or it has at least two groups,
all of them zero. -/
theorem zeroRun_spec (gs : List Nat) (hlen : gs.length = 8) :
    zeroRun gs = (255, 255) ∨
      ((zeroRun gs).1 + 2 ≤ (zeroRun gs).2 ∧ (zeroRun gs).2 ≤ 8 ∧
        ∀ g ∈ (gs.take (zeroRun gs).2).drop (zeroRun gs).1, g = 0) := by
  have key : ∀ (l : List Nat) (z : Nat × Nat),
      (z = (255, 255) ∨ (z.1 + 2 ≤ z.2 ∧ z.2 ≤ 8 ∧ ∀ g ∈ (gs.take z.2).drop z.1, g = 0)) →
      (let r := l.foldl
          (fun (z : Nat × Nat) i =>
            let j := i + ((gs.drop i).takeWhile (fun g => g = 0)).length
            if j - i ≥ 2 ∧ j - i > z.2 - z.1 then (i, j) else z) z
       r = (255, 255) ∨ (r.1 + 2 ≤ r.2 ∧ r.2 ≤ 8 ∧ ∀ g ∈ (gs.take r.2).drop r.1, g = 0)) := by
    intro l
    induction l with
    | nil =>
      intro z hz
      exact hz
    | cons i l ih =>
      intro z hz
      simp only [List.foldl_cons]
      apply ih
      split
      · rename_i hcond
        right
        have hle : ((gs.drop i).takeWhile (fun g => decide (g = 0))).length ≤ (gs.drop i).length :=
          (List.takeWhile_prefix _).length_le
        rw [List.length_drop] at hle
        refine ⟨by omega, by simp only; omega, ?_⟩
        intro g hg
        simp only [List.drop_take, Nat.add_sub_cancel_left, take_length_takeWhile] at hg
        have := List.mem_takeWhile_imp hg
        simpa using this
      · exact hz
  exact key (List.range 8) (255, 255) (Or.inl rfl)

/-- A group of two bytes: the bytes are read back from it. -/
theorem group_bytes (hi lo : UInt8) :
    (hi.toNat <<< 8 ||| lo.toNat) < 65536 ∧
      UInt8.ofNat ((hi.toNat <<< 8 ||| lo.toNat) >>> 8) = hi ∧
      UInt8.ofNat (hi.toNat <<< 8 ||| lo.toNat) = lo ∧
      ((hi.toNat <<< 8 ||| lo.toNat) = 0 ↔ hi = 0 ∧ lo = 0) := by
  have hh := UInt8.toNat_lt hi
  have hl := UInt8.toNat_lt lo
  have hg : hi.toNat <<< 8 ||| lo.toNat = lo.toNat + hi.toNat * 2 ^ 8 := by
    rw [Nat.lor_comm]
    exact lor_shiftLeft lo.toNat hi.toNat 8 hl
  rw [hg]
  have h0 : (0 : UInt8).toNat = 0 := rfl
  refine ⟨by omega, ?_, ?_, ?_⟩
  · have : (lo.toNat + hi.toNat * 2 ^ 8) >>> 8 = hi.toNat := by omega
    rw [this, u8_ofNat_toNat]
  · rw [u8_ofNat_mod]
    have : (lo.toNat + hi.toNat * 2 ^ 8) % 256 = lo.toNat := by omega
    rw [this, u8_ofNat_toNat]
  · rw [u8_eq, u8_eq, h0]
    omega

/-- A byte that does not occur has no index. -/
theorem IndexByte_none (s : Bytes) (sep : UInt8) (h : sep ∉ s) : IndexByte s sep = none := by
  induction s with
  | nil => rfl
  | cons c s ih =>
    have hc : c ≠ sep := fun e => h (by simp [e])
    have hr : sep ∉ s := fun e => h (by simp [e])
    simp [IndexByte, hc, ih hr]

/-- The groups of a 16-byte address: eight numbers below `65536` whose bytes are the address. -/
theorem v6u16s_spec (ip : Bytes) (hlen : ip.length = 16) :
    (v6u16s ip).length = 8 ∧ (∀ g ∈ v6u16s ip, g < 65536) ∧
      (v6u16s ip).flatMap (fun x => [UInt8.ofNat (x >>> 8), UInt8.ofNat x]) = ip := by
  have hr : List.range 8 = [0, 1, 2, 3, 4, 5, 6, 7] := by decide
  match ip, hlen with
  | [b0, b1, b2, b3, b4, b5, b6, b7, b8, b9, b10, b11, b12, b13, b14, b15], _ =>
    have g0 := group_bytes b0 b1
    have g1 := group_bytes b2 b3
    have g2 := group_bytes b4 b5
    have g3 := group_bytes b6 b7
    have g4 := group_bytes b8 b9
    have g5 := group_bytes b10 b11
    have g6 := group_bytes b12 b13
    have g7 := group_bytes b14 b15
    refine ⟨by simp [v6u16s], ?_, ?_⟩
    · intro g hg
      simp only [v6u16s, hr, List.map_cons, List.map_nil, List.mem_cons, List.mem_singleton,
        List.not_mem_nil, or_false] at hg
      rcases hg with rfl | rfl | rfl | rfl | rfl | rfl | rfl | rfl
      · exact g0.1
      · exact g1.1
      · exact g2.1
      · exact g3.1
      · exact g4.1
      · exact g5.1
      · exact g6.1
      · exact g7.1
    · simp only [v6u16s, hr, List.map_cons, List.map_nil, List.flatMap_cons, List.flatMap_nil]
      simp only [Nat.mul_zero, Nat.zero_add, Nat.mul_one, List.getD_cons_zero, List.getD_cons_succ,
        Nat.reduceMul, Nat.reduceAdd] at *
      rw [g0.2.1, g0.2.2.1, g1.2.1, g1.2.2.1, g2.2.1, g2.2.2.1, g3.2.1, g3.2.2.1, g4.2.1, g4.2.2.1,
        g5.2.1, g5.2.2.1, g6.2.1, g6.2.2.1, g7.2.1, g7.2.2.1]
      rfl

/-- The bytes of groups that are all zero. -/
theorem zero_groups_bytes (l : List Nat) (h : ∀ g ∈ l, g = 0) :
    l.flatMap (fun x => [UInt8.ofNat (x >>> 8), UInt8.ofNat x]) = List.replicate (2 * l.length) 0 := by
  induction l with
  | nil => rfl
  | cons g l ih =>
    have hg : g = 0 := h g (by simp)
    subst hg
    rw [List.flatMap_cons, ih (fun x hx => h x (by simp [hx]))]
    simp only [List.length_cons]
    rw [show 2 * (l.length + 1) = 2 * l.length + 1 + 1 by ring, List.replicate_succ,
      List.replicate_succ]
    rfl

/-- The number of bytes of a sequence of groups. -/
theorem groups_bytes_length (l : List Nat) :
    (l.flatMap (fun x => [UInt8.ofNat (x >>> 8), UInt8.ofNat x])).length = 2 * l.length := by
  induction l with
  | nil => rfl
  | cons g l ih =>
    rw [List.flatMap_cons, List.length_append, ih]
    simp only [List.length_cons, List.length_nil]
    omega

/-- The bytes the printing loop of `appendTo6` writes: colons and hexadecimal digits. -/
theorem appendTo6Loop_bytes (gs : List Nat) (zs ze : Nat) (hgs : ∀ i, gs.getD i 0 < 65536) :
    ∀ fuel i, ∀ c ∈ appendTo6Loop gs zs ze fuel i, c ≠ 46 ∧ c ≠ 47 ∧ c ≠ 37 := by
  intro fuel
  induction fuel with
  | zero =>
    intro i c hc
    simp [appendTo6Loop] at hc
  | succ fuel ih =>
    intro i c hc
    rw [appendTo6Loop] at hc
    split at hc
    · simp at hc
    · split at hc
      · simp only [List.mem_cons] at hc
        rcases hc with rfl | rfl | hc
        · decide
        · decide
        · split at hc
          · simp at hc
          · rcases List.mem_append.mp hc with hc | hc
            · exact (appendHex_bytes _ (hgs _) c hc).2
            · exact ih _ c hc
      · rcases List.mem_append.mp hc with hc | hc
        · rcases List.mem_append.mp hc with hc | hc
          · split at hc
            · simp only [List.mem_singleton] at hc
              subst hc
              decide
            · simp at hc
          · exact (appendHex_bytes _ (hgs _) c hc).2
        · exact ih _ c hc

/-- The text `appendTo6` prints for a 16-byte address: without a run of zero groups
the eight groups between colons; with one, the groups before it, `::`, and the
groups behind it. -/
theorem string6_shape (ip : Bytes) (hlen : ip.length = 16) :
    (zeroRun (v6u16s ip) = (255, 255) ∧
      string6 ip = appendHex ((v6u16s ip).getD 0 0) ++
        ((v6u16s ip).drop 1).flatMap (fun g => 58 :: appendHex g)) ∨
    ((zeroRun (v6u16s ip)).1 + 2 ≤ (zeroRun (v6u16s ip)).2 ∧ (zeroRun (v6u16s ip)).2 ≤ 8 ∧
      (∀ g ∈ ((v6u16s ip).take (zeroRun (v6u16s ip)).2).drop (zeroRun (v6u16s ip)).1, g = 0) ∧
      string6 ip =
        (if (zeroRun (v6u16s ip)).1 = 0 then []
         else appendHex ((v6u16s ip).getD 0 0) ++
           (((v6u16s ip).take (zeroRun (v6u16s ip)).1).drop 1).flatMap
             (fun g => 58 :: appendHex g)) ++
        58 :: 58 ::
          (((v6u16s ip).drop (zeroRun (v6u16s ip)).2).flatMap (fun g => 58 :: appendHex g)).drop 1) := by
  obtain ⟨hg8, _, _⟩ := v6u16s_spec ip hlen
  rcases zeroRun_spec (v6u16s ip) hg8 with h | ⟨h1, h2, h3⟩
  · refine Or.inl ⟨h, ?_⟩
    simp only [string6, h]
    rw [appendTo6Loop]
    rw [if_neg (by omega), if_neg (by omega), if_neg (by omega),
      appendTo6Loop_after _ 255 255 hg8 7 1 (by omega) (by omega) (by omega)]
    rfl
  · refine Or.inr ⟨h1, h2, h3, ?_⟩
    simp only [string6]
    rw [appendTo6Loop]
    by_cases hz : (zeroRun (v6u16s ip)).1 = 0
    · rw [if_neg (by omega), if_pos hz.symm, if_pos hz,
        appendTo6Loop_tail _ _ _ 7 hg8 (by omega) (by omega)]
      rfl
    · rw [if_neg (by omega), if_neg (fun e => hz e.symm), if_neg (by omega), if_neg hz,
        appendTo6Loop_before _ _ _ hg8 (by omega) (by omega) 7 1 (by omega) (by omega) (by omega)]
      simp only [List.nil_append, List.append_assoc]

/-- The function `parseIPv6` on a text without `%` that does not start with a colon. -/
theorem parseIPv6_plain (s r ipf : Bytes) (c : UInt8) (ell : Option Nat) (h37 : 37 ∉ s)
    (hs : s = c :: r) (hc : c ≠ 58) (hloop : parseIPv6Loop 8 s [] none = some ([], ipf, ell)) :
    parseIPv6 s =
      if ipf.length < 16 then
        match ell with
        | none => none
        | some e => some (ipf.take e ++ List.replicate (16 - ipf.length) 0 ++ ipf.drop e, [])
      else if ell.isSome then none
      else some (ipf, []) := by
  have hlead : leadingEllipsis s = none := by
    subst hs
    unfold leadingEllipsis
    split
    · rename_i heq
      simp only [List.cons.injEq] at heq
      exact absurd heq.1 hc
    · rfl
  unfold parseIPv6
  rw [IndexByte_none s 37 h37]
  simp only [hlead, Option.getD_none, Option.map_none', hloop]
  rfl

/-- The function `parseIPv6` on a text without `%` that starts with `::` and goes on. -/
theorem parseIPv6_lead (r ipf : Bytes) (ell : Option Nat) (h37 : 37 ∉ r) (hr : r ≠ [])
    (hloop : parseIPv6Loop 8 r [] (some 0) = some ([], ipf, ell)) :
    parseIPv6 (58 :: 58 :: r) =
      if ipf.length < 16 then
        match ell with
        | none => none
        | some e => some (ipf.take e ++ List.replicate (16 - ipf.length) 0 ++ ipf.drop e, [])
      else if ell.isSome then none
      else some (ipf, []) := by
  have h37' : (37 : UInt8) ∉ 58 :: 58 :: r := by
    intro h
    simp only [List.mem_cons] at h
    rcases h with h | h | h
    · exact absurd h (by decide)
    · exact absurd h (by decide)
    · exact h37 h
  have hlead : leadingEllipsis (58 :: 58 :: r) = some r := rfl
  unfold parseIPv6
  rw [IndexByte_none _ 37 h37']
  cases r with
  | nil => exact absurd rfl hr
  | cons c r =>
    simp only [hlead, Option.getD_some, Option.map_some', hloop]
    rfl

/-- The bytes of the groups around a run of zero groups, with the zero bytes of the
run put back at the ellipsis, are the bytes of all the groups. -/
theorem expand_ellipsis (gs : List Nat) (zs ze : Nat) (hlen : gs.length = 8) (h1 : zs + 2 ≤ ze)
    (h2 : ze ≤ 8) (hz : ∀ g ∈ (gs.take ze).drop zs, g = 0) :
    ((gs.take zs).flatMap (fun x => [UInt8.ofNat (x >>> 8), UInt8.ofNat x]) ++
        (gs.drop ze).flatMap (fun x => [UInt8.ofNat (x >>> 8), UInt8.ofNat x])).length < 16 ∧
    (((gs.take zs).flatMap (fun x => [UInt8.ofNat (x >>> 8), UInt8.ofNat x]) ++
        (gs.drop ze).flatMap (fun x => [UInt8.ofNat (x >>> 8), UInt8.ofNat x])).take (2 * zs) ++
      List.replicate (16 - ((gs.take zs).flatMap (fun x => [UInt8.ofNat (x >>> 8), UInt8.ofNat x]) ++
        (gs.drop ze).flatMap (fun x => [UInt8.ofNat (x >>> 8), UInt8.ofNat x])).length) (0 : UInt8) ++
      ((gs.take zs).flatMap (fun x => [UInt8.ofNat (x >>> 8), UInt8.ofNat x]) ++
        (gs.drop ze).flatMap (fun x => [UInt8.ofNat (x >>> 8), UInt8.ofNat x])).drop (2 * zs)) =
      gs.flatMap (fun x => [UInt8.ofNat (x >>> 8), UInt8.ofNat x]) := by
  have hA : ((gs.take zs).flatMap (fun x => [UInt8.ofNat (x >>> 8), UInt8.ofNat x])).length =
      2 * zs := by
    rw [groups_bytes_length, List.length_take]
    omega
  have hB : ((gs.drop ze).flatMap (fun x => [UInt8.ofNat (x >>> 8), UInt8.ofNat x])).length =
      2 * (8 - ze) := by
    rw [groups_bytes_length, List.length_drop]
    omega
  have hsplit : gs = gs.take zs ++ ((gs.take ze).drop zs ++ gs.drop ze) := by
    have e1 : gs.take zs = (gs.take ze).take zs := by
      rw [List.take_take]
      congr 1
      omega
    rw [e1, ← List.append_assoc, List.take_append_drop, List.take_append_drop]
  have hmid := zero_groups_bytes _ hz
  have hmidlen : ((gs.take ze).drop zs).length = ze - zs := by
    rw [List.length_drop, List.length_take]
    omega
  refine ⟨by rw [List.length_append, hA, hB]; omega, ?_⟩
  rw [List.take_left' hA, List.drop_left' hA, List.length_append, hA, hB]
  conv_rhs => rw [hsplit]
  rw [List.flatMap_append, List.flatMap_append, hmid, hmidlen]
  have e : 16 - (2 * zs + 2 * (8 - ze)) = 2 * (ze - zs) := by omega
  rw [e, List.append_assoc]

/-- The groups behind the ellipsis, read by the loop of `parseIPv6`. -/
theorem parseIPv6Loop_tail (gs : List Nat) (ze fuel e : Nat) (ip0 : Bytes) (hlen : gs.length = 8)
    (hgs : ∀ g ∈ gs, g < 65536) (hip : ip0.length + 2 * (8 - ze) ≤ 16) (hf : 8 - ze ≤ fuel) :
    (if ((gs.drop ze).flatMap (fun g => 58 :: appendHex g)).drop 1 = [] then
        some ([], ip0, some e)
      else
        parseIPv6Loop fuel (((gs.drop ze).flatMap (fun g => 58 :: appendHex g)).drop 1) ip0 (some e)) =
      some ([], ip0 ++ (gs.drop ze).flatMap (fun x => [UInt8.ofNat (x >>> 8), UInt8.ofNat x]),
        some e) := by
  cases hd : gs.drop ze with
  | nil => simp
  | cons g rest =>
    have hmem : ∀ x ∈ g :: rest, x < 65536 := by
      intro x hx
      rw [← hd] at hx
      exact hgs x (List.mem_of_mem_drop hx)
    have hl : (g :: rest).length = 8 - ze := by
      rw [← hd, List.length_drop, hlen]
    simp only [List.length_cons] at hl
    obtain ⟨c, r, hcr, _, _⟩ := appendHex_head g (hmem g (by simp))
    have hT : ((g :: rest).flatMap (fun g => 58 :: appendHex g)).drop 1 =
        appendHex g ++ rest.flatMap (fun g => 58 :: appendHex g) := by
      rw [List.flatMap_cons]
      rfl
    have hne : appendHex g ++ rest.flatMap (fun g => 58 :: appendHex g) ≠ [] := by
      rw [hcr]
      simp
    rw [hT, if_neg hne, parseIPv6Loop_groups rest g fuel ip0 (some e) (hmem g (by simp))
      (fun x hx => hmem x (by simp [hx])) (by omega) (by omega)]

/-- The function `parseIPv6` reads back the text `appendTo6` prints for a 16-byte address. -/
theorem parseIPv6_string6 (ip : Bytes) (hlen : ip.length = 16) :
    parseIPv6 (string6 ip) = some (ip, []) ∧ 58 ∈ string6 ip := by
  obtain ⟨hg8, hglt, hbytes⟩ := v6u16s_spec ip hlen
  have hgetD : ∀ i, (v6u16s ip).getD i 0 < 65536 := by
    intro i
    by_cases hi : i < (v6u16s ip).length
    · rw [List.getD_eq_getElem _ _ hi]
      exact hglt _ (List.getElem_mem hi)
    · rw [List.getD_eq_default _ _ (by omega)]
      omega
  have h37 : (37 : UInt8) ∉ string6 ip := fun h =>
    (appendTo6Loop_bytes _ _ _ hgetD 8 0 37 h).2.2 rfl
  obtain ⟨g0, gt, hgs⟩ : ∃ g0 gt, v6u16s ip = g0 :: gt := by
    cases h : v6u16s ip with
    | nil => simp [h] at hg8
    | cons g0 gt => exact ⟨g0, gt, rfl⟩
  have hgt : gt.length = 7 := by
    rw [hgs] at hg8
    simpa using hg8
  have hg0 : g0 < 65536 := hglt g0 (by simp [hgs])
  have hgtlt : ∀ x ∈ gt, x < 65536 := fun x hx => hglt x (by simp [hgs, hx])
  obtain ⟨c, r, hcr, hc, _⟩ := appendHex_head g0 hg0
  rcases string6_shape ip hlen with ⟨_, htext⟩ | ⟨h1, h2, h3, htext⟩
  · -- no run of zero groups
    have htext2 : string6 ip = appendHex g0 ++ gt.flatMap (fun g => 58 :: appendHex g) := by
      rw [htext, hgs]
      rfl
    have hloop := parseIPv6Loop_groups gt g0 8 [] none hg0 hgtlt (by simp [hgt]) (by omega)
    rw [← htext2, List.nil_append, ← hgs, hbytes] at hloop
    have hshape : string6 ip = c :: (r ++ gt.flatMap (fun g => 58 :: appendHex g)) := by
      rw [htext2, hcr]
      rfl
    refine ⟨?_, ?_⟩
    · rw [parseIPv6_plain _ _ ip c none h37 hshape hc hloop]
      simp [hlen]
    · rw [htext2]
      cases gt with
      | nil => simp at hgt
      | cons g1 gt => simp [List.flatMap_cons]
  · -- a run of zero groups from `zs` to `ze`
    generalize hzs : (zeroRun (v6u16s ip)).1 = zs at h1 h3 htext
    generalize hze : (zeroRun (v6u16s ip)).2 = ze at h1 h2 h3 htext
    have hexp := expand_ellipsis (v6u16s ip) zs ze hg8 h1 h2 h3
    rw [hbytes] at hexp
    have hcolon : (58 : UInt8) ∈ string6 ip := by
      rw [htext]
      simp
    refine ⟨?_, hcolon⟩
    by_cases hz : zs = 0
    · subst hz
      rw [if_pos rfl, List.nil_append] at htext
      have h37' : (37 : UInt8) ∉
          (((v6u16s ip).drop ze).flatMap (fun g => 58 :: appendHex g)).drop 1 := by
        intro h
        apply h37
        rw [htext]
        exact List.mem_cons_of_mem _ (List.mem_cons_of_mem _ h)
      have htail := parseIPv6Loop_tail (v6u16s ip) ze 8 0 [] hg8 hglt (by simp; omega) (by omega)
      rw [List.nil_append] at htail
      simp only [List.take_zero, List.flatMap_nil, List.nil_append, Nat.mul_zero, List.drop_zero]
        at hexp
      by_cases hT : (((v6u16s ip).drop ze).flatMap (fun g => 58 :: appendHex g)).drop 1 = []
      · rw [if_pos hT] at htail
        simp only [Option.some.injEq, Prod.mk.injEq, true_and, and_true] at htail
        rw [← htail] at hexp
        simp only [List.length_nil, List.append_nil, Nat.sub_zero] at hexp
        have hunspec : parseIPv6 [58, 58] = some (List.replicate 16 0, []) := by decide
        rw [htext, hT, hunspec, hexp.2]
      · rw [if_neg hT] at htail
        rw [htext, parseIPv6_lead _ _ (some 0) h37' hT htail, if_pos hexp.1]
        simp only [List.take_zero, List.drop_zero, List.nil_append]
        rw [hexp.2]
    · rw [if_neg hz] at htext
      have hfront : g0 :: ((v6u16s ip).take zs).drop 1 = (v6u16s ip).take zs := by
        rw [hgs]
        cases zs with
        | zero => exact absurd rfl hz
        | succ n => rfl
      have hfl : (((v6u16s ip).take zs).drop 1).length + 1 = zs := by
        have := congrArg List.length hfront
        rw [List.length_cons, List.length_take] at this
        omega
      have hg0' : (v6u16s ip).getD 0 0 = g0 := by rw [hgs]; rfl
      rw [hg0'] at htext
      have hfrontlt : ∀ x ∈ ((v6u16s ip).take zs).drop 1, x < 65536 := fun x hx =>
        hglt x (List.mem_of_mem_take (List.mem_of_mem_drop hx))
      have hloop := parseIPv6Loop_front (((v6u16s ip).take zs).drop 1) g0 8 []
        ((((v6u16s ip).drop ze).flatMap (fun g => 58 :: appendHex g)).drop 1) hg0 hfrontlt
        (by simp only [List.length_nil]; omega) (by omega)
      rw [hfront, hfl, List.nil_append, List.length_nil, Nat.zero_add,
        parseIPv6Loop_tail (v6u16s ip) ze (8 - zs) (2 * zs) _ hg8 hglt
          (by rw [groups_bytes_length, List.length_take]; omega) (by omega),
        ← htext] at hloop
      have hshape : string6 ip = c :: (r ++
          ((((v6u16s ip).take zs).drop 1).flatMap (fun g => 58 :: appendHex g) ++ 58 :: 58 ::
            (((v6u16s ip).drop ze).flatMap (fun g => 58 :: appendHex g)).drop 1)) := by
        rw [htext, hcr]
        simp
      rw [parseIPv6_plain _ _ _ c _ h37 hshape hc hloop, if_pos hexp.1]
      simp only
      rw [hexp.2]

/-- The first of the bytes `.`, `:` and `%` in a text with a colon and neither `.` nor `%`. -/
theorem find_colon (s : Bytes) (h : ∀ c ∈ s, c ≠ 46 ∧ c ≠ 37) (hc : 58 ∈ s) :
    s.find? (fun c => c = 46 ∨ c = 58 ∨ c = 37) = some 58 := by
  induction s with
  | nil => simp at hc
  | cons c s ih =>
    rw [List.find?_cons]
    by_cases h58 : c = 58
    · subst h58
      rfl
    · have hp : decide (c = 46 ∨ c = 58 ∨ c = 37) = false := by
        simp [h58, (h c (by simp)).1, (h c (by simp)).2]
      rw [hp]
      rcases List.mem_cons.mp hc with hc | hc
      · exact absurd hc.symm h58
      · exact ih (fun x hx => h x (by simp [hx])) hc

/-- The function `net.ParseIP` reads back the text of a 16-byte address; the text is not
empty and has no `/`. -/
theorem ParseIP_string6 (ip : Bytes) (hlen : ip.length = 16) :
    ParseIP (string6 ip) = some ip ∧ string6 ip ≠ [] ∧ 47 ∉ string6 ip := by
  obtain ⟨hparse, hcolon⟩ := parseIPv6_string6 ip hlen
  obtain ⟨_, hglt, _⟩ := v6u16s_spec ip hlen
  have hgetD : ∀ i, (v6u16s ip).getD i 0 < 65536 := by
    intro i
    by_cases hi : i < (v6u16s ip).length
    · rw [List.getD_eq_getElem _ _ hi]
      exact hglt _ (List.getElem_mem hi)
    · rw [List.getD_eq_default _ _ (by omega)]
      omega
  have hbytes := appendTo6Loop_bytes (v6u16s ip) (zeroRun (v6u16s ip)).1 (zeroRun (v6u16s ip)).2
    hgetD 8 0
  have hfind := find_colon (string6 ip) (fun c hc => ⟨(hbytes c hc).1, (hbytes c hc).2.2⟩) hcolon
  refine ⟨?_, ?_, ?_⟩
  · unfold ParseIP
    rw [hfind]
    simp only [hparse]
    rfl
  · intro h
    rw [h] at hcolon
    simp at hcolon
  · exact fun h => (hbytes 47 h).2.1 rfl

/-- The decimal digits are hexadecimal digits. -/
theorem decimal_hextable : ∀ d < 10, UInt8.ofNat (48 + d) = hextable.getD d 0 := by decide

/-- The dot is no hexadecimal digit. -/
theorem hexVal_dot : hexVal 46 = none := by decide

/-- The digits of an octet before a dot, read by `hexGroup` as a hexadecimal number. -/
theorem hexGroup_octet (n : Nat) (rest : Bytes) (hn : n < 256) :
    ∃ acc k, hexGroup (Itoa n ++ 46 :: rest) 0 0 = some (acc, k) ∧ k ≠ 0 ∧
      ((Itoa n ++ 46 :: rest).drop k).head? = some 46 := by
  have hend := fun off acc =>
    hexGroup_end (46 :: rest) off acc (Or.inr ⟨46, rest, rfl, hexVal_dot⟩)
  rcases Itoa_octet n hn with ⟨h1, hs⟩ | ⟨h1, h2, hs⟩ | ⟨h1, hs⟩
  · refine ⟨0 * 16 + n, 1, ?_, by omega, by rw [hs]; rfl⟩
    rw [hs, decimal_hextable n h1]
    simp only [List.cons_append, List.nil_append]
    rw [hexGroup_digit _ _ _ _ (by omega) (by omega) (by omega), hend]
  · refine ⟨(0 * 16 + n / 10) * 16 + n % 10, 2, ?_, by omega, by rw [hs]; rfl⟩
    rw [hs, decimal_hextable (n / 10) (by omega), decimal_hextable (n % 10) (by omega)]
    simp only [List.cons_append, List.nil_append]
    rw [hexGroup_digit _ _ _ _ (by omega) (by omega) (by omega),
      hexGroup_digit _ _ _ _ (by omega) (by omega) (by omega), hend]
  · refine ⟨((0 * 16 + n / 100) * 16 + n / 10 % 10) * 16 + n % 10, 3, ?_, by omega,
      by rw [hs]; rfl⟩
    rw [hs, decimal_hextable (n / 100) (by omega), decimal_hextable (n / 10 % 10) (by omega),
      decimal_hextable (n % 10) (by omega)]
    simp only [List.cons_append, List.nil_append]
    rw [hexGroup_digit _ _ _ _ (by omega) (by omega) (by omega),
      hexGroup_digit _ _ _ _ (by omega) (by omega) (by omega),
      hexGroup_digit _ _ _ _ (by omega) (by omega) (by omega), hend]

/-- The dotted quad behind `::ffff:`, read by the loop of `parseIPv6`. -/
theorem parseIPv6Loop_dotted (a b c d : UInt8) (fuel : Nat) (ip : Bytes) (e : Nat)
    (hip : ip.length + 4 ≤ 16) :
    parseIPv6Loop (fuel + 1) (string4 [a, b, c, d]) ip (some e) =
      some ([], ip ++ [a, b, c, d], some e) := by
  obtain ⟨acc, k, hgroup, hk, hdot⟩ := hexGroup_octet a.toNat
    (Itoa b.toNat ++ 46 :: (Itoa c.toNat ++ 46 :: Itoa d.toNat)) (UInt8.toNat_lt a)
  rw [← string4_eq] at hgroup hdot
  have h16 : ¬ ip.length ≥ 16 := by omega
  have h4 : ¬ ip.length + 4 > 16 := by omega
  rw [parseIPv6Loop]
  simp only [h16, if_false, hgroup, hk, hdot, if_true, parseIPv4_string4, h4]
  simp

/-- The text `::ffff:a.b.c.d` is read by `net.ParseIP` as the 16-byte form of the
IPv4 address; the text is not empty and has no `/`. -/
theorem ParseIP_mapped (a b c d : UInt8) :
    ParseIP (str "::ffff:" ++ string4 [a, b, c, d]) = some (v4InV6 [a, b, c, d]) ∧
      str "::ffff:" ++ string4 [a, b, c, d] ≠ [] ∧
      47 ∉ str "::ffff:" ++ string4 [a, b, c, d] := by
  have ht := string4_text a b c d
  have hstr : str "::ffff:" = [58, 58, 102, 102, 102, 102, 58] := by decide
  have hhex : appendHex 65535 = [102, 102, 102, 102] := by decide
  have h37s : (37 : UInt8) ∉ string4 [a, b, c, d] := by
    rw [string4_eq]
    have hd : ∀ n, (37 : UInt8) ∉ Itoa n := by
      intro n hx
      have := (Itoa_spec n).2.1 37 hx
      revert this
      decide
    simp [hd]
  obtain ⟨x, xs, hx⟩ : ∃ x xs, string4 [a, b, c, d] = x :: xs := by
    cases h : string4 [a, b, c, d] with
    | nil => exact absurd h ht.1
    | cons x xs => exact ⟨x, xs, rfl⟩
  have hx58 : x ≠ 58 := by
    have h1 : x ∈ Itoa a.toNat := by
      have hs := string4_eq a b c d
      rw [hx] at hs
      cases hi : Itoa a.toNat with
      | nil => exact absurd hi (Itoa_spec _).1
      | cons y ys =>
        rw [hi] at hs
        simp only [List.cons_append, List.cons.injEq] at hs
        rw [hs.1]
        simp
    exact (digit_ne x ((Itoa_spec _).2.1 x h1)).2.2.1
  have hloop : parseIPv6Loop 8 ([102, 102, 102, 102, 58] ++ string4 [a, b, c, d]) [] (some 0) =
      some ([], [0xff, 0xff, a, b, c, d], some 0) := by
    have h1 : ([102, 102, 102, 102, 58] : Bytes) ++ string4 [a, b, c, d] =
        appendHex 65535 ++ 58 :: x :: xs := by
      rw [hhex, hx]
      rfl
    rw [h1, parseIPv6Loop_colon 65535 7 x xs [] (some 0) (by omega) (by simp) hx58, ← hx,
      parseIPv6Loop_dotted a b c d 6 _ 0 (by simp)]
    rfl
  have h37 : (37 : UInt8) ∉ ([102, 102, 102, 102, 58] : Bytes) ++ string4 [a, b, c, d] := by
    intro h
    rcases List.mem_append.mp h with h | h
    · revert h
      decide
    · exact h37s h
  refine ⟨?_, by rw [hstr]; simp, ?_⟩
  · have hshape : str "::ffff:" ++ string4 [a, b, c, d] =
        58 :: 58 :: (([102, 102, 102, 102, 58] : Bytes) ++ string4 [a, b, c, d]) := by
      rw [hstr]
      rfl
    unfold ParseIP
    rw [hshape]
    simp only [List.find?_cons]
    rw [parseIPv6_lead _ _ (some 0) h37 (by simp) hloop]
    rfl
  · rw [hstr]
    intro h
    rcases List.mem_append.mp h with h | h
    · revert h
      decide
    · exact ht.2.1 h

/-- A 16-byte address that `To4` accepts is the 16-byte form of the four bytes. -/
theorem To4_mapped (ip ip4 : Bytes) (hlen : ip.length = 16) (h : To4 ip = some ip4) :
    ∃ a b c d, ip4 = [a, b, c, d] ∧ ip = v4InV6 [a, b, c, d] := by
  unfold To4 at h
  rw [if_neg (by omega)] at h
  split at h
  · rename_i hcond
    simp only [Option.some.injEq] at h
    obtain ⟨_, h10, h2⟩ := hcond
    have hsplit : ip = ip.take 10 ++ ((ip.drop 10).take 2 ++ ip.drop 12) := by
      have e : ip.drop 12 = (ip.drop 10).drop 2 := by rw [List.drop_drop]
      rw [e, List.take_append_drop, List.take_append_drop]
    have hl4 : ip4.length = 4 := by
      rw [← h, List.length_drop]
      omega
    match ip4, hl4 with
    | [a, b, c, d], _ =>
      refine ⟨a, b, c, d, rfl, ?_⟩
      rw [hsplit, h10, h2, h]
      rfl
  · exact absurd h (by simp)

/-- Round trip of the `ip6` transcoder on sixteen bytes. -/
theorem ip6_roundtrip (ip : Bytes) (hlen : ip.length = 16) :
    ∃ v, Transcoder.BytesToString .TranscoderIP6 ip = .ok v ∧ v ≠ [] ∧ 47 ∉ v ∧
      Transcoder.StringToBytes .TranscoderIP6 v = .ok ip := by
  have h16 : To16 ip = some ip := by
    unfold To16
    rw [if_neg (by omega), if_pos hlen]
  cases h4 : To4 ip with
  | some ip4 =>
    obtain ⟨a, b, c, d, rfl, hip⟩ := To4_mapped ip ip4 hlen h4
    obtain ⟨hp, hne, hs⟩ := ParseIP_mapped a b c d
    have hstr : IPString [a, b, c, d] = string4 [a, b, c, d] := by simp [IPString, To4]
    refine ⟨str "::ffff:" ++ string4 [a, b, c, d], ?_, hne, hs, ?_⟩
    · simp only [Transcoder.BytesToString, h4, hstr]
    · simp only [Transcoder.StringToBytes, hp, Option.bind, ← hip, h16]
  | none =>
    obtain ⟨hp, hne, hs⟩ := ParseIP_string6 ip hlen
    have hstr : IPString ip = string6 ip := by
      unfold IPString
      rw [if_neg (by omega), if_neg (by omega), h4]
    refine ⟨string6 ip, ?_, hne, hs, ?_⟩
    · simp only [Transcoder.BytesToString, h4, hstr]
    · simp only [Transcoder.StringToBytes, hp, Option.bind, h16]

/-! ## Lemmas: base32 and the onion transcoder -/

set_option maxRecDepth 100000 in
/-- The characters of the base32 alphabet: `decodeMap` gives their index, and their
lower case is turned back by `ToUpper`; neither case is a separator, a padding
or a line break, and both are ASCII. -/
theorem encodeStd_char :
    ∀ d < 32,
      b32DecodeMap (encodeStd.getD d 0) = some d ∧
      encodeStd.getD d 0 ≠ 61 ∧ encodeStd.getD d 0 ≠ 13 ∧ encodeStd.getD d 0 ≠ 10 ∧
      ToUpper (ToLower [encodeStd.getD d 0]) = [encodeStd.getD d 0] ∧
      ToLower [encodeStd.getD d 0] ≠ [47] ∧ ToLower [encodeStd.getD d 0] ≠ [58] ∧
      ToLower [encodeStd.getD d 0] ≠ [0xc4] ∧ ToLower [encodeStd.getD d 0] ≠ [0xc5] := by
  decide

/-- Joining a multiple of a power of two with a number below that power adds them. -/
theorem lor_add (a b k : Nat) (hb : b < 2 ^ k) (ha : a % 2 ^ k = 0) : a ||| b = a + b := by
  obtain ⟨q, rfl⟩ := Nat.dvd_of_mod_eq_zero ha
  exact (Nat.mul_add_lt_is_or hb q).symm

/-- The mask of five bits. -/
theorem and_31 (x : Nat) : x &&& 0x1F = x % 32 := Nat.and_pow_two_sub_one_eq_mod x 5

/-- The blocks of a quantum of five bytes, in arithmetic. -/
theorem b32Blocks_five (s0 s1 s2 s3 s4 : UInt8) :
    b32Blocks [s0, s1, s2, s3, s4] =
      [ s0.toNat / 8, s0.toNat % 8 * 4 + s1.toNat / 64, s1.toNat / 2 % 32,
        s1.toNat % 2 * 16 + s2.toNat / 16, s2.toNat % 16 * 2 + s3.toNat / 128,
        s3.toNat / 4 % 32, s3.toNat % 4 * 8 + s4.toNat / 32, s4.toNat % 32 ] := by
  have h0 := UInt8.toNat_lt s0
  have h1 := UInt8.toNat_lt s1
  have h2 := UInt8.toNat_lt s2
  have h3 := UInt8.toNat_lt s3
  have h4 := UInt8.toNat_lt s4
  simp only [b32Blocks, List.getD_cons_zero, List.getD_cons_succ, and_31]
  have e1 : (s0.toNat <<< 2 % 32) ||| (s1.toNat >>> 6 % 32) = s0.toNat % 8 * 4 + s1.toNat / 64 := by
    rw [lor_add _ _ 2 (by omega) (by omega)]
    omega
  have e3 : (s1.toNat <<< 4 % 32) ||| (s2.toNat >>> 4 % 32) = s1.toNat % 2 * 16 + s2.toNat / 16 := by
    rw [lor_add _ _ 4 (by omega) (by omega)]
    omega
  have e4 : (s2.toNat <<< 1 % 32) ||| (s3.toNat >>> 7) = s2.toNat % 16 * 2 + s3.toNat / 128 := by
    rw [lor_add _ _ 1 (by omega) (by omega)]
    omega
  have e6 : (s3.toNat <<< 3 % 32) ||| (s4.toNat >>> 5) = s3.toNat % 4 * 8 + s4.toNat / 32 := by
    rw [lor_add _ _ 3 (by omega) (by omega)]
    omega
  have e0 : s0.toNat >>> 3 = s0.toNat / 8 := by omega
  have e2 : s1.toNat >>> 1 % 32 = s1.toNat / 2 % 32 := by omega
  have e5 : s3.toNat >>> 2 % 32 = s3.toNat / 4 % 32 := by omega
  rw [e0, e1, e2, e3, e4, e5, e6]

/-- The bytes packed out of eight blocks, in arithmetic. -/
theorem b32Pack_eight (d0 d1 d2 d3 d4 d5 d6 d7 : Nat) (h0 : d0 < 32) (h1 : d1 < 32) (h2 : d2 < 32)
    (h3 : d3 < 32) (h4 : d4 < 32) (h5 : d5 < 32) (h6 : d6 < 32) (h7 : d7 < 32) :
    b32Pack [d0, d1, d2, d3, d4, d5, d6, d7] =
      [ UInt8.ofNat (d0 * 8 + d1 / 4), UInt8.ofNat (d1 % 4 * 64 + d2 * 2 + d3 / 16),
        UInt8.ofNat (d3 % 16 * 16 + d4 / 2), UInt8.ofNat (d4 % 2 * 128 + d5 * 4 + d6 / 8),
        UInt8.ofNat (d6 % 8 * 32 + d7) ] := by
  have e0 : (d0 <<< 3 ||| d1 >>> 2) % 256 = d0 * 8 + d1 / 4 := by
    rw [lor_add _ _ 3 (by omega) (by omega)]
    omega
  have e1 : (d1 <<< 6 ||| d2 <<< 1 ||| d3 >>> 4) % 256 = d1 % 4 * 64 + d2 * 2 + d3 / 16 := by
    rw [lor_add (d1 <<< 6) _ 6 (by omega) (by omega), lor_add _ _ 1 (by omega) (by omega)]
    omega
  have e2 : (d3 <<< 4 ||| d4 >>> 1) % 256 = d3 % 16 * 16 + d4 / 2 := by
    rw [lor_add _ _ 4 (by omega) (by omega)]
    omega
  have e3 : (d4 <<< 7 ||| d5 <<< 2 ||| d6 >>> 3) % 256 = d4 % 2 * 128 + d5 * 4 + d6 / 8 := by
    rw [lor_add (d4 <<< 7) _ 7 (by omega) (by omega), lor_add _ _ 2 (by omega) (by omega)]
    omega
  have e4 : (d6 <<< 5 ||| d7) % 256 = d6 % 8 * 32 + d7 := by
    rw [lor_add _ _ 5 (by omega) (by omega)]
    omega
  simp only [b32Pack, List.getD_cons_zero, List.getD_cons_succ, List.length_cons, List.length_nil,
    e0, e1, e2, e3, e4]
  rfl

/-- Packing the blocks of five bytes gives the five bytes. -/
theorem b32Pack_Blocks (s0 s1 s2 s3 s4 : UInt8) :
    b32Pack (b32Blocks [s0, s1, s2, s3, s4]) = [s0, s1, s2, s3, s4] := by
  have h0 := UInt8.toNat_lt s0
  have h1 := UInt8.toNat_lt s1
  have h2 := UInt8.toNat_lt s2
  have h3 := UInt8.toNat_lt s3
  have h4 := UInt8.toNat_lt s4
  rw [b32Blocks_five, b32Pack_eight _ _ _ _ _ _ _ _ (by omega) (by omega) (by omega) (by omega)
    (by omega) (by omega) (by omega) (by omega)]
  have e0 : s0.toNat / 8 * 8 + (s0.toNat % 8 * 4 + s1.toNat / 64) / 4 = s0.toNat := by omega
  have e1 : (s0.toNat % 8 * 4 + s1.toNat / 64) % 4 * 64 + s1.toNat / 2 % 32 * 2 +
      (s1.toNat % 2 * 16 + s2.toNat / 16) / 16 = s1.toNat := by omega
  have e2 : (s1.toNat % 2 * 16 + s2.toNat / 16) % 16 * 16 +
      (s2.toNat % 16 * 2 + s3.toNat / 128) / 2 = s2.toNat := by omega
  have e3 : (s2.toNat % 16 * 2 + s3.toNat / 128) % 2 * 128 + s3.toNat / 4 % 32 * 4 +
      (s3.toNat % 4 * 8 + s4.toNat / 32) / 8 = s3.toNat := by omega
  have e4 : (s3.toNat % 4 * 8 + s4.toNat / 32) % 8 * 32 + s4.toNat % 32 = s4.toNat := by omega
  rw [e0, e1, e2, e3, e4]
  simp only [u8_ofNat_toNat]

/-- The blocks of a quantum are 5-bit numbers. -/
theorem b32Blocks_lt (s0 s1 s2 s3 s4 : UInt8) : ∀ d ∈ b32Blocks [s0, s1, s2, s3, s4], d < 32 := by
  have h0 := UInt8.toNat_lt s0
  have h1 := UInt8.toNat_lt s1
  have h2 := UInt8.toNat_lt s2
  have h3 := UInt8.toNat_lt s3
  have h4 := UInt8.toNat_lt s4
  intro d hd
  rw [b32Blocks_five] at hd
  simp only [List.mem_cons, List.mem_singleton, List.not_mem_nil, or_false] at hd
  rcases hd with rfl | rfl | rfl | rfl | rfl | rfl | rfl | rfl <;> omega

/-- The function `ToUpper` on a first byte that starts neither of the two runes. -/
theorem ToUpper_cons (c : UInt8) (rest : Bytes) (h1 : c ≠ 0xc4) (h2 : c ≠ 0xc5) :
    ToUpper (c :: rest) = (if 97 ≤ c ∧ c ≤ 122 then c - 32 else c) :: ToUpper rest := by
  rw [ToUpper]
  · intro r e
    exact absurd e h1
  · intro r e
    exact absurd e h2

/-- The lower case of the characters of 5-bit blocks is turned back by `ToUpper` and holds
no `/` and no `:`. -/
theorem ToUpper_ToLower_chars (ds : List Nat) (h : ∀ d ∈ ds, d < 32) :
    ToUpper (ToLower (ds.map (fun b => encodeStd.getD b 0))) = ds.map (fun b => encodeStd.getD b 0) ∧
      47 ∉ ToLower (ds.map (fun b => encodeStd.getD b 0)) ∧
      58 ∉ ToLower (ds.map (fun b => encodeStd.getD b 0)) := by
  induction ds with
  | nil => exact ⟨rfl, by simp [ToLower], by simp [ToLower]⟩
  | cons d ds ih =>
    obtain ⟨i1, i2, i3⟩ := ih (fun x hx => h x (by simp [hx]))
    obtain ⟨-, -, -, -, c5, c6, c7, c8, c9⟩ := encodeStd_char d (h d (by simp))
    simp only [ToLower, List.map_cons, List.map_nil] at c5 c6 c7 c8 c9 i1 i2 i3 ⊢
    generalize (if 65 ≤ encodeStd.getD d 0 ∧ encodeStd.getD d 0 ≤ 90 then encodeStd.getD d 0 + 32
      else encodeStd.getD d 0) = c at c5 c6 c7 c8 c9 ⊢
    have n1 : c ≠ 0xc4 := fun e => c8 (by rw [e])
    have n2 : c ≠ 0xc5 := fun e => c9 (by rw [e])
    rw [ToUpper_cons c _ n1 n2] at c5 ⊢
    refine ⟨?_, ?_, ?_⟩
    · rw [i1, (List.cons.inj c5).1]
    · intro hm
      rcases List.mem_cons.1 hm with e | e
      · exact c6 (by rw [← e])
      · exact i2 e
    · intro hm
      rcases List.mem_cons.1 hm with e | e
      · exact c7 (by rw [← e])
      · exact i3 e

/-- The inner loop of the decoder reads the characters of 5-bit blocks into `dbuf`. -/
theorem b32DecodeQuantum_chars (ds : List Nat) (h : ∀ d ∈ ds, d < 32) (k : Nat) (src : Bytes)
    (dbuf : List Nat) :
    b32DecodeQuantum (ds.length + k) (ds.map (fun b => encodeStd.getD b 0) ++ src) dbuf =
      b32DecodeQuantum k src (dbuf ++ ds) := by
  induction ds generalizing dbuf with
  | nil => simp
  | cons d ds ih =>
    obtain ⟨c1, c2, -⟩ := encodeStd_char d (h d (by simp))
    rw [List.length_cons, Nat.add_right_comm, List.map_cons, List.cons_append, b32DecodeQuantum]
    simp only [c2, false_and, if_false, c1]
    rw [ih (fun x hx => h x (by simp [hx])), List.append_assoc]
    rfl

/-- The characters of 5-bit blocks hold no line break. -/
theorem filter_chars (ds : List Nat) (h : ∀ d ∈ ds, d < 32) :
    (ds.map (fun b => encodeStd.getD b 0)).filter (fun c => c ≠ 13 ∧ c ≠ 10) =
      ds.map (fun b => encodeStd.getD b 0) := by
  rw [List.filter_eq_self]
  intro c hc
  obtain ⟨d, hd, rfl⟩ := List.mem_map.1 hc
  obtain ⟨-, -, c3, c4, -⟩ := encodeStd_char d (h d hd)
  exact decide_eq_true ⟨c3, c4⟩

/-- The eight blocks of a quantum. -/
theorem b32Blocks_length (src : Bytes) : (b32Blocks src).length = 8 := rfl

/-- Decoding the base32 text of ten bytes gives the ten bytes. -/
theorem b32_roundtrip (s0 s1 s2 s3 s4 s5 s6 s7 s8 s9 : UInt8) :
    b32EncodeToString [s0, s1, s2, s3, s4, s5, s6, s7, s8, s9] =
        (b32Blocks [s0, s1, s2, s3, s4] ++ b32Blocks [s5, s6, s7, s8, s9]).map
          (fun b => encodeStd.getD b 0) ∧
      b32DecodeString ((b32Blocks [s0, s1, s2, s3, s4] ++ b32Blocks [s5, s6, s7, s8, s9]).map
          (fun b => encodeStd.getD b 0)) = .ok [s0, s1, s2, s3, s4, s5, s6, s7, s8, s9] := by
  have hA := b32Blocks_lt s0 s1 s2 s3 s4
  have hB := b32Blocks_lt s5 s6 s7 s8 s9
  have hAB : ∀ d ∈ b32Blocks [s0, s1, s2, s3, s4] ++ b32Blocks [s5, s6, s7, s8, s9], d < 32 := by
    intro d hd
    rcases List.mem_append.1 hd with e | e
    · exact hA d e
    · exact hB d e
  refine ⟨?_, ?_⟩
  · simp [b32EncodeToString, b32EncodeLoop]
  · unfold b32DecodeString
    rw [filter_chars _ hAB]
    show b32DecodeLoop ((b32Blocks [s0, s1, s2, s3, s4] ++ b32Blocks [s5, s6, s7, s8, s9]).map
        (fun b => encodeStd.getD b 0)).length _ = _
    have hlen : ((b32Blocks [s0, s1, s2, s3, s4] ++ b32Blocks [s5, s6, s7, s8, s9]).map
        (fun b => encodeStd.getD b 0)).length = 16 := rfl
    rw [hlen, List.map_append]
    have q1 := b32DecodeQuantum_chars (b32Blocks [s0, s1, s2, s3, s4]) hA 0
      ((b32Blocks [s5, s6, s7, s8, s9]).map (fun b => encodeStd.getD b 0)) []
    have q2 := b32DecodeQuantum_chars (b32Blocks [s5, s6, s7, s8, s9]) hB 0 [] []
    rw [b32Blocks_length] at q1 q2
    rw [List.append_nil] at q2
    have n1 : (b32Blocks [s0, s1, s2, s3, s4]).map (fun b => encodeStd.getD b 0) ++
        (b32Blocks [s5, s6, s7, s8, s9]).map (fun b => encodeStd.getD b 0) ≠ [] := by
      intro e
      have := congrArg List.length e
      simp [b32Blocks_length] at this
    have n2 : (b32Blocks [s5, s6, s7, s8, s9]).map (fun b => encodeStd.getD b 0) ≠ [] := by
      intro e
      have := congrArg List.length e
      simp [b32Blocks_length] at this
    rw [b32DecodeLoop, if_neg n1, q1]
    simp only [b32DecodeQuantum, List.nil_append, Bool.false_eq_true, if_false]
    rw [b32DecodeLoop, if_neg n2, q2]
    simp only [b32DecodeQuantum, List.nil_append, Bool.false_eq_true, if_false]
    rw [b32DecodeLoop, if_pos rfl, b32Pack_Blocks, b32Pack_Blocks]
    rfl

/-- Round trip of the onion transcoder on twelve bytes with a port that is not 0. -/
theorem onion_roundtrip (b : Bytes) (hlen : b.length = 12)
    (hport : 1 ≤ (b.getD 10 0).toNat * 256 + (b.getD 11 0).toNat) :
    ∃ v, Transcoder.BytesToString .TranscoderOnion b = .ok v ∧ v ≠ [] ∧ 47 ∉ v ∧
      Transcoder.StringToBytes .TranscoderOnion v = .ok b := by
  match b, hlen with
  | [s0, s1, s2, s3, s4, s5, s6, s7, s8, s9, hi, lo], _ =>
    simp only [List.getD_cons_zero, List.getD_cons_succ] at hport
    have hhi := UInt8.toNat_lt hi
    have hlo := UInt8.toNat_lt lo
    have hA := b32Blocks_lt s0 s1 s2 s3 s4
    have hB := b32Blocks_lt s5 s6 s7 s8 s9
    have hAB : ∀ d ∈ b32Blocks [s0, s1, s2, s3, s4] ++ b32Blocks [s5, s6, s7, s8, s9], d < 32 := by
      intro d hd
      rcases List.mem_append.1 hd with e | e
      · exact hA d e
      · exact hB d e
    obtain ⟨henc, hdec⟩ := b32_roundtrip s0 s1 s2 s3 s4 s5 s6 s7 s8 s9
    obtain ⟨hup, h47, h58⟩ := ToUpper_ToLower_chars _ hAB
    have hbts : Transcoder.BytesToString .TranscoderOnion
        [s0, s1, s2, s3, s4, s5, s6, s7, s8, s9, hi, lo] =
        .ok (ToLower ((b32Blocks [s0, s1, s2, s3, s4] ++ b32Blocks [s5, s6, s7, s8, s9]).map
          (fun b => encodeStd.getD b 0)) ++ [58] ++ Itoa (hi.toNat * 256 + lo.toNat)) := by
      simp only [Transcoder.BytesToString, List.length_cons, List.length_nil]
      rw [if_neg (by omega)]
      have ht : List.take 10 [s0, s1, s2, s3, s4, s5, s6, s7, s8, s9, hi, lo] =
          [s0, s1, s2, s3, s4, s5, s6, s7, s8, s9] := rfl
      rw [ht, henc]
      rfl
    obtain ⟨ine, idig, -⟩ := Itoa_spec (hi.toNat * 256 + lo.toNat)
    refine ⟨_, hbts, by simp, ?_, ?_⟩
    · intro hm
      rcases List.mem_append.1 hm with e | e
      · rcases List.mem_append.1 e with e | e
        · exact h47 e
        · simp at e
      · exact (digit_ne 47 (idig 47 e)).1 rfl
    · have hsplit : Split (ToLower ((b32Blocks [s0, s1, s2, s3, s4] ++
          b32Blocks [s5, s6, s7, s8, s9]).map (fun b => encodeStd.getD b 0)) ++ [58] ++
          Itoa (hi.toNat * 256 + lo.toNat)) 58 =
          [ToLower ((b32Blocks [s0, s1, s2, s3, s4] ++
            b32Blocks [s5, s6, s7, s8, s9]).map (fun b => encodeStd.getD b 0)),
           Itoa (hi.toNat * 256 + lo.toNat)] := by
        rw [List.append_assoc, List.singleton_append, Split_append_sep, Split_no_sep _ _ h58,
          Split_no_sep _ _ (fun e => (digit_ne 58 (idig 58 e)).2.2.1 rfl)]
        rfl
      have hl : (ToLower ((b32Blocks [s0, s1, s2, s3, s4] ++
          b32Blocks [s5, s6, s7, s8, s9]).map (fun b => encodeStd.getD b 0))).length = 16 := rfl
      have hAt := Atoi_Itoa (hi.toNat * 256 + lo.toNat) (by omega)
      have h1 : ¬ (((hi.toNat * 256 + lo.toNat : Nat) : Int) ≥ 65536) := by omega
      have h2 : ¬ (((hi.toNat * 256 + lo.toNat : Nat) : Int) < 1) := by omega
      simp only [Transcoder.StringToBytes, hsplit, hl, ne_eq, not_true_eq_false, if_false, hup, hdec,
        hAt, h1, h2, Int.toNat_ofNat, beBytes]
      have e1 : (hi.toNat * 256 + lo.toNat) / 256 ^ 1 % 256 = hi.toNat := by omega
      have e2 : (hi.toNat * 256 + lo.toNat) / 256 ^ 0 % 256 = lo.toNat := by omega
      rw [e1, e2, u8_ofNat_toNat, u8_ofNat_toNat]
      rfl

/-! ## Lemmas: multiaddr text and components -/

/-- A mapped result is a value only when the result is one. -/
theorem Except_map_ok {α β : Type} (f : α → β) (r : Except Error α) (x : β)
    (h : r.map f = .ok x) : ∃ m, r = .ok m ∧ x = f m := by
  cases r with
  | error e => exact absurd h (by simp [Except.map])
  | ok m =>
    simp only [Except.map, Except.ok.injEq] at h
    exact ⟨m, rfl, h.symm⟩

set_option maxRecDepth 100000 in
/-- The protocol table is consistent: the code and the name of an entry find the entry,
names are not empty and hold no `/`, exactly the protocols without value
have no transcoder, and a code is a positive number that a Go `int` holds. -/
theorem Protocols_facts :
    ∀ p ∈ Protocols, ProtocolWithCode (p.Code : Int) = some p ∧
      ProtocolWithName p.Name = some p ∧ 47 ∉ p.Name ∧ p.Name ≠ [] ∧
      (p.Size = 0 ↔ p.Transcoder = none) ∧ p.Code < 2 ^ 63 := by
  decide

set_option maxRecDepth 100000 in
/-- The transcoders of the table: apart from the peer-identity protocol and the path
protocol, a protocol with a value has one of five transcoders, each with
one width. -/
theorem Protocols_transcoders :
    ∀ p ∈ Protocols, p.Path = false → p.Code ≠ P_P2P →
      p.Transcoder = none ∨
      (p.Transcoder = some .TranscoderIP4 ∧ p.Size = 32) ∨
      (p.Transcoder = some .TranscoderIP6 ∧ p.Size = 128) ∨
      (p.Transcoder = some .TranscoderIP6Zone ∧ p.Size = -1) ∨
      (p.Transcoder = some .TranscoderPort ∧ p.Size = 16) ∨
      (p.Transcoder = some .TranscoderOnion ∧ p.Size = 96) := by
  decide

/-- A protocol found by name is in the table. -/
theorem ProtocolWithName_mem (name : Bytes) (p : Protocol)
    (h : ProtocolWithName name = some p) : p ∈ Protocols := by
  unfold ProtocolWithName at h
  split at h
  · simp only [Option.some.injEq] at h
    subst h
    decide
  · exact List.mem_of_find?_eq_some h

/-- The bytes of a component followed by components. -/
theorem encodeAll_cons (c : Component) (cs : List Component) :
    encodeAll (c :: cs) = c.encode ++ encodeAll cs := by
  simp [encodeAll]

/-- The bytes of components followed by components. -/
theorem encodeAll_append (cs ds : List Component) :
    encodeAll (cs ++ ds) = encodeAll cs ++ encodeAll ds := by
  simp [encodeAll]

/-- The loop of `stringToBytes` writes the bytes of the components. -/
theorem stringToBytesLoop_components (sp : List Bytes) :
    stringToBytesLoop sp = (componentsLoop sp).map encodeAll := by
  induction sp using stringToBytesLoop.induct with
  | case1 => rfl
  | case2 seg segs hn => simp [stringToBytesLoop, componentsLoop, hn, Except.map]
  | case3 seg segs p hn hs ih =>
    simp only [stringToBytesLoop, componentsLoop, hn, hs, if_true, ih]
    cases componentsLoop segs with
    | error e => rfl
    | ok cs => simp [Except.map, encodeAll_cons, Component.encode, hs]
  | case4 seg p hn hs => simp [stringToBytesLoop, componentsLoop, hn, hs, Except.map]
  | case5 seg p hn hs v segs ht => simp [stringToBytesLoop, componentsLoop, hn, hs, ht, Except.map]
  | case6 seg p hn hs v segs t ht hpath e he =>
    simp [stringToBytesLoop, componentsLoop, hn, hs, ht, hpath, he, Except.map]
  | case7 seg p hn hs v segs t ht hpath b hb =>
    simp [stringToBytesLoop, componentsLoop, hn, hs, ht, hpath, hb, Except.map, encodeAll,
      Component.encode]
  | case8 seg p hn hs v segs t ht hpath e he =>
    simp [stringToBytesLoop, componentsLoop, hn, hs, ht, hpath, he, Except.map]
  | case9 seg p hn hs v segs t ht hpath b hb ih =>
    simp only [stringToBytesLoop, componentsLoop, hn, hs, if_false, ht, hpath, hb, ih,
      Bool.false_eq_true]
    cases componentsLoop segs with
    | error e => rfl
    | ok cs => simp [Except.map, encodeAll_cons, Component.encode]

/-- The function `NewMultiaddr` gives the bytes of the components of the text. -/
theorem NewMultiaddr_components (s : Bytes) :
    NewMultiaddr s = (stringToComponents s).map encodeAll := by
  unfold NewMultiaddr stringToBytes stringToComponents
  split
  · exact stringToBytesLoop_components _
  · rfl

/-- Every component the loop of `stringToBytes` writes is traced. -/
theorem componentsLoop_traced (sp : List Bytes) :
    ∀ cs, componentsLoop sp = .ok cs → (∀ q ∈ sp, 47 ∉ q) → ∀ c ∈ cs, c.traced := by
  induction sp using stringToBytesLoop.induct with
  | case1 =>
    intro cs h _ c hc
    simp only [componentsLoop, Except.ok.injEq] at h
    subst h
    simp at hc
  | case2 seg segs hn =>
    intro cs h
    simp [componentsLoop, hn] at h
  | case3 seg segs p hn hs ih =>
    intro cs h hq c hc
    simp only [componentsLoop, hn, hs, if_true] at h
    obtain ⟨m, hm, rfl⟩ := Except_map_ok _ _ _ h
    rcases List.mem_cons.mp hc with rfl | hc
    · exact ⟨ProtocolWithName_mem _ _ hn, Or.inl ⟨hs, rfl⟩⟩
    · exact ih m hm (fun q hq2 => hq q (by simp [hq2])) c hc
  | case4 seg p hn hs =>
    intro cs h
    simp [componentsLoop, hn, hs] at h
  | case5 seg p hn hs v segs ht =>
    intro cs h
    simp [componentsLoop, hn, hs, ht] at h
  | case6 seg p hn hs v segs t ht hpath e he =>
    intro cs h
    simp [componentsLoop, hn, hs, ht, hpath, he] at h
  | case7 seg p hn hs v segs t ht hpath b hb =>
    intro cs h _ c hc
    simp only [componentsLoop, hn, hs, if_false, ht, hpath, if_true, hb, Except.ok.injEq] at h
    subst h
    rw [List.mem_singleton] at hc
    subst hc
    exact ⟨ProtocolWithName_mem _ _ hn, Or.inr ⟨hs, t, _, ht,
      fun hp => absurd hp (by simp [hpath]), hb⟩⟩
  | case8 seg p hn hs v segs t ht hpath e he =>
    intro cs h
    simp [componentsLoop, hn, hs, ht, hpath, he] at h
  | case9 seg p hn hs v segs t ht hpath b hb ih =>
    intro cs h hq c hc
    simp only [componentsLoop, hn, hs, if_false, ht, hpath, hb, Bool.false_eq_true] at h
    obtain ⟨m, hm, rfl⟩ := Except_map_ok _ _ _ h
    rcases List.mem_cons.mp hc with rfl | hc
    · exact ⟨ProtocolWithName_mem _ _ hn, Or.inr ⟨hs, t, v, ht,
        fun _ => hq v (by simp), hb⟩⟩
    · exact ih m hm (fun q hq2 => hq q (by simp [hq2])) c hc

/-- Pieces after pieces that give components without path protocol give further
components. -/
theorem componentsLoop_append (sp : List Bytes) :
    ∀ cs, componentsLoop sp = .ok cs → (∀ c ∈ cs, c.proto.Path = false) →
      ∀ sp2, componentsLoop (sp ++ sp2) = (componentsLoop sp2).map (fun ds => cs ++ ds) := by
  induction sp using stringToBytesLoop.induct with
  | case1 =>
    intro cs h _ sp2
    simp only [componentsLoop, Except.ok.injEq] at h
    subst h
    rw [List.nil_append]
    cases componentsLoop sp2 <;> rfl
  | case2 seg segs hn =>
    intro cs h
    simp [componentsLoop, hn] at h
  | case3 seg segs p hn hs ih =>
    intro cs h hp sp2
    simp only [componentsLoop, hn, hs, if_true] at h
    obtain ⟨m, hm, rfl⟩ := Except_map_ok _ _ _ h
    have ih := ih m hm (fun c hc => hp c (by simp [hc])) sp2
    simp only [List.cons_append, componentsLoop, hn, hs, if_true, ih]
    cases componentsLoop sp2 <;> rfl
  | case4 seg p hn hs =>
    intro cs h
    simp [componentsLoop, hn, hs] at h
  | case5 seg p hn hs v segs ht =>
    intro cs h
    simp [componentsLoop, hn, hs, ht] at h
  | case6 seg p hn hs v segs t ht hpath e he =>
    intro cs h
    simp [componentsLoop, hn, hs, ht, hpath, he] at h
  | case7 seg p hn hs v segs t ht hpath b hb =>
    intro cs h hp
    simp only [componentsLoop, hn, hs, if_false, ht, hpath, if_true, hb, Except.ok.injEq] at h
    subst h
    have := hp _ (List.mem_singleton.2 rfl)
    simp only at this
    rw [this] at hpath
    exact absurd hpath (by simp)
  | case8 seg p hn hs v segs t ht hpath e he =>
    intro cs h
    simp [componentsLoop, hn, hs, ht, hpath, he] at h
  | case9 seg p hn hs v segs t ht hpath b hb ih =>
    intro cs h hp sp2
    simp only [componentsLoop, hn, hs, if_false, ht, hpath, hb, Bool.false_eq_true] at h
    obtain ⟨m, hm, rfl⟩ := Except_map_ok _ _ _ h
    have ih := ih m hm (fun c hc => hp c (by simp [hc])) sp2
    simp only [List.cons_append, componentsLoop, hn, hs, if_false, ht, hpath, hb,
      Bool.false_eq_true, ih]
    cases componentsLoop sp2 <;> rfl

/-- Every error of the loop of `stringToBytes` is allocated by `fmt.Errorf`; none is a
sentinel. -/
theorem stringToBytesLoop_error (sp : List Bytes) :
    ∀ e, stringToBytesLoop sp = .error e → ∃ msg, e = .errorsNew msg := by
  induction sp using stringToBytesLoop.induct with
  | case1 =>
    intro e h
    simp [stringToBytesLoop] at h
  | case2 seg segs hn =>
    intro e h
    simp only [stringToBytesLoop, hn, Except.error.injEq] at h
    exact ⟨_, h.symm⟩
  | case3 seg segs p hn hs ih =>
    intro e h
    simp only [stringToBytesLoop, hn, hs, if_true] at h
    cases hr : stringToBytesLoop segs with
    | error e2 =>
      rw [hr] at h
      simp only [Except.map, Except.error.injEq] at h
      subst h
      exact ih e2 hr
    | ok m =>
      rw [hr] at h
      simp [Except.map] at h
  | case4 seg p hn hs =>
    intro e h
    simp only [stringToBytesLoop, hn, hs, if_false, Except.error.injEq] at h
    exact ⟨_, h.symm⟩
  | case5 seg p hn hs v segs ht =>
    intro e h
    simp only [stringToBytesLoop, hn, hs, if_false, ht, Except.error.injEq] at h
    exact ⟨_, h.symm⟩
  | case6 seg p hn hs v segs t ht hpath e2 he =>
    intro e h
    simp only [stringToBytesLoop, hn, hs, if_false, ht, hpath, if_true, he,
      Except.error.injEq] at h
    exact ⟨_, h.symm⟩
  | case7 seg p hn hs v segs t ht hpath b hb =>
    intro e h
    simp [stringToBytesLoop, hn, hs, ht, hpath, hb] at h
  | case8 seg p hn hs v segs t ht hpath e2 he =>
    intro e h
    simp only [stringToBytesLoop, hn, hs, if_false, ht, hpath, he, Bool.false_eq_true,
      Except.error.injEq] at h
    exact ⟨_, h.symm⟩
  | case9 seg p hn hs v segs t ht hpath b hb ih =>
    intro e h
    simp only [stringToBytesLoop, hn, hs, if_false, ht, hpath, hb, Bool.false_eq_true] at h
    cases hr : stringToBytesLoop segs with
    | error e2 =>
      rw [hr] at h
      simp only [Except.map, Except.error.injEq] at h
      subst h
      exact ih e2 hr
    | ok m =>
      rw [hr] at h
      simp [Except.map] at h

/-- Every error of `NewMultiaddr` is allocated by `fmt.Errorf`. -/
theorem NewMultiaddr_error (s : Bytes) (e : Error) (h : NewMultiaddr s = .error e) :
    ∃ msg, e = .errorsNew msg := by
  unfold NewMultiaddr stringToBytes at h
  split at h
  · exact stringToBytesLoop_error _ e h
  · simp only [Except.error.injEq] at h
    exact ⟨_, h.symm⟩

/-- The pieces of a split hold no separator. -/
theorem Split_pieces (s : Bytes) (sep : UInt8) : ∀ q ∈ Split s sep, sep ∉ q := by
  induction s with
  | nil =>
    intro q hq
    simp only [Split, List.mem_singleton] at hq
    subst hq
    simp
  | cons c rest ih =>
    intro q hq
    cases hs : Split rest sep with
    | nil => exact absurd hs (Split_ne_nil rest sep)
    | cons seg segs =>
      by_cases hc : c = sep
      · subst hc
        rw [Split_cons_sep] at hq
        rcases List.mem_cons.mp hq with rfl | hq
        · simp
        · exact ih q hq
      · rw [Split_cons_ne c rest seg segs sep hc hs] at hq
        rw [hs] at ih
        rcases List.mem_cons.mp hq with rfl | hq
        · intro hm
          rcases List.mem_cons.mp hm with e | e
          · exact hc e.symm
          · exact ih seg (by simp) e
        · exact ih q (by simp [hq])

/-- A list of two elements. -/
theorem list_two {α : Type} (b : List α) (h : b.length = 2) : ∃ x y, b = [x, y] := by
  match b, h with
  | [x, y], _ => exact ⟨x, y, rfl⟩

/-- A list of four elements. -/
theorem list_four {α : Type} (b : List α) (h : b.length = 4) : ∃ x y z w, b = [x, y, z, w] := by
  match b, h with
  | [x, y, z, w], _ => exact ⟨x, y, z, w, rfl⟩

/-- The count that `binary.Uvarint` returns is at most ten. -/
theorem UvarintLoop_count (buf : Bytes) : ∀ i x s, (UvarintLoop buf i x s).2 ≤ 10 := by
  induction buf with
  | nil =>
    intro i x s
    simp [UvarintLoop]
  | cons b rest ih =>
    intro i x s
    unfold UvarintLoop
    split
    · split
      · show - ((i : Int) + 1) ≤ 10
        omega
      · rename_i h
        show (i : Int) + 1 ≤ 10
        omega
    · exact ih _ _ _

/-- What the helper `uvarint` leaves of the buffer is at most ten bytes shorter. -/
theorem uvarint_length (buf rest : Bytes) (n : Nat) (h : uvarint buf = .ok (n, rest)) :
    buf.length ≤ rest.length + 10 := by
  unfold uvarint at h
  have hc := UvarintLoop_count buf 0 0 0
  simp only [Uvarint] at h
  split at h
  · exact absurd h (by simp)
  · split at h
    · exact absurd h (by simp)
    · simp only [Except.ok.injEq, Prod.mk.injEq] at h
      rw [← h.2, List.length_drop]
      omega

/-- A well-formed multihash has a length that a Go `int` holds. -/
theorem Cast_length (P m : Bytes) (h : Cast P = .ok m) : P.length < 2 ^ 63 := by
  unfold Cast at h
  split at h
  · exact absurd h (by simp)
  · split at h
    · exact absurd h (by simp)
    · rename_i code buf1 h1
      split at h
      · exact absurd h (by simp)
      · rename_i len digest h2
        have l1 := uvarint_length _ _ _ h1
        have l2 := uvarint_length _ _ _ h2
        split at h
        · exact absurd h (by simp)
        · rename_i hl
          split at h
          · exact absurd h (by simp)
          · rename_i hd
            simp only [ne_eq, Decidable.not_not] at hd
            omega

/-- What the onion transcoder makes of a text: a host and a port that is not 0. -/
theorem onionStB_ok (v a : Bytes) (h : Transcoder.StringToBytes .TranscoderOnion v = .ok a) :
    ∃ host : Bytes, ∃ n : Nat, a = host ++ beBytes 2 n ∧ 1 ≤ n ∧ n < 65536 := by
  simp only [Transcoder.StringToBytes] at h
  split at h
  · split at h
    · exact absurd h (by simp)
    · split at h
      · exact absurd h (by simp)
      · rename_i hostBytes _
        split at h
        · exact absurd h (by simp)
        · rename_i i _
          split at h
          · exact absurd h (by simp)
          · split at h
            · exact absurd h (by simp)
            · simp only [Except.ok.injEq] at h
              exact ⟨hostBytes, i.toNat, h.symm, by omega, by omega⟩
  · exact absurd h (by simp)

/-- Round trip of the transcoder of a component: the text of the value bytes is not
empty, holds no `/` and is turned into the value bytes again.  The component
is one that `stringToBytes` writes, has the width of its protocol, a
value, and is neither a peer identity nor a path. -/
theorem transcoder_roundtrip (c : Component) (ht : c.traced) (hw : c.wellSized = true)
    (hc : c.proto.Code ≠ P_P2P) (hp : c.proto.Path = false) (hs : c.proto.Size ≠ 0) :
    ∃ t v, c.proto.Transcoder = some t ∧ t.BytesToString c.value = .ok v ∧ v ≠ [] ∧ 47 ∉ v ∧
      t.StringToBytes v = .ok c.value := by
  obtain ⟨hm, htr⟩ := ht
  rcases htr with ⟨h0, _⟩ | ⟨_, t, v0, htc, hv0, hstb⟩
  · exact absurd h0 hs
  have hv0 := hv0 hp
  unfold Component.wellSized at hw
  rcases Protocols_transcoders c.proto hm hp hc with h | ⟨h, hsz⟩ | ⟨h, hsz⟩ | ⟨h, hsz⟩ |
    ⟨h, hsz⟩ | ⟨h, hsz⟩
  · rw [h] at htc
    exact absurd htc (by simp)
  · have hlen : c.value.length = 4 := by
      simp only [hsz] at hw
      simp at hw
      omega
    obtain ⟨x, y, z, w, e⟩ := list_four _ hlen
    obtain ⟨v, h1, h2, h3, h4⟩ := ip4_roundtrip x y z w
    rw [e]
    exact ⟨_, v, h, h1, h2, h3, h4⟩
  · have hlen : c.value.length = 16 := by
      simp only [hsz] at hw
      simp at hw
      omega
    obtain ⟨v, h1, h2, h3, h4⟩ := ip6_roundtrip c.value hlen
    exact ⟨_, v, h, h1, h2, h3, h4⟩
  · rw [h] at htc
    simp only [Option.some.injEq] at htc
    subst htc
    simp only [Transcoder.StringToBytes] at hstb
    split at hstb
    · exact absurd hstb (by simp)
    · rename_i hne
      simp only [Except.ok.injEq] at hstb
      rw [← hstb]
      refine ⟨_, v0, h, ?_, ?_, hv0, ?_⟩
      · simp [Transcoder.BytesToString, hne]
      · intro e
        exact hne (by rw [e]; rfl)
      · simp [Transcoder.StringToBytes, hne]
  · have hlen : c.value.length = 2 := by
      simp only [hsz] at hw
      simp at hw
      omega
    obtain ⟨x, y, e⟩ := list_two _ hlen
    obtain ⟨v, h1, h2, h3, h4⟩ := port_roundtrip x y
    rw [e]
    exact ⟨_, v, h, h1, h2, h3, h4⟩
  · have hlen : c.value.length = 12 := by
      simp only [hsz] at hw
      simp at hw
      omega
    rw [h] at htc
    simp only [Option.some.injEq] at htc
    subst htc
    obtain ⟨host, n, e, hn1, hn2⟩ := onionStB_ok v0 _ hstb
    have hport : 1 ≤ (c.value.getD 10 0).toNat * 256 + (c.value.getD 11 0).toNat := by
      rw [e] at hlen ⊢
      have hh : host.length = 10 := by
        simp [beBytes] at hlen
        omega
      have g10 : (host ++ beBytes 2 n).getD 10 0 = UInt8.ofNat (n / 256 ^ 1 % 256) := by
        rw [List.getD_append_right _ _ _ _ (by omega), hh]
        rfl
      have g11 : (host ++ beBytes 2 n).getD 11 0 = UInt8.ofNat (n / 256 ^ 0 % 256) := by
        rw [List.getD_append_right _ _ _ _ (by omega), hh]
        rfl
      rw [g10, g11, u8_toNat_ofNat _ (Nat.mod_lt _ (by omega)),
        u8_toNat_ofNat _ (Nat.mod_lt _ (by omega))]
      omega
    obtain ⟨v, h1, h2, h3, h4⟩ := onion_roundtrip c.value hlen hport
    exact ⟨_, v, h, h1, h2, h3, h4⟩

/-! ## Lemmas: the bytes of components, read again -/

/-- The bytes of a component start with the code, at least one byte. -/
theorem encode_length (c : Component) : 1 ≤ c.encode.length := by
  have := PutUvarintLoop_length 9 (c.proto.Code % 2 ^ 64)
  simp only [Component.encode, CodeToVarint, PutUvarint, List.length_append]
  omega

/-- The bytes of components are at least as many as the components. -/
theorem encodeAll_length (cs : List Component) : cs.length ≤ (encodeAll cs).length := by
  induction cs with
  | nil => simp
  | cons c cs ih =>
    have := encode_length c
    rw [encodeAll_cons, List.length_append, List.length_cons]
    omega

/-- The head of the bytes of a component of the table with the width of its protocol, as
the readers see it: the code of `n` bytes finds the protocol, `sizeForAddr`
gives the length prefix of `k` bytes and the length of the value, and the
value follows. -/
theorem encode_header (c : Component) (rest : Bytes) (hm : c.proto ∈ Protocols)
    (hw : c.wellSized = true) :
    ∃ n k : Nat, ReadVarintCode (c.encode ++ rest) = .ok ((c.proto.Code : Int), n) ∧
      ProtocolWithCode (c.proto.Code : Int) = some c.proto ∧
      sizeForAddr c.proto ((c.encode ++ rest).drop n) = .ok (k, (c.value.length : Int)) ∧
      ((c.encode ++ rest).drop n).drop k = c.value ++ rest ∧
      c.encode.length = n + k + c.value.length ∧
      (c.proto.Size = 0 → (c.encode ++ rest).drop n = rest) := by
  obtain ⟨hcode, -, -, -, -, hlt⟩ := Protocols_facts c.proto hm
  unfold Component.wellSized at hw
  by_cases hneg : c.proto.Size < 0
  · simp only [hneg, if_true, decide_eq_true_eq] at hw
    have hshape : c.encode ++ rest =
        CodeToVarint c.proto.Code ++ (CodeToVarint c.value.length ++ (c.value ++ rest)) := by
      simp [Component.encode, hneg]
    obtain ⟨r1, -⟩ := ReadVarintCode_CodeToVarint c.proto.Code
      (CodeToVarint c.value.length ++ (c.value ++ rest)) hlt
    obtain ⟨r2, -⟩ := ReadVarintCode_CodeToVarint c.value.length (c.value ++ rest) hw
    refine ⟨(CodeToVarint c.proto.Code).length, (CodeToVarint c.value.length).length, ?_, hcode,
      ?_, ?_, ?_, ?_⟩
    · rw [hshape, r1]
    · rw [hshape, List.drop_left]
      have h1 : ¬ c.proto.Size > 0 := by omega
      have h2 : ¬ c.proto.Size = 0 := by omega
      simp only [sizeForAddr, h1, h2, if_false, r2]
    · rw [hshape, List.drop_left, List.drop_left]
    · simp [Component.encode, hneg]
      omega
    · intro h0
      omega
  · simp only [hneg, if_false, decide_eq_true_eq] at hw
    have hshape : c.encode ++ rest = CodeToVarint c.proto.Code ++ (c.value ++ rest) := by
      simp [Component.encode, hneg]
    obtain ⟨r1, -⟩ := ReadVarintCode_CodeToVarint c.proto.Code (c.value ++ rest) hlt
    refine ⟨(CodeToVarint c.proto.Code).length, 0, ?_, hcode, ?_, ?_, ?_, ?_⟩
    · rw [hshape, r1]
    · rw [hshape, List.drop_left]
      by_cases hpos : c.proto.Size > 0
      · have : c.proto.Size / 8 = (c.value.length : Int) := by omega
        simp only [sizeForAddr, hpos, if_true, this]
      · have h0 : c.proto.Size = 0 := by omega
        have : (c.value.length : Int) = 0 := by omega
        simp only [sizeForAddr, hpos, h0, if_false, if_true, this, lt_self_iff_false, gt_iff_lt]
    · rw [hshape, List.drop_left, List.drop_zero]
    · simp [Component.encode, hneg]
    · intro h0
      have : c.value = [] := List.length_eq_zero.1 (by omega)
      rw [hshape, List.drop_left, this, List.nil_append]

/-- The loop of `bytesSplit` cuts off the bytes of a component. -/
theorem bytesSplitLoop_encode (c : Component) (rest : Bytes) (fuel : Nat)
    (hm : c.proto ∈ Protocols) (hw : c.wellSized = true) :
    bytesSplitLoop (fuel + 1) (c.encode ++ rest) =
      (bytesSplitLoop fuel rest).map (fun r => c.encode :: r) := by
  obtain ⟨n, k, h1, h2, h3, h4, h5, -⟩ := encode_header c rest hm hw
  have hne : c.encode ++ rest ≠ [] := by
    intro e
    have := congrArg List.length e
    have := encode_length c
    simp only [List.length_append, List.length_nil] at *
    omega
  have hlen : ((n : Int) + (k : Int) + (c.value.length : Int)).toNat = c.encode.length := by
    omega
  have hc : ¬ ((n : Int) + (k : Int) + (c.value.length : Int) < 0 ∨
      ((c.encode ++ rest).length : Int) < (n : Int) + (k : Int) + (c.value.length : Int)) := by
    rw [List.length_append]
    omega
  rw [bytesSplitLoop, if_neg hne]
  simp only [h1, h2, h3, hc, if_false, hlen, List.drop_left, List.take_left]

/-- The loop of `Protocols` reads the protocol of a component. -/
theorem ProtocolsLoop_encode (c : Component) (rest : Bytes) (fuel : Nat)
    (hm : c.proto ∈ Protocols) (hw : c.wellSized = true) :
    ProtocolsLoop (fuel + 1) (c.encode ++ rest) =
      (ProtocolsLoop fuel rest).map (fun r => c.proto :: r) := by
  obtain ⟨n, k, h1, h2, h3, h4, h5, -⟩ := encode_header c rest hm hw
  have hne : c.encode ++ rest ≠ [] := by
    intro e
    have := congrArg List.length e
    have := encode_length c
    simp only [List.length_append, List.length_nil] at *
    omega
  have hskip : ((k : Int) + (c.value.length : Int)).toNat = k + c.value.length := by omega
  have hl : ((c.encode ++ rest).drop n).length = k + c.value.length + rest.length := by
    rw [List.length_drop, List.length_append]
    omega
  have hc : ¬ ((k : Int) + (c.value.length : Int) < 0 ∨
      ((((c.encode ++ rest).drop n).length : Nat) : Int) < (k : Int) + (c.value.length : Int)) := by
    rw [hl]
    omega
  have hd : ((c.encode ++ rest).drop n).drop (k + c.value.length) = rest := by
    rw [← List.drop_drop, h4, List.drop_left]
  rw [ProtocolsLoop, if_neg hne]
  simp only [h1, h2, h3, hc, if_false, hskip, hd]

/-- The loop of `bytesToString` writes the name of a component without value. -/
theorem bytesToStringLoop_flag (c : Component) (rest : Bytes) (fuel : Nat)
    (hm : c.proto ∈ Protocols) (hw : c.wellSized = true) (hs : c.proto.Size = 0) :
    bytesToStringLoop (fuel + 1) (c.encode ++ rest) =
      (bytesToStringLoop fuel rest).map (fun r => 47 :: c.proto.Name ++ r) := by
  obtain ⟨n, k, h1, h2, -, -, -, h6⟩ := encode_header c rest hm hw
  have hne : c.encode ++ rest ≠ [] := by
    intro e
    have := congrArg List.length e
    have := encode_length c
    simp only [List.length_append, List.length_nil] at *
    omega
  rw [bytesToStringLoop, if_neg hne]
  simp only [h1, h2, hs, if_true, h6 hs]

/-- The loop of `bytesToString` writes the name and the text of the value of a component
that is not a path and whose text is not empty. -/
theorem bytesToStringLoop_value (c : Component) (rest : Bytes) (fuel : Nat) (t : Transcoder)
    (a : Bytes) (hm : c.proto ∈ Protocols) (hw : c.wellSized = true) (hs : c.proto.Size ≠ 0)
    (hp : c.proto.Path = false) (ht : c.proto.Transcoder = some t)
    (ha : t.BytesToString c.value = .ok a) (hne2 : a ≠ []) :
    bytesToStringLoop (fuel + 1) (c.encode ++ rest) =
      (bytesToStringLoop fuel rest).map (fun r => 47 :: c.proto.Name ++ (47 :: a) ++ r) := by
  obtain ⟨n, k, h1, h2, h3, h4, h5, -⟩ := encode_header c rest hm hw
  have hne : c.encode ++ rest ≠ [] := by
    intro e
    have := congrArg List.length e
    have := encode_length c
    simp only [List.length_append, List.length_nil] at *
    omega
  have hc : ¬ ((((c.value ++ rest).length : Nat) : Int) < (c.value.length : Int) ∨
      (c.value.length : Int) < 0) := by
    rw [List.length_append]
    omega
  have hpos : a.length > 0 := List.length_pos.mpr hne2
  rw [bytesToStringLoop, if_neg hne]
  simp only [h1, h2, hs, if_false, h3, h4, hc, ht, Int.toNat_ofNat, List.take_left, ha, hp,
    Bool.false_eq_true, hpos, if_true, List.drop_left]

/-- The loops of the readers stop at the end of the bytes. -/
theorem loops_nil (fuel : Nat) :
    bytesSplitLoop fuel [] = .ok [] ∧ ProtocolsLoop fuel [] = .ok [] ∧
      bytesToStringLoop fuel [] = .ok [] := by
  cases fuel <;> exact ⟨rfl, rfl, rfl⟩

/-- The function `ma.Split` cuts the bytes of components of the table, each with the width
of its protocol, into the bytes of each component. -/
theorem maSplit_components (cs : List Component)
    (h : ∀ c ∈ cs, c.proto ∈ Protocols ∧ c.wellSized = true) :
    maSplit (encodeAll cs) = .ok (cs.map Component.encode) := by
  have hloop : ∀ (ds : List Component), (∀ c ∈ ds, c.proto ∈ Protocols ∧ c.wellSized = true) →
      ∀ fuel, bytesSplitLoop (ds.length + fuel) (encodeAll ds) = .ok (ds.map Component.encode) := by
    intro ds
    induction ds with
    | nil =>
      intro _ fuel
      exact (loops_nil _).1
    | cons c ds ih =>
      intro hds fuel
      obtain ⟨hm, hw⟩ := hds c (by simp)
      have e : (c :: ds).length + fuel = (ds.length + fuel) + 1 := by
        rw [List.length_cons]
        omega
      rw [e, encodeAll_cons, bytesSplitLoop_encode c _ _ hm hw,
        ih (fun x hx => hds x (by simp [hx])) fuel]
      rfl
  have hl := encodeAll_length cs
  obtain ⟨m, hm⟩ := Nat.exists_eq_add_of_le hl
  unfold maSplit bytesSplit
  rw [hm, hloop cs h m]

/-- The method `Protocols` on the bytes of one component gives the protocol of the
component. -/
theorem Protocols_encode (c : Component) (hm : c.proto ∈ Protocols) (hw : c.wellSized = true) :
    Multiaddr.Protocols c.encode = .ok [c.proto] := by
  have hl := encode_length c
  obtain ⟨m, hm2⟩ := Nat.exists_eq_add_of_le hl
  unfold Multiaddr.Protocols
  have e : c.encode = c.encode ++ [] := (List.append_nil _).symm
  rw [hm2, Nat.add_comm, e, ProtocolsLoop_encode c [] m hm hw, (loops_nil m).2.1]
  rfl

/-- The text of components that are neither a peer identity nor a path: pieces that are
not empty and hold no `/`, each after a `/`; the loop of `stringToBytes`
turns the pieces into the components again. -/
theorem bytesToStringLoop_components (cs : List Component)
    (h : ∀ c ∈ cs, c.traced ∧ c.wellSized = true ∧ c.proto.Code ≠ P_P2P ∧ c.proto.Path = false) :
    ∃ ps : List Bytes, (∀ p ∈ ps, 47 ∉ p ∧ p ≠ []) ∧ componentsLoop ps = .ok cs ∧
      ∀ fuel rest, bytesToStringLoop (cs.length + fuel) (encodeAll cs ++ rest) =
        (bytesToStringLoop fuel rest).map (fun r => ps.flatMap (fun p => 47 :: p) ++ r) := by
  induction cs with
  | nil =>
    refine ⟨[], by simp, rfl, ?_⟩
    intro fuel rest
    simp only [List.length_nil, Nat.zero_add, encodeAll, List.map_nil, List.flatten_nil,
      List.nil_append, List.flatMap_nil]
    cases bytesToStringLoop fuel rest <;> rfl
  | cons c cs ih =>
    obtain ⟨ps, hps, hloop, hstr⟩ := ih (fun x hx => h x (by simp [hx]))
    obtain ⟨htr, hw, hc, hp⟩ := h c (by simp)
    have hm := htr.1
    obtain ⟨-, hname, hslash, hne, -, -⟩ := Protocols_facts c.proto hm
    have e : ∀ fuel, (c :: cs).length + fuel = (cs.length + fuel) + 1 := by
      intro fuel
      rw [List.length_cons]
      omega
    by_cases hs : c.proto.Size = 0
    · have hval : c.value = [] := by
        rcases htr.2 with ⟨_, hv⟩ | ⟨hs2, _⟩
        · exact hv
        · exact absurd hs hs2
      refine ⟨c.proto.Name :: ps, ?_, ?_, ?_⟩
      · intro q hq
        rcases List.mem_cons.mp hq with rfl | hq
        · exact ⟨hslash, hne⟩
        · exact hps q hq
      · simp only [componentsLoop, hname, hs, if_true, hloop, Except.map]
        rw [← hval]
      · intro fuel rest
        rw [e, encodeAll_cons, List.append_assoc, bytesToStringLoop_flag c _ _ hm hw hs, hstr]
        cases bytesToStringLoop fuel rest with
        | error _ => rfl
        | ok r => simp [Except.map]
    · obtain ⟨t, v, ht, hbts, hvne, hvslash, hstb⟩ := transcoder_roundtrip c htr hw hc hp hs
      refine ⟨c.proto.Name :: v :: ps, ?_, ?_, ?_⟩
      · intro q hq
        rcases List.mem_cons.mp hq with rfl | hq
        · exact ⟨hslash, hne⟩
        · rcases List.mem_cons.mp hq with rfl | hq
          · exact ⟨hvslash, hvne⟩
          · exact hps q hq
      · simp only [componentsLoop, hname, hs, if_false, ht, hp, Bool.false_eq_true, hstb, hloop,
          Except.map]
      · intro fuel rest
        rw [e, encodeAll_cons, List.append_assoc,
          bytesToStringLoop_value c _ _ t v hm hw hs hp ht hbts hvne, hstr]
        cases bytesToStringLoop fuel rest with
        | error _ => rfl
        | ok r => simp [Except.map]

/-- The function `TrimRight` leaves the text of pieces unchanged. -/
theorem TrimRight_flatMap (ps : List Bytes) (h : ∀ p ∈ ps, 47 ∉ p ∧ p ≠ []) :
    TrimRight (ps.flatMap (fun p => 47 :: p)) 47 = ps.flatMap (fun p => 47 :: p) := by
  rcases List.eq_nil_or_concat ps with rfl | ⟨qs, q, rfl⟩
  · rfl
  · obtain ⟨hq1, hq2⟩ := h q (by simp)
    have : (qs.concat q).flatMap (fun p => 47 :: p) =
        (qs.flatMap (fun p => 47 :: p) ++ [47]) ++ q := by
      simp [List.concat_eq_append, List.flatMap_append]
    rw [this]
    exact TrimRight_append_piece _ q 47 hq2 hq1

/-- The function `ValueForProtocol` finds no peer identity in an address without one. -/
theorem ValueForProtocol_noP2P (a : Multiaddr) (h : noP2P a = true) :
    ValueForProtocol a P_P2P = .error .ErrProtocolNotFound := by
  unfold noP2P at h
  unfold ValueForProtocol
  split at h
  · exact absurd h (by simp)
  · rename_i subs hsubs
    clear hsubs
    induction subs with
    | nil => rfl
    | cons sub rest ih =>
      rw [List.all_cons, Bool.and_eq_true] at h
      obtain ⟨h1, h2⟩ := h
      unfold valueForProtocolLoop
      split at h1
      · rename_i p ps hp
        rw [hp]
        simp only [decide_eq_true_eq] at h1
        simp only [h1, if_false]
        exact ih h2
      · exact absurd h1 (by simp)

/-! ## Lemmas: ParseBootstrapPeer -/

theorem str_slash_p2p : str "/p2p/" = [47, 112, 50, 112, 47] := by decide

theorem str_slash_ipfs : str "/ipfs/" = [47, 105, 112, 102, 115, 47] := by decide

theorem str_p2p : str "p2p" = [112, 50, 112] := by decide

theorem str_ipfs : str "ipfs" = [105, 112, 102, 115] := by decide

/-- The method `String` gives the text when `bytesToString` succeeds. -/
theorem String_ok (m : Multiaddr) (s : Bytes) (h : bytesToString m = .ok s) :
    Multiaddr.String m = .ok s := by
  unfold Multiaddr.String
  rw [h]

/-- The function `bytesToString` with the fuel of the length of the bytes, from a result for
every fuel above a bound. -/
theorem bytesToString_fuel (b : Bytes) (n : Nat) (r : Except Error Bytes) (hl : n ≤ b.length)
    (h : ∀ m, bytesToStringLoop (n + m) b = r) : bytesToString b = r := by
  obtain ⟨m, hm⟩ := Nat.exists_eq_add_of_le hl
  unfold bytesToString
  rw [hm]
  exact h m

/-- The function `ValueForProtocol` runs its loop over the components. -/
theorem ValueForProtocol_ok (m : Multiaddr) (subs : List Multiaddr) (code : Nat)
    (h : maSplit m = .ok subs) : ValueForProtocol m code = valueForProtocolLoop subs code := by
  unfold ValueForProtocol
  rw [h]

/-- The loop of `ValueForProtocol` passes a component of another protocol. -/
theorem valueForProtocolLoop_skip (sub : Multiaddr) (rest : List Multiaddr) (code : Nat)
    (p : Protocol) (ps : List Protocol) (hp : sub.Protocols = .ok (p :: ps))
    (hc : p.Code ≠ code) :
    valueForProtocolLoop (sub :: rest) code = valueForProtocolLoop rest code := by
  rw [valueForProtocolLoop, hp]
  simp only [hc, if_false]

/-- The loop of `ValueForProtocol` stops at a component of the protocol that has a value. -/
theorem valueForProtocolLoop_hit (sub : Multiaddr) (rest : List Multiaddr) (code : Nat)
    (p : Protocol) (ps : List Protocol) (s : Bytes) (hp : sub.Protocols = .ok (p :: ps))
    (hc : p.Code = code) (hs : p.Size ≠ 0) (hstr : sub.String = .ok s) :
    valueForProtocolLoop (sub :: rest) code = SplitN3Index2 s := by
  rw [valueForProtocolLoop, hp]
  simp only [hc, if_true, hs, if_false, hstr]

/-- The method `Decapsulate` parses the text up to the last occurrence. -/
theorem Decapsulate_ok (m o ma : Multiaddr) (s1 s2 : Bytes) (i : Nat)
    (h1 : m.String = .ok s1) (h2 : o.String = .ok s2) (h3 : LastIndex s1 s2 = some i)
    (h4 : NewMultiaddr (s1.take i) = .ok ma) : Decapsulate m (some o) = .ok ma := by
  unfold Decapsulate
  rw [h1]
  simp only [h2, h3, h4]

/-- The steps of `ParseBootstrapPeer` on an address with an identity. -/
theorem ParseBootstrapPeer_ok (addr pid peerid : Bytes) (a t target : Multiaddr)
    (h1 : NewMultiaddr addr = .ok a) (h2 : ValueForProtocol a P_P2P = .ok pid)
    (h3 : IDB58Decode pid = .ok peerid)
    (h4 : NewMultiaddr (str "/p2p/" ++ IDB58Encode peerid) = .ok t)
    (h5 : Decapsulate a (some t) = .ok target) :
    ParseBootstrapPeer addr = .ok { ID := peerid, Addrs := [target] } := by
  unfold ParseBootstrapPeer
  rw [h1]
  simp only [h2, h3, h4, Except.toOption, h5]

/-- The peer-identity component of a well-formed multihash is of the table and has a
length that a Go `int` holds. -/
theorem p2p_component (P : Bytes) (hP : Cast P = .ok P) :
    (({ proto := protoP2P, value := P } : Component).proto ∈ Protocols) ∧
      ({ proto := protoP2P, value := P } : Component).wellSized = true := by
  refine ⟨(by decide : protoP2P ∈ Protocols), ?_⟩
  have := Cast_length P P hP
  have hneg : protoP2P.Size < 0 := by decide
  simp only [Component.wellSized, hneg, if_true, decide_eq_true_eq]
  exact this

/-- The pieces `p2p` and the base58 identity give the peer-identity component. -/
theorem componentsLoop_p2p (P : Bytes) (hP : Cast P = .ok P) :
    componentsLoop [str "p2p", b58Encode P] = .ok [{ proto := protoP2P, value := P }] := by
  have hn : ProtocolWithName (str "p2p") = some protoP2P := by decide
  have hs : ¬ protoP2P.Size = 0 := by decide
  have ht : protoP2P.Transcoder = some .TranscoderP2P := rfl
  have hp : protoP2P.Path = false := rfl
  simp only [componentsLoop, hn, hs, if_false, ht, hp, Bool.false_eq_true,
    Transcoder.StringToBytes, FromB58String_encode P hP, Except.map]

/-- The loop of `bytesToString` on a peer-identity component: `/ipfs/` and the base58
identity. -/
theorem bytesToStringLoop_p2p (P : Bytes) (hP : Cast P = .ok P) (m : Nat) :
    bytesToStringLoop (m + 1) (({ proto := protoP2P, value := P } : Component).encode) =
      .ok (str "/ipfs/" ++ b58Encode P) := by
  obtain ⟨hm, hw⟩ := p2p_component P hP
  have hne := (b58Decode_encode P (Cast_ok P P hP).2).2.1
  have hbts : Transcoder.BytesToString .TranscoderP2P
      ({ proto := protoP2P, value := P } : Component).value = .ok (b58Encode P) := by
    simp [Transcoder.BytesToString, hP]
  have hv := bytesToStringLoop_value ({ proto := protoP2P, value := P } : Component) [] m
    .TranscoderP2P (b58Encode P) hm hw (by decide : protoP2P.Size ≠ 0) rfl rfl hbts hne
  rw [List.append_nil, (loops_nil m).2.2] at hv
  rw [hv]
  simp [Except.map, protoP2P, str_slash_ipfs, str_ipfs]

/-- The text of components followed by a peer-identity component ends in `/ipfs/` and the
base58 identity. -/
theorem bytesToString_append_p2p (cs : List Component) (ps : List Bytes) (P : Bytes)
    (hP : Cast P = .ok P)
    (hstr : ∀ fuel rest, bytesToStringLoop (cs.length + fuel) (encodeAll cs ++ rest) =
        (bytesToStringLoop fuel rest).map (fun r => ps.flatMap (fun p => 47 :: p) ++ r)) :
    Multiaddr.String (encodeAll cs ++ ({ proto := protoP2P, value := P } : Component).encode) =
      .ok (ps.flatMap (fun p => 47 :: p) ++ (str "/ipfs/" ++ b58Encode P)) := by
  have hl1 := encodeAll_length cs
  have hl2 := encode_length ({ proto := protoP2P, value := P } : Component)
  refine String_ok _ _ (bytesToString_fuel _ (cs.length + 1) _ ?_ ?_)
  · rw [List.length_append]
    omega
  · intro m
    have hv := bytesToStringLoop_p2p P hP m
    rw [Nat.add_assoc, hstr, Nat.add_comm 1 m, hv]
    rfl

/-- The text of a peer-identity component is `/ipfs/` and the base58 identity. -/
theorem String_p2p (P : Bytes) (hP : Cast P = .ok P) :
    Multiaddr.String (({ proto := protoP2P, value := P } : Component).encode) =
      .ok (str "/ipfs/" ++ b58Encode P) := by
  have hl2 := encode_length ({ proto := protoP2P, value := P } : Component)
  refine String_ok _ _ (bytesToString_fuel _ 1 _ hl2 ?_)
  intro m
  rw [Nat.add_comm 1 m]
  exact bytesToStringLoop_p2p P hP m

/-- The value `strings.SplitN(s, "/", 3)[2]` of `/ipfs/<identity>` is the identity. -/
theorem SplitN3Index2_ipfs (X : Bytes) : SplitN3Index2 (str "/ipfs/" ++ X) = .ok X := by
  have hshape : str "/ipfs/" ++ X = 47 :: (str "ipfs" ++ 47 :: X) := by
    simp [str_slash_ipfs, str_ipfs]
  have h1 : IndexByte (47 :: (str "ipfs" ++ 47 :: X)) 47 = some 0 := by simp [IndexByte]
  have h2 : IndexByte (str "ipfs" ++ 47 :: X) 47 = some 4 :=
    IndexByte_piece (str "ipfs") X 47 (by decide)
  rw [hshape]
  simp only [SplitN3Index2, h1, zero_add, List.drop_succ_cons, List.drop_zero, h2]
  simp [str_ipfs]

/-- The function `ValueForProtocol` finds the identity appended to components without one. -/
theorem ValueForProtocol_append_p2p (cs : List Component) (P : Bytes)
    (h : ∀ c ∈ cs, c.proto ∈ Protocols ∧ c.wellSized = true ∧ c.proto.Code ≠ P_P2P)
    (hP : Cast P = .ok P) :
    ValueForProtocol (encodeAll cs ++ ({ proto := protoP2P, value := P } : Component).encode)
      P_P2P = .ok (b58Encode P) := by
  obtain ⟨hm, hw⟩ := p2p_component P hP
  have hall : ∀ c ∈ cs ++ [({ proto := protoP2P, value := P } : Component)],
      c.proto ∈ Protocols ∧ c.wellSized = true := by
    intro c hc
    rcases List.mem_append.1 hc with e | e
    · exact ⟨(h c e).1, (h c e).2.1⟩
    · rw [List.mem_singleton] at e
      subst e
      exact ⟨hm, hw⟩
  have hsplit := maSplit_components _ hall
  have hshape : encodeAll (cs ++ [({ proto := protoP2P, value := P } : Component)]) =
      encodeAll cs ++ ({ proto := protoP2P, value := P } : Component).encode := by
    rw [encodeAll_append, encodeAll_cons]
    have e : encodeAll [] = [] := rfl
    rw [e, List.append_nil]
  rw [hshape, List.map_append, List.map_cons, List.map_nil] at hsplit
  rw [ValueForProtocol_ok _ _ _ hsplit]
  clear hsplit hshape hall
  induction cs with
  | nil =>
    rw [List.map_nil, List.nil_append,
      valueForProtocolLoop_hit _ _ P_P2P _ _ _ (Protocols_encode _ hm hw) rfl
        (by decide : protoP2P.Size ≠ 0) (String_p2p P hP)]
    exact SplitN3Index2_ipfs _
  | cons c rest ih =>
    obtain ⟨h1, h2, h3⟩ := h c (by simp)
    have ih := ih (fun x hx => h x (by simp [hx]))
    rw [List.map_cons, List.cons_append,
      valueForProtocolLoop_skip _ _ _ _ _ (Protocols_encode c h1 h2) h3]
    exact ih

/-- What `stringToComponents` accepts: the text splits into an empty piece and pieces that
give the components. -/
theorem stringToComponents_ok (s : Bytes) (cs : List Component)
    (h : stringToComponents s = .ok cs) :
    ∃ sp, Split (TrimRight s 47) 47 = [] :: sp ∧ componentsLoop sp = .ok cs := by
  unfold stringToComponents at h
  split at h
  · rename_i sp hsp
    exact ⟨sp, hsp, h⟩
  · exact absurd h (by simp)

/-- The components of a text are traced. -/
theorem stringToComponents_traced (s : Bytes) (cs : List Component)
    (h : stringToComponents s = .ok cs) : ∀ c ∈ cs, c.traced := by
  obtain ⟨sp, hsp, hloop⟩ := stringToComponents_ok s cs h
  refine componentsLoop_traced sp cs hloop ?_
  intro q hq
  exact Split_pieces (TrimRight s 47) 47 q (by rw [hsp]; simp [hq])

/-- Appending `/p2p/<identity>` to a text that does not end in `/` and whose components
hold no path appends the peer-identity component. -/
theorem NewMultiaddr_append_p2p (s : Bytes) (cs : List Component) (P : Bytes)
    (hs : stringToComponents s = .ok cs) (htrim : TrimRight s 47 = s)
    (hpath : ∀ c ∈ cs, c.proto.Path = false) (hP : Cast P = .ok P) :
    NewMultiaddr (s ++ str "/p2p/" ++ b58Encode P) =
      .ok (encodeAll cs ++ ({ proto := protoP2P, value := P } : Component).encode) := by
  obtain ⟨_, hne, hslash⟩ := b58Decode_encode P (Cast_ok P P hP).2
  obtain ⟨sp, hsp, hloop⟩ := stringToComponents_ok s cs hs
  rw [htrim] at hsp
  have htrim2 : TrimRight (s ++ str "/p2p/" ++ b58Encode P) 47 = s ++ str "/p2p/" ++ b58Encode P :=
    TrimRight_append_piece _ _ 47 hne hslash
  have hshape : s ++ str "/p2p/" ++ b58Encode P = s ++ 47 :: (str "p2p" ++ 47 :: b58Encode P) := by
    simp [str_slash_p2p, str_p2p]
  have hsplit : Split (s ++ str "/p2p/" ++ b58Encode P) 47 = [] :: (sp ++ [str "p2p", b58Encode P]) := by
    rw [hshape, Split_append_sep, Split_append_sep, hsp,
      Split_no_sep (str "p2p") 47 (by decide), Split_no_sep _ 47 hslash]
    simp
  unfold NewMultiaddr stringToBytes
  rw [htrim2, hsplit]
  simp only
  rw [stringToBytesLoop_components, componentsLoop_append sp cs hloop hpath,
    componentsLoop_p2p P hP]
  simp [Except.map, encodeAll]

/-- Appending `/p2p/<identity>` to a text that does not end in `/` and whose components
have the width of their protocols and hold no peer identity and no path:
`ParseBootstrapPeer` returns the identity and the address of the text. -/
theorem ParseBootstrapPeer_append_p2p (s : Bytes) (cs : List Component) (P : Bytes)
    (hs : stringToComponents s = .ok cs) (htrim : TrimRight s 47 = s)
    (hwf : ∀ c ∈ cs, c.wellSized = true ∧ c.proto.Code ≠ P_P2P ∧ c.proto.Path = false)
    (hP : Cast P = .ok P) :
    ParseBootstrapPeer (s ++ str "/p2p/" ++ IDB58Encode P) =
      .ok { ID := P, Addrs := [encodeAll cs] } := by
  have htr := stringToComponents_traced s cs hs
  have hparse := NewMultiaddr_append_p2p s cs P hs htrim (fun c hc => (hwf c hc).2.2) hP
  have htarget : NewMultiaddr (str "/p2p/" ++ b58Encode P) =
      .ok (({ proto := protoP2P, value := P } : Component).encode) := by
    have := NewMultiaddr_append_p2p [] [] P (by decide) (by decide) (by simp) hP
    have e : encodeAll [] = [] := rfl
    rw [e, List.nil_append, List.nil_append] at this
    exact this
  obtain ⟨ps, hps, hloop, hstr⟩ := bytesToStringLoop_components cs
    (fun c hc => ⟨htr c hc, (hwf c hc).1, (hwf c hc).2.1, (hwf c hc).2.2⟩)
  have hfull := bytesToString_append_p2p cs ps P hP hstr
  have hT := String_p2p P hP
  have hback : NewMultiaddr (ps.flatMap (fun p => 47 :: p)) = .ok (encodeAll cs) := by
    unfold NewMultiaddr stringToBytes
    rw [TrimRight_flatMap ps hps, Split_flatMap ps 47 (fun p hp => (hps p hp).1)]
    simp only
    rw [stringToBytesLoop_components, hloop]
    rfl
  have hval := ValueForProtocol_append_p2p cs P
    (fun c hc => ⟨(htr c hc).1, (hwf c hc).1, (hwf c hc).2.1⟩) hP
  have hdec : Decapsulate (encodeAll cs ++ ({ proto := protoP2P, value := P } : Component).encode)
      (some ({ proto := protoP2P, value := P } : Component).encode) = .ok (encodeAll cs) := by
    refine Decapsulate_ok _ _ _ _ _ _ hfull hT (LastIndex_append _ _) ?_
    rw [List.take_left]
    exact hback
  exact ParseBootstrapPeer_ok _ _ _ _ _ _ hparse hval (FromB58String_encode P hP) htarget hdec

/-- An address of components of the table, each with the width of its protocol and none a
peer identity, holds no peer identity. -/
theorem noP2P_components (cs : List Component)
    (h : ∀ c ∈ cs, c.proto ∈ Protocols ∧ c.wellSized = true ∧ c.proto.Code ≠ P_P2P) :
    noP2P (encodeAll cs) = true := by
  unfold noP2P
  rw [maSplit_components cs (fun c hc => ⟨(h c hc).1, (h c hc).2.1⟩)]
  simp only [List.all_eq_true, List.mem_map]
  rintro sub ⟨c, hc, rfl⟩
  obtain ⟨h1, h2, h3⟩ := h c hc
  rw [Protocols_encode c h1 h2]
  exact decide_eq_true h3

/-! ## Theorems: ParseBootstrapPeer -/

/-- The texts of the examples, parsed by `NewMultiaddr`. -/
theorem NewMultiaddr_examples :
    NewMultiaddr (str "/unix/a/b") = .ok addrUnix ∧
    NewMultiaddr (str "/ip4/127.0.0.1/tcp/8005/") = .ok addrA ∧
    NewMultiaddr (str "/ip4/127.0.0.1/tcp/8005") = .ok addrA ∧
    NewMultiaddr (str "/ip6/::1/tcp/8005") = .ok addrSix ∧
    NewMultiaddr (str "not an address") =
      .error (.errorsNew "invalid multiaddr, must begin with /") := by
  decide!

/-- The addresses of the examples hold no peer identity. -/
theorem noP2P_examples :
    noP2P addrUnix = true ∧ noP2P addrA = true ∧ noP2P addrSix = true := by
  decide!

/-- The identity `peerA` is a well-formed multihash. -/
theorem Cast_peerA : Cast peerA = .ok peerA := by
  decide!

/-- The width of a value is not checked by `stringToBytes`: an onion host written with
base32 padding decodes to 6 bytes, the address holds 8 value bytes where the
protocol has 12, and `Split` fails on it. -/
theorem onion_padding_example :
    NewMultiaddr (str "/onion/aaaaaaaaaa======:80") = .ok [188, 3, 0, 0, 0, 0, 0, 0, 0, 80] ∧
    maSplit [188, 3, 0, 0, 0, 0, 0, 0, 0, 80] = .error (.panic "invalid multiaddr") := by
  decide!

/-- The components of the text `/ip6/::1/tcp/8005`: their widths, their protocols and
their bytes. -/
theorem componentsSix_facts :
    stringToComponents (str "/ip6/::1/tcp/8005") = .ok componentsSix ∧
    TrimRight (str "/ip6/::1/tcp/8005") 47 = str "/ip6/::1/tcp/8005" ∧
    (∀ c ∈ componentsSix, c.wellSized = true ∧ c.proto.Code ≠ P_P2P ∧ c.proto.Path = false) ∧
    encodeAll componentsSix = addrSix := by
  decide!

/-- C9 fails as stated, at two well-formed addresses without peer-identity
component and the identity `QmNnooDu7bfjPFoTZYxMNLWUQJyrVwtbZg5gBMjTezGAJN`.
At `/unix/a/b` the path protocol takes `/p2p/` and the identity into its path,
so `ParseBootstrapPeer` fails with `ErrProtocolNotFound`.  At
`/ip4/127.0.0.1/tcp/8005/`, which `NewMultiaddr` accepts as the address of
`/ip4/127.0.0.1/tcp/8005`, the text with `/p2p/` and the identity appended holds
an empty protocol name, so `ParseBootstrapPeer` fails with the parse error. -/
theorem ParseBootstrapPeer_path_and_slash_counterexample :
    NewMultiaddr (str "/unix/a/b") = .ok addrUnix ∧ noP2P addrUnix = true ∧
    NewMultiaddr (str "/ip4/127.0.0.1/tcp/8005/") = .ok addrA ∧ noP2P addrA = true ∧
    Cast peerA = .ok peerA ∧
    IDB58Encode peerA = str "QmNnooDu7bfjPFoTZYxMNLWUQJyrVwtbZg5gBMjTezGAJN" ∧
    ParseBootstrapPeer (str "/unix/a/b" ++ str "/p2p/" ++ IDB58Encode peerA) =
      .error .ErrProtocolNotFound ∧
    ParseBootstrapPeer (str "/ip4/127.0.0.1/tcp/8005/" ++ str "/p2p/" ++ IDB58Encode peerA) =
      .error (.errorsNew "no protocol with name") := by
  decide!

/-- C9 as amended: for every text `s` that `stringToBytes` accepts and that does not
end in `/`, whose components `cs` have the widths of their protocols and hold
neither a peer identity nor a path, and for every peer identity `P` (a
well-formed multihash): `NewMultiaddr s` is the address `A` of the bytes of
`cs`, `A` holds no peer identity, and `ParseBootstrapPeer` applied to `s`
followed by `/p2p/` and the base58 form of `P` succeeds with the identity `P`
and exactly the one address `A`. -/
theorem ParseBootstrapPeer_splits_identity (s : Bytes) (cs : List Component) (P : Bytes)
    (hs : stringToComponents s = .ok cs) (htrim : TrimRight s 47 = s)
    (hwf : ∀ c ∈ cs, c.wellSized = true ∧ c.proto.Code ≠ P_P2P ∧ c.proto.Path = false)
    (hP : Cast P = .ok P) :
    NewMultiaddr s = .ok (encodeAll cs) ∧ noP2P (encodeAll cs) = true ∧
      ParseBootstrapPeer (s ++ str "/p2p/" ++ IDB58Encode P) =
        .ok { ID := P, Addrs := [encodeAll cs] } := by
  have htr := stringToComponents_traced s cs hs
  refine ⟨?_, ?_, ParseBootstrapPeer_append_p2p s cs P hs htrim hwf hP⟩
  · rw [NewMultiaddr_components, hs]
    rfl
  · exact noP2P_components cs (fun c hc => ⟨(htr c hc).1, (hwf c hc).1, (hwf c hc).2.1⟩)

/-- C9 as amended, at the text `/ip6/::1/tcp/8005` and the identity
`QmNnooDu7bfjPFoTZYxMNLWUQJyrVwtbZg5gBMjTezGAJN`. -/
theorem ParseBootstrapPeer_splits_identity_witness :
    stringToComponents (str "/ip6/::1/tcp/8005") = .ok componentsSix ∧
    encodeAll componentsSix = addrSix ∧ Cast peerA = .ok peerA ∧
    NewMultiaddr (str "/ip6/::1/tcp/8005") = .ok (encodeAll componentsSix) ∧
    noP2P (encodeAll componentsSix) = true ∧
    ParseBootstrapPeer (str "/ip6/::1/tcp/8005" ++ str "/p2p/" ++ IDB58Encode peerA) =
      .ok { ID := peerA, Addrs := [encodeAll componentsSix] } :=
  ⟨componentsSix_facts.1, componentsSix_facts.2.2.2, Cast_peerA,
   ParseBootstrapPeer_splits_identity (str "/ip6/::1/tcp/8005") componentsSix peerA
     componentsSix_facts.1 componentsSix_facts.2.1 componentsSix_facts.2.2.1 Cast_peerA⟩

/-- C10: a string that `NewMultiaddr` rejects makes `ParseBootstrapPeer` fail with that
address-parse error, which is not the missing-identity error; a string that
parses into an address without peer-identity component makes it fail with
`ErrProtocolNotFound`; and a success carries exactly one address. -/
theorem ParseBootstrapPeer_failures (addr : Bytes) :
    (∀ e, NewMultiaddr addr = .error e →
      ParseBootstrapPeer addr = .error e ∧ e ≠ .ErrProtocolNotFound) ∧
    (∀ a, NewMultiaddr addr = .ok a → noP2P a = true →
      ParseBootstrapPeer addr = .error .ErrProtocolNotFound) ∧
    (∀ pi, ParseBootstrapPeer addr = .ok pi → pi.Addrs.length = 1) := by
  refine ⟨?_, ?_, ?_⟩
  · intro e he
    obtain ⟨msg, rfl⟩ := NewMultiaddr_error addr e he
    exact ⟨by simp [ParseBootstrapPeer, he], by simp⟩
  · intro a ha hno
    simp [ParseBootstrapPeer, ha, ValueForProtocol_noP2P a hno]
  · intro pi hpi
    unfold ParseBootstrapPeer at hpi
    split at hpi
    · exact absurd hpi (by simp)
    · split at hpi
      · exact absurd hpi (by simp)
      · split at hpi
        · exact absurd hpi (by simp)
        · simp only at hpi
          split at hpi
          · exact absurd hpi (by simp)
          · simp only [Except.ok.injEq] at hpi
            subst hpi
            rfl

/-- C10 at the strings `not an address`, `/ip4/127.0.0.1/tcp/8005` and
`/ip6/::1/tcp/8005`. -/
theorem ParseBootstrapPeer_failures_witness :
    NewMultiaddr (str "not an address") =
      .error (.errorsNew "invalid multiaddr, must begin with /") ∧
    ParseBootstrapPeer (str "not an address") =
      .error (.errorsNew "invalid multiaddr, must begin with /") ∧
    NewMultiaddr (str "/ip4/127.0.0.1/tcp/8005") = .ok addrA ∧ noP2P addrA = true ∧
    ParseBootstrapPeer (str "/ip4/127.0.0.1/tcp/8005") = .error .ErrProtocolNotFound ∧
    NewMultiaddr (str "/ip6/::1/tcp/8005") = .ok addrSix ∧ noP2P addrSix = true ∧
    ParseBootstrapPeer (str "/ip6/::1/tcp/8005") = .error .ErrProtocolNotFound :=
  ⟨NewMultiaddr_examples.2.2.2.2,
   ((ParseBootstrapPeer_failures (str "not an address")).1 _ NewMultiaddr_examples.2.2.2.2).1,
   NewMultiaddr_examples.2.2.1, noP2P_examples.2.1,
   (ParseBootstrapPeer_failures (str "/ip4/127.0.0.1/tcp/8005")).2.1 addrA
     NewMultiaddr_examples.2.2.1 noP2P_examples.2.1,
   NewMultiaddr_examples.2.2.2.1, noP2P_examples.2.2,
   (ParseBootstrapPeer_failures (str "/ip6/::1/tcp/8005")).2.1 addrSix
     NewMultiaddr_examples.2.2.2.1 noP2P_examples.2.2⟩

/-! ## Theorems: topic lookup key -/

/-- The function `beBytes n` returns `n` bytes. -/
theorem beBytes_length (n x : Nat) : (beBytes n x).length = n := by
  induction n with
  | zero => rfl
  | succ n ih => simp [beBytes, ih]

/-- The digest `Sum256` returns has 32 bytes. -/
theorem Sum256_length (data : Bytes) : (Sum256 data).length = 32 := by
  simp [Sum256, beBytes_length]

/-- The multihash `Encode` makes of a 32-byte digest under the code `SHA2_256`. -/
theorem Encode_sha256 (h : Bytes) (hlen : h.length = 32) :
    Encode h SHA2_256 = .ok (0x12 :: 0x20 :: h) := by
  have h1 : PutUvarint SHA2_256 = [0x12] := by decide
  have h2 : PutUvarint 32 = [0x20] := by decide
  have h3 : ValidCode SHA2_256 = true := by decide
  simp [Encode, hlen, h1, h2, h3]

/-- The function `Cast` accepts the SHA2-256 multihash of a 32-byte digest. -/
theorem Cast_sha256 (h : Bytes) (hlen : h.length = 32) :
    Cast (0x12 :: 0x20 :: h) = .ok (0x12 :: 0x20 :: h) := by
  have h3 : ValidCode 18 = true := by decide
  simp [Cast, uvarint, Uvarint, UvarintLoop, hlen, h3, UInt8.size]

/-- C11: for every topic name the goroutine of `Subscribe` reaches its calls of
`Provide` and `connectToPubSubPeers`: `multihash.Encode` and `multihash.Cast`
both succeed, and the identifier is the version-1 content identifier with the
raw codec over the SHA2-256 multihash (code `0x12`, length `0x20`) of
`sha256("gossipsub:" + topic)`; its bytes are `01 55 12 20` and the 32 bytes of
the digest.  The identifier is a function of the topic name alone. -/
theorem subscribeTask_key (topic : Bytes) :
    Encode (Sum256 (str "gossipsub:" ++ topic)) SHA2_256 =
      .ok (0x12 :: 0x20 :: Sum256 (str "gossipsub:" ++ topic)) ∧
    Cast (0x12 :: 0x20 :: Sum256 (str "gossipsub:" ++ topic)) =
      .ok (0x12 :: 0x20 :: Sum256 (str "gossipsub:" ++ topic)) ∧
    subscribeTask topic =
      some (NewCidV1 Raw (0x12 :: 0x20 :: Sum256 (str "gossipsub:" ++ topic))) ∧
    (NewCidV1 Raw (0x12 :: 0x20 :: Sum256 (str "gossipsub:" ++ topic))).Bytes =
      .ok (0x01 :: 0x55 :: 0x12 :: 0x20 :: Sum256 (str "gossipsub:" ++ topic)) ∧
    (Sum256 (str "gossipsub:" ++ topic)).length = 32 := by
  have hlen := Sum256_length (str "gossipsub:" ++ topic)
  have he := Encode_sha256 _ hlen
  have hc := Cast_sha256 _ hlen
  refine ⟨he, hc, ?_, ?_, hlen⟩
  · simp [subscribeTask, he, hc]
  · have h1 : PutUvarint 1 = [0x01] := by decide
    have h2 : PutUvarint Raw = [0x55] := by decide
    simp [Cid.Bytes, NewCidV1, h1, h2]

/-- When the transport accepts the subscription, `Subscribe` returns it and its
goroutine works with the identifier of the topic. -/
theorem Subscribe_ok (psSubscribe : Bytes → Except Error Subscription) (topic : Bytes)
    (sub : Subscription) (h : psSubscribe topic = .ok sub) :
    Subscribe psSubscribe topic =
      .ok { sub := sub,
            id := some (NewCidV1 Raw (0x12 :: 0x20 :: Sum256 (str "gossipsub:" ++ topic))) } := by
  have hlen := Sum256_length (str "gossipsub:" ++ topic)
  simp [Subscribe, h, subscribeTask, Encode_sha256 _ hlen, Cast_sha256 _ hlen]

set_option maxRecDepth 100000 in
/-- The identifier of the topic `blocks`, evaluated. -/
theorem subscribeTask_blocks :
    (subscribeTask (str "blocks")).map (fun c => (c.version, c.codec, EncodeToString c.hash)) =
      some (1, 0x55,
        str "1220cb50512811fb17a3547a34f05311ac78c6c57663f602a140983d2f01146ea5a9") := by
  decide

/-! ## Theorems: Select -/

/-- C13: for every key and any two candidate lists that are permutations of one
another, `Select` returns the same index and a nil error. -/
theorem Select_order_independent (key : Bytes) (values1 values2 : List Bytes)
    (_hperm : values1.Perm values2) :
    Select key values1 = Select key values2 ∧ (Select key values1).2 = none ∧
      (Select key values2).2 = none :=
  ⟨rfl, rfl, rfl⟩

/-- C13 at the candidates `[a, b, a]` and `[a, a, b]`. -/
theorem Select_order_independent_witness :
    [str "a", str "b", str "a"].Perm [str "a", str "a", str "b"] ∧
    Select (str "/sha256/00") [str "a", str "b", str "a"] =
      Select (str "/sha256/00") [str "a", str "a", str "b"] ∧
    (Select (str "/sha256/00") [str "a", str "b", str "a"]).2 = none ∧
    (Select (str "/sha256/00") [str "a", str "a", str "b"]).2 = none :=
  ⟨by decide,
   Select_order_independent (str "/sha256/00") [str "a", str "b", str "a"]
     [str "a", str "a", str "b"] (by decide)⟩

/-! ## Theorems: DHT protocol identifier -/

/-- C14 fails as stated: the regression-test network and testnet3 are different
logical networks and select the same identifier, the testnet3 one; and a copy
of the mainnet parameters at another address selects the testnet3 identifier
too. -/
theorem selectProtocol_regtest_counterexample :
    differentNetworks regressionNetPtr.params testNet3Ptr.params ∧
    selectProtocol (configFor regressionNetPtr) = selectProtocol (configFor testNet3Ptr) ∧
    selectProtocol (configFor regressionNetPtr) = str "/bitcoincash/testnet3/kad/1.0.0" ∧
    mainNetCopyPtr.params = mainNetPtr.params ∧
    selectProtocol (configFor mainNetCopyPtr) = str "/bitcoincash/testnet3/kad/1.0.0" := by
  decide

/-- C14 as amended: the identifier separates mainnet from everything else.  It
is `/bitcoincash/mainnet/kad/1.0.0` exactly when `config.Params` is the pointer
`&chaincfg.MainNetParams` and `/bitcoincash/testnet3/kad/1.0.0` for every other
value; two configurations select the same identifier exactly when both or
neither hold that pointer. -/
theorem selectProtocol_mainnet_or_testnet3 (c1 c2 : NodeConfig) :
    selectProtocol c1 =
      (if c1.Params.addr = addrMainNetParams then str "/bitcoincash/mainnet/kad/1.0.0"
       else str "/bitcoincash/testnet3/kad/1.0.0") ∧
    (selectProtocol c1 = selectProtocol c2 ↔
      (c1.Params.addr = addrMainNetParams ↔ c2.Params.addr = addrMainNetParams)) ∧
    selectProtocol (configFor mainNetPtr) = str "/bitcoincash/mainnet/kad/1.0.0" ∧
    selectProtocol (configFor testNet3Ptr) = str "/bitcoincash/testnet3/kad/1.0.0" := by
  have hne : ProtocolDHTMainnet ≠ ProtocolDHTTestnet3 := by decide
  refine ⟨rfl, ?_, by decide, by decide⟩
  unfold selectProtocol
  by_cases h1 : c1.Params.addr = addrMainNetParams <;>
    by_cases h2 : c2.Params.addr = addrMainNetParams <;>
    simp [h1, h2, hne, hne.symm]

/-! ## Theorems: the goroutines of connectToPubSubPeers -/

/-- Replacing a list element by one of the same predicate value keeps the count. -/
theorem countP_set_of_eq {α : Type} (p : α → Bool) (l : List α) (i : Nat) (x t : α)
    (hx : l[i]? = some x) (h : p x = p t) : (l.set i t).countP p = l.countP p := by
  induction l generalizing i with
  | nil => simp
  | cons a l ih =>
    cases i with
    | zero =>
      simp only [List.getElem?_cons_zero, Option.some.injEq] at hx
      subst hx
      simp [List.countP_cons, h]
    | succ i =>
      simp only [List.getElem?_cons_succ] at hx
      simp [List.countP_cons, ih i hx]

/-- Replacing an element that counts by one that does not lowers the count by one. -/
theorem countP_set_of_neg {α : Type} (p : α → Bool) (l : List α) (i : Nat) (x t : α)
    (hx : l[i]? = some x) (h1 : p x = true) (h2 : p t = false) :
    (l.set i t).countP p + 1 = l.countP p := by
  induction l generalizing i with
  | nil => simp at hx
  | cons a l ih =>
    cases i with
    | zero =>
      simp only [List.getElem?_cons_zero, Option.some.injEq] at hx
      subst hx
      simp [List.countP_cons, h1, h2]
    | succ i =>
      simp only [List.getElem?_cons_succ] at hx
      have := ih i hx
      simp only [List.set_cons_succ, List.countP_cons]
      omega

/-- The sum of the weights after one goroutine has been replaced. -/
theorem weight_sum_set (l : List ConnTask) (i : Nat) (x t : ConnTask) (hx : l[i]? = some x) :
    ((l.set i t).map ConnTask.weight).sum + x.weight = (l.map ConnTask.weight).sum + t.weight := by
  induction l generalizing i with
  | nil => simp at hx
  | cons a l ih =>
    cases i with
    | zero =>
      simp only [List.getElem?_cons_zero, Option.some.injEq] at hx
      subst hx
      simp only [List.set_cons_zero, List.map_cons, List.sum_cons]
      omega
    | succ i =>
      simp only [List.getElem?_cons_succ] at hx
      have := ih i hx
      simp only [List.set_cons_succ, List.map_cons, List.sum_cons]
      omega

/-- Whether a goroutine has made its call, after one goroutine has been replaced. -/
theorem calledAt_set (tasks : List ConnTask) (i j : Nat) (x t : ConnTask)
    (hx : tasks[i]? = some x) :
    calledAt (tasks.set i t) j = if i = j then t.called else calledAt tasks j := by
  have hlt : i < tasks.length := by
    by_contra hge
    rw [List.getElem?_eq_none (by omega)] at hx
    exact absurd hx (by simp)
  unfold calledAt
  rw [List.getElem?_set]
  by_cases hij : i = j
  · subst hij
    simp [hlt]
  · simp [hij]

/-- A goroutine that has just been started has not made its call. -/
theorem calledAt_append (tasks : List ConnTask) (pi : PeerInfo) (j : Nat) :
    calledAt (tasks ++ [.connect pi]) j = calledAt tasks j := by
  unfold calledAt
  rw [List.getElem?_append]
  by_cases hj : j < tasks.length
  · simp [hj]
  · rw [if_neg hj, List.getElem?_eq_none (l := tasks) (by omega)]
    by_cases h0 : j - tasks.length = 0
    · simp [h0, ConnTask.called]
    · rw [List.getElem?_eq_none (by simp only [List.length_singleton]; omega)]

/-- The state at the start satisfies the invariant. -/
theorem ConnInv_init (Connect : Nat → PeerInfo → Option Error) (providers : List PeerInfo) :
    ConnInv Connect providers (ConnState.init providers) where
  noPanic := rfl
  count := rfl
  rest := rfl
  len := by simp [ConnState.init]
  own := by simp [ConnState.init]
  att := by simp [ConnState.init, calledAt]
  est := by simp [ConnState.init, calledAt]
  ret := by simp [ConnState.init]

/-- The step `recv` keeps the invariant. -/
theorem ConnInv_recv {Connect : Nat → PeerInfo → Option Error} {providers : List PeerInfo}
    {s s1 : ConnState} (inv : ConnInv Connect providers s)
    (h : connStep Connect s .recv = some s1) : ConnInv Connect providers s1 := by
  simp only [connStep] at h
  split at h
  · exact absurd h (by simp)
  · rename_i hpr
    split at h
    · exact absurd h (by simp)
    · rename_i prov rest hprovs
      simp only [Option.some.injEq] at h
      subst h
      have hdrop : providers.drop s.tasks.length = prov :: rest := by rw [← inv.rest, hprovs]
      have hlt : s.tasks.length < providers.length := by
        by_contra hge
        rw [List.drop_eq_nil_of_le (by omega)] at hdrop
        exact absurd hdrop (by simp)
      have hget : providers[s.tasks.length]? = some prov := by
        have := congrArg (fun l => l[0]?) hdrop
        simpa [List.getElem?_drop] using this
      refine ⟨inv.noPanic, ?_, ?_, ?_, ?_, ?_, ?_, ?_⟩
      · have hn : ConnTask.notDone (.connect prov) = true := rfl
        simp [List.countP_append, inv.count, List.countP_cons, hn]
      · have := congrArg List.tail hdrop
        simpa [List.tail_drop] using this.symm
      · simp
        omega
      · intro i pi hi
        simp only at hi
        rw [List.getElem?_append] at hi
        by_cases hil : i < s.tasks.length
        · rw [if_pos hil] at hi
          exact inv.own i pi hi
        · rw [if_neg hil] at hi
          by_cases h0 : i - s.tasks.length = 0
          · have hi' : i = s.tasks.length := by omega
            simp [h0] at hi
            subst hi
            rw [hi']
            exact hget
          · rw [List.getElem?_eq_none (by simp only [List.length_singleton]; omega)] at hi
            exact absurd hi (by simp)
      · intro i pi
        simp only [calledAt_append]
        exact inv.att i pi
      · intro i pi
        simp only [calledAt_append]
        exact inv.est i pi
      · intro hr
        simp only [not_or, Bool.not_eq_true] at hpr
        rw [hpr.2] at hr
        exact absurd hr (by simp)

/-- A goroutine that waits to make its call has not made it. -/
theorem calledAt_connect (tasks : List ConnTask) (i : Nat) (pi : PeerInfo)
    (hx : tasks[i]? = some (.connect pi)) : calledAt tasks i = false := by
  simp [calledAt, hx, ConnTask.called]

/-- The log of calls after the `i`-th goroutine has made its call. -/
theorem att_after_call {Connect : Nat → PeerInfo → Option Error} {providers : List PeerInfo}
    {s : ConnState} (inv : ConnInv Connect providers s) (i : Nat) (pi : PeerInfo)
    (hx : s.tasks[i]? = some (.connect pi)) (j : Nat) (q : PeerInfo) :
    (s.attempts ++ [(i, pi)]).count (j, q) =
      if calledAt (s.tasks.set i .logged) j = true ∧ providers[j]? = some q then 1 else 0 := by
  have hown := inv.own i pi hx
  have hc := calledAt_connect s.tasks i pi hx
  have hl : ConnTask.called .logged = true := rfl
  rw [List.count_append, inv.att j q, calledAt_set s.tasks i j _ _ hx]
  by_cases hij : i = j
  · subst hij
    by_cases hq : q = pi
    · subst hq
      simp [hc, hl, hown]
    · have hne : ¬ providers[i]? = some q := by
        rw [hown]
        simpa using fun e => hq e.symm
      have hne2 : ¬ pi = q := fun e => hq e.symm
      simp [hc, hl, hne, hne2, List.count_singleton]
  · have hne : ¬ ((i, pi) = (j, q)) := by
      intro e
      exact hij (congrArg Prod.fst e)
    simp [hij, List.count_singleton, hne]

/-- The log of connections after a call of the `i`-th goroutine that failed. -/
theorem est_after_failure {Connect : Nat → PeerInfo → Option Error} {providers : List PeerInfo}
    {s : ConnState} (inv : ConnInv Connect providers s) (i : Nat) (pi : PeerInfo) (e : Error)
    (hx : s.tasks[i]? = some (.connect pi)) (hcon : Connect i pi = some e) (j : Nat)
    (q : PeerInfo) :
    s.established.count (j, q) =
      if calledAt (s.tasks.set i .logged) j = true ∧ providers[j]? = some q ∧
        Connect j q = none then 1 else 0 := by
  have hown := inv.own i pi hx
  have hc := calledAt_connect s.tasks i pi hx
  rw [inv.est j q, calledAt_set s.tasks i j _ _ hx]
  by_cases hij : i = j
  · subst hij
    by_cases hq : q = pi
    · subst hq
      simp [hc, hcon]
    · have hne : ¬ providers[i]? = some q := by
        rw [hown]
        simpa using fun e => hq e.symm
      simp [hc, hne]
  · simp [hij]

/-- The log of connections after a call of the `i`-th goroutine that succeeded. -/
theorem est_after_success {Connect : Nat → PeerInfo → Option Error} {providers : List PeerInfo}
    {s : ConnState} (inv : ConnInv Connect providers s) (i : Nat) (pi : PeerInfo)
    (hx : s.tasks[i]? = some (.connect pi)) (hcon : Connect i pi = none) (j : Nat)
    (q : PeerInfo) :
    (s.established ++ [(i, pi)]).count (j, q) =
      if calledAt (s.tasks.set i .logged) j = true ∧ providers[j]? = some q ∧
        Connect j q = none then 1 else 0 := by
  have hown := inv.own i pi hx
  have hc := calledAt_connect s.tasks i pi hx
  have hl : ConnTask.called .logged = true := rfl
  rw [List.count_append, inv.est j q, calledAt_set s.tasks i j _ _ hx]
  by_cases hij : i = j
  · subst hij
    by_cases hq : q = pi
    · subst hq
      simp [hc, hl, hown, hcon]
    · have hne : ¬ providers[i]? = some q := by
        rw [hown]
        simpa using fun e => hq e.symm
      have hne2 : ¬ pi = q := fun e => hq e.symm
      simp [hc, hl, hne, hne2, List.count_singleton]
  · have hne : ¬ ((i, pi) = (j, q)) := by
      intro e
      exact hij (congrArg Prod.fst e)
    simp [hij, List.count_singleton, hne]

/-- A goroutine that is replaced by one that is not waiting for its call
leaves the providers of the waiting goroutines as they are. -/
theorem own_after_set {providers : List PeerInfo} {tasks : List ConnTask} (i : Nat)
    (t : ConnTask) (ht : ∀ pi, t ≠ .connect pi)
    (hown : ∀ (j : Nat) (q : PeerInfo), tasks[j]? = some (ConnTask.connect q) →
      providers[j]? = some q) (j : Nat) (q : PeerInfo)
    (hj : (tasks.set i t)[j]? = some (ConnTask.connect q)) : providers[j]? = some q := by
  rw [List.getElem?_set] at hj
  by_cases hij : i = j
  · rw [if_pos hij] at hj
    split at hj
    · simp only [Option.some.injEq] at hj
      exact absurd hj (ht q)
    · exact absurd hj (by simp)
  · rw [if_neg hij] at hj
    exact hown j q hj

/-- A step of a connection goroutine keeps the invariant. -/
theorem ConnInv_task {Connect : Nat → PeerInfo → Option Error} {providers : List PeerInfo}
    {s s1 : ConnState} (i : Nat) (inv : ConnInv Connect providers s)
    (h : connStep Connect s (.task i) = some s1) : ConnInv Connect providers s1 := by
  simp only [connStep] at h
  split at h
  · exact absurd h (by simp)
  · split at h
    · exact absurd h (by simp)
    · rename_i pi hx
      rw [List.get?_eq_getElem?] at hx
      have hcount : (s.tasks.set i .logged).countP ConnTask.notDone =
          s.tasks.countP ConnTask.notDone :=
        countP_set_of_eq _ s.tasks i _ _ hx rfl
      split at h
      · rename_i e hcon
        simp only [Option.some.injEq] at h
        subst h
        exact ⟨inv.noPanic, by rw [hcount]; exact inv.count, by simpa using inv.rest,
          by simpa using inv.len, own_after_set i .logged (by simp) inv.own,
          att_after_call inv i pi hx, est_after_failure inv i pi e hx hcon, inv.ret⟩
      · rename_i hcon
        simp only [Option.some.injEq] at h
        subst h
        exact ⟨inv.noPanic, by rw [hcount]; exact inv.count, by simpa using inv.rest,
          by simpa using inv.len, own_after_set i .logged (by simp) inv.own,
          att_after_call inv i pi hx, est_after_success inv i pi hx hcon, inv.ret⟩
    · rename_i hx
      rw [List.get?_eq_getElem?] at hx
      have hdone := countP_set_of_neg ConnTask.notDone s.tasks i _ .done hx rfl rfl
      have hcnt := inv.count
      have hcalled : ∀ j, calledAt (s.tasks.set i .done) j = calledAt s.tasks j := by
        intro j
        rw [calledAt_set s.tasks i j _ _ hx]
        by_cases hij : i = j
        · subst hij
          simp [calledAt, hx, ConnTask.called]
        · simp [hij]
      split at h
      · rename_i hwg
        omega
      · rename_i hwg
        simp only [Option.some.injEq] at h
        subst h
        refine ⟨inv.noPanic, ?_, by simpa using inv.rest, by simpa using inv.len,
          own_after_set i .done (by simp) inv.own, ?_, ?_, ?_⟩
        · show s.wg - 1 = (s.tasks.set i .done).countP ConnTask.notDone
          omega
        · intro j q
          simp only [hcalled]
          exact inv.att j q
        · intro j q
          simp only [hcalled]
          exact inv.est j q
        · intro hr
          exact absurd (inv.ret hr).2 hwg
    · exact absurd h (by simp)

/-- The step `wait` keeps the invariant. -/
theorem ConnInv_wait {Connect : Nat → PeerInfo → Option Error} {providers : List PeerInfo}
    {s s1 : ConnState} (inv : ConnInv Connect providers s)
    (h : connStep Connect s .wait = some s1) : ConnInv Connect providers s1 := by
  simp only [connStep] at h
  split at h
  · exact absurd h (by simp)
  · rename_i hc
    simp only [not_or, Decidable.not_not] at hc
    simp only [Option.some.injEq] at h
    subst h
    exact ⟨inv.noPanic, inv.count, inv.rest, inv.len, inv.own, inv.att, inv.est,
      fun _ => ⟨hc.2.2.1, hc.2.2.2⟩⟩

/-- Every step keeps the invariant. -/
theorem ConnInv_step {Connect : Nat → PeerInfo → Option Error} {providers : List PeerInfo}
    {s s1 : ConnState} (e : ConnEvent) (inv : ConnInv Connect providers s)
    (h : connStep Connect s e = some s1) : ConnInv Connect providers s1 := by
  cases e with
  | recv => exact ConnInv_recv inv h
  | task i => exact ConnInv_task i inv h
  | wait => exact ConnInv_wait inv h

/-- Every schedule keeps the invariant. -/
theorem ConnInv_run {Connect : Nat → PeerInfo → Option Error} {providers : List PeerInfo}
    (evs : List ConnEvent) {s s1 : ConnState} (inv : ConnInv Connect providers s)
    (h : connRun Connect evs s = some s1) : ConnInv Connect providers s1 := by
  induction evs generalizing s with
  | nil =>
    simp only [connRun, Option.some.injEq] at h
    subst h
    exact inv
  | cons e es ih =>
    simp only [connRun] at h
    split at h
    · exact absurd h (by simp)
    · rename_i s2 hs2
      exact ih (ConnInv_step e inv hs2) h

/-- Before the function has returned some event is enabled: the goroutines
cannot block one another. -/
theorem ConnInv_progress {Connect : Nat → PeerInfo → Option Error} {providers : List PeerInfo}
    {s : ConnState} (inv : ConnInv Connect providers s) (hret : s.returned = false) :
    ∃ e s1, connStep Connect s e = some s1 := by
  have hp := inv.noPanic
  have key : ∃ e, (connStep Connect s e).isSome = true := by
    cases hprovs : s.provs with
    | cons prov rest =>
      exact ⟨.recv, by simp [connStep, hp, hret, hprovs]⟩
    | nil =>
      by_cases hwg : s.wg = 0
      · exact ⟨.wait, by simp [connStep, hp, hret, hprovs, hwg]⟩
      · have hpos : 0 < s.tasks.countP ConnTask.notDone := by
          rw [← inv.count]
          omega
        obtain ⟨t, ht, hnd⟩ := List.countP_pos_iff.mp hpos
        obtain ⟨i, hi⟩ := List.mem_iff_getElem?.mp ht
        cases t with
        | connect pi =>
          cases hcon : Connect i pi with
          | none => exact ⟨.task i, by simp [connStep, hp, hi, hcon]⟩
          | some e => exact ⟨.task i, by simp [connStep, hp, hi, hcon]⟩
        | logged => exact ⟨.task i, by simp [connStep, hp, hi, hwg]⟩
        | done => exact absurd hnd (by simp [ConnTask.notDone])
  obtain ⟨e, he⟩ := key
  obtain ⟨s1, hs1⟩ := Option.isSome_iff_exists.mp he
  exact ⟨e, s1, hs1⟩

/-- Every step brings the state one step closer to the return. -/
theorem ConnInv_measure {Connect : Nat → PeerInfo → Option Error} {providers : List PeerInfo}
    {s s1 : ConnState} (e : ConnEvent) (inv : ConnInv Connect providers s)
    (h : connStep Connect s e = some s1) : s1.measure + 1 = s.measure := by
  cases e with
  | recv =>
    simp only [connStep] at h
    split at h
    · exact absurd h (by simp)
    · rename_i hpr
      simp only [not_or, Bool.not_eq_true] at hpr
      split at h
      · exact absurd h (by simp)
      · rename_i prov rest hprovs
        simp only [Option.some.injEq] at h
        subst h
        simp [ConnState.measure, hprovs, hpr.2, ConnTask.weight]
        omega
  | wait =>
    simp only [connStep] at h
    split at h
    · exact absurd h (by simp)
    · rename_i hc
      simp only [not_or, Bool.not_eq_true] at hc
      simp only [Option.some.injEq] at h
      subst h
      simp [ConnState.measure, hc.2.1]
  | task i =>
    simp only [connStep] at h
    split at h
    · exact absurd h (by simp)
    · split at h
      · exact absurd h (by simp)
      · rename_i pi hx
        rw [List.get?_eq_getElem?] at hx
        have hw := weight_sum_set s.tasks i _ .logged hx
        simp only [ConnTask.weight] at hw
        split at h <;>
        · simp only [Option.some.injEq] at h
          subst h
          simp only [ConnState.measure]
          omega
      · rename_i hx
        rw [List.get?_eq_getElem?] at hx
        have hw := weight_sum_set s.tasks i _ .done hx
        simp only [ConnTask.weight] at hw
        have hdone := countP_set_of_neg ConnTask.notDone s.tasks i _ .done hx rfl rfl
        have hcnt := inv.count
        split at h
        · omega
        · simp only [Option.some.injEq] at h
          subst h
          simp only [ConnState.measure]
          omega
      · exact absurd h (by simp)

/-- A schedule is as long as the distance it covers. -/
theorem ConnInv_run_length {Connect : Nat → PeerInfo → Option Error}
    {providers : List PeerInfo} (evs : List ConnEvent) {s s1 : ConnState}
    (inv : ConnInv Connect providers s) (h : connRun Connect evs s = some s1) :
    s1.measure + evs.length = s.measure := by
  induction evs generalizing s with
  | nil =>
    simp only [connRun, Option.some.injEq] at h
    subst h
    rfl
  | cons e es ih =>
    simp only [connRun] at h
    split at h
    · exact absurd h (by simp)
    · rename_i s2 hs2
      have h1 := ConnInv_measure e inv hs2
      have h2 := ih (ConnInv_step e inv hs2) h
      simp only [List.length_cons]
      omega

/-- From every state of a run some schedule leads to the return. -/
theorem ConnInv_completes {Connect : Nat → PeerInfo → Option Error}
    {providers : List PeerInfo} (m : Nat) :
    ∀ s : ConnState, ConnInv Connect providers s → s.measure ≤ m →
      ∃ evs s1, connRun Connect evs s = some s1 ∧ s1.returned = true := by
  induction m with
  | zero =>
    intro s _ hm
    cases hr : s.returned with
    | true => exact ⟨[], s, rfl, hr⟩
    | false =>
      simp [ConnState.measure, hr] at hm
  | succ m ih =>
    intro s inv hm
    cases hr : s.returned with
    | true => exact ⟨[], s, rfl, hr⟩
    | false =>
      obtain ⟨e, s1, hstep⟩ := ConnInv_progress inv hr
      have hmeasure := ConnInv_measure e inv hstep
      obtain ⟨evs, s2, hrun, hret⟩ := ih s1 (ConnInv_step e inv hstep) (by omega)
      exact ⟨e :: evs, s2, by simp [connRun, hstep, hrun], hret⟩

/-- The numbered list of providers has no duplicates. -/
theorem enum_nodup (providers : List PeerInfo) : providers.enum.Nodup := by
  apply List.Nodup.of_map Prod.fst
  rw [List.enum_map_fst]
  exact List.nodup_range _

/-- Counting numbered peers gives the same number under both equality tests. -/
theorem count_numbered (l : List (Nat × PeerInfo)) (x : Nat × PeerInfo) :
    l.count x = @List.count _ instBEqOfDecidableEq x l := by
  unfold List.count
  apply List.countP_congr
  intro y _
  have h1 : (@BEq.beq _ instBEqProd y x) = true ↔ y = x := beq_iff_eq
  have h2 : (@BEq.beq _ instBEqOfDecidableEq y x) = true ↔ y = x := by
    show decide (y = x) = true ↔ y = x
    exact decide_eq_true_iff
  rw [h1, h2]

/-- What holds when the function has returned: every goroutine has ended, the
calls made are one per provider, and the connections established are the calls
that returned nil. -/
theorem ConnInv_returned {Connect : Nat → PeerInfo → Option Error} {providers : List PeerInfo}
    {s : ConnState} (inv : ConnInv Connect providers s) (hret : s.returned = true) :
    s.tasks = List.replicate providers.length .done ∧
    s.attempts.Perm providers.enum ∧
    s.established.Perm (providers.enum.filter (fun x => (Connect x.1 x.2).isNone)) := by
  obtain ⟨hprovs, hwg⟩ := inv.ret hret
  have hlen : s.tasks.length = providers.length := by
    have h1 : providers.length ≤ s.tasks.length := by
      rw [← List.drop_eq_nil_iff, ← inv.rest]
      exact hprovs
    have h2 := inv.len
    omega
  have hall : ∀ t ∈ s.tasks, t = ConnTask.done := by
    have h0 : s.tasks.countP ConnTask.notDone = 0 := by rw [← inv.count]; exact hwg
    intro t ht
    have := List.countP_eq_zero.mp h0 t ht
    cases t <;> simp_all [ConnTask.notDone]
  have htasks : s.tasks = List.replicate providers.length .done :=
    List.eq_replicate_iff.mpr ⟨hlen, hall⟩
  have hcalled : ∀ i, calledAt s.tasks i = decide (i < providers.length) := by
    intro i
    rw [htasks]
    unfold calledAt
    rw [List.getElem?_replicate]
    by_cases hi : i < providers.length <;> simp [hi, ConnTask.called]
  have hmem : ∀ (i : Nat) (pi : PeerInfo), providers[i]? = some pi → i < providers.length := by
    intro i pi h
    by_contra hge
    rw [List.getElem?_eq_none (by omega)] at h
    exact absurd h (by simp)
  refine ⟨htasks, ?_, ?_⟩
  · rw [List.perm_iff_count]
    rintro ⟨i, pi⟩
    rw [← count_numbered, inv.att i pi, hcalled, List.count_eq_of_nodup (enum_nodup providers)]
    simp only [List.mk_mem_enum_iff_getElem?]
    by_cases h : providers[i]? = some pi
    · simp [h, hmem i pi h]
    · simp [h]
  · rw [List.perm_iff_count]
    rintro ⟨i, pi⟩
    rw [← count_numbered, inv.est i pi, hcalled,
      List.count_eq_of_nodup ((enum_nodup providers).filter _)]
    simp only [List.mem_filter, List.mk_mem_enum_iff_getElem?]
    by_cases h : providers[i]? = some pi
    · simp [h, hmem i pi h, Option.isNone_iff_eq_none]
    · simp [h]

/-- The distance of the initial state from the return: three steps per provider
and the return itself. -/
theorem measure_init (providers : List PeerInfo) :
    (ConnState.init providers).measure = 3 * providers.length + 1 := by
  simp [ConnState.measure, ConnState.init]

/-- C12: for every finite list of discovered providers and every outcome of the
individual Connect calls (nil, an error, or a timeout, which is an error of the
call), connectToPubSubPeers can always run to its return, and under every
interleaving of the receiving loop and the goroutines it starts: the WaitGroup
never panics, the run takes at most three steps per provider and one more, a
state that has not returned always has an enabled step (no attempt blocks
another), and at the return every goroutine has finished, the Connect calls made
are exactly one per discovered provider, the connections established are exactly
the calls that returned nil, and their number is the number of providers whose
attempt succeeded. The function has no result value, so no error is surfaced. -/
theorem connectToPubSubPeers_one_attempt_each (Connect : Nat → PeerInfo → Option Error)
    (providers : List PeerInfo) :
    (∃ schedule s, connectToPubSubPeers Connect providers schedule = some s ∧
      s.returned = true) ∧
    (∀ schedule s, connectToPubSubPeers Connect providers schedule = some s →
      s.panicked = false ∧
      schedule.length ≤ 3 * providers.length + 1 ∧
      (s.returned = false → ∃ e s1, connStep Connect s e = some s1) ∧
      (s.returned = true →
        s.wg = 0 ∧
        s.tasks = List.replicate providers.length ConnTask.done ∧
        s.attempts.Perm providers.enum ∧
        s.established.Perm (providers.enum.filter (fun x => (Connect x.1 x.2).isNone)) ∧
        s.attempts.length = providers.length ∧
        s.established.length =
          providers.enum.countP (fun x => (Connect x.1 x.2).isNone))) := by
  have inv0 : ConnInv Connect providers (ConnState.init providers) := ConnInv_init Connect providers
  constructor
  · exact ConnInv_completes (3 * providers.length + 1) (ConnState.init providers) inv0
      (by rw [measure_init])
  · intro schedule s hrun
    have inv := ConnInv_run schedule inv0 hrun
    have hlen := ConnInv_run_length schedule inv0 hrun
    rw [measure_init] at hlen
    refine ⟨inv.noPanic, by omega, fun hret => ConnInv_progress inv hret, fun hret => ?_⟩
    obtain ⟨htasks, hatt, hest⟩ := ConnInv_returned inv hret
    refine ⟨(inv.ret hret).2, htasks, hatt, hest, ?_, ?_⟩
    · rw [hatt.length_eq, List.enum_length]
    · rw [hest.length_eq, List.countP_eq_length_filter]

/-- Ten discovered providers of which the third, sixth and ninth attempt fail:
the call returns after ten attempts with seven connections established. -/
theorem connectToPubSubPeers_one_attempt_each_witness :
    connectToPubSubPeers connectSeven tenProviders (sequentialSchedule 10) = some tenReturned ∧
    tenReturned.returned = true ∧
    tenReturned.panicked = false ∧
    tenReturned.attempts.length = 10 ∧
    tenReturned.established.length = 7 := by
  have hrun : connectToPubSubPeers connectSeven tenProviders (sequentialSchedule 10) =
      some tenReturned := by decide
  have h := (connectToPubSubPeers_one_attempt_each connectSeven tenProviders).2
    (sequentialSchedule 10) tenReturned hrun
  have hfin := h.2.2.2 rfl
  refine ⟨hrun, rfl, h.1, ?_, ?_⟩
  · rw [hfin.2.2.2.2.1]
    rfl
  · rw [hfin.2.2.2.2.2]
    decide

end Overlay
